import Mathlib

/-!
# nnForge: the plain (CPU) network updater

A shallow embedding of `src/nnforge/plain/network_updater_plain.cpp`
(the constructor, `actual_update`, `get_max_batch_size` and
`update_buffers_configuration`), of `test` and `backprop` in
`src/nnforge/plain/softmax_layer_hessian_plain.cpp` and of
`src/nnforge/testing_complete_result_set.cpp`, together with the properties
proved about them.

Conventions of the embedding

* `unsigned int` counters (layer counts, layer ids, entry counts) are
  natural numbers: they are bounded by the sizes of the containers they
  index.  Iterators are positions in their container.
* `float` is exact rational arithmetic (`ℚ`); `softmax_layer_hessian_plain::test`,
  which calls `expf`, is embedded over any field with `expf` a function on it.
* Vectors that the driver indexes by computed offsets (`input_buf`,
  `actual_output_buf`, `temp_mse_buf`, the shared float buffers) are total
  maps from positions to values, and an iterator is just a position: an
  access outside such a container, which C++ leaves undefined, is not an
  event of the model. Bounds are stated separately where a property is
  about them, and the theorems that say of every call of a kind that it
  returns assume them (`InBounds`).
* The reorganisation of the per-replica lists (lines 111-119) and
  `testing_complete_result_set` work on vectors of vectors, which are lists
  here: there an access outside a vector makes the function fail (`none`).
* A call of `actual_update` is undefined (`Outcome.undefined_behaviour`)
  when `top()` / `pop()` meets an empty `offset_list`, when the
  reorganisation fails, and when the chaining loop of lines 160-169 runs on
  an empty pack.
* Calls into layer units are recorded in a trace and interpreted by an
  arbitrary semantics `Kernels.run`; every theorem holds for all of them.
* Fields named `entry_log` and `batch_log` are observation-only history
  variables: nothing in the embedded code reads them.
-/

namespace nnforge
namespace plain

/-! ## Topology and the layer chain builder (constructor, lines 33-59) -/

/-- One stage of the topology: the parts of `layer` the updater looks at. -/
structure layer where
  uuid : Nat
  is_empty_data : Bool
  deriving DecidableEq, Repr

/-- Unit returned by `single_layer_tester_plain_factory` for a uuid. -/
structure layer_tester_plain where
  uuid : Nat
  deriving DecidableEq, Repr

/-- Unit returned by `single_layer_updater_plain_factory` for a uuid. -/
structure layer_updater_plain where
  uuid : Nat
  deriving DecidableEq, Repr

/-- Factory lookup `get_tester_plain_layer(uuid)`. -/
def get_tester_plain_layer (uuid : Nat) : layer_tester_plain := ⟨uuid⟩

/-- Factory lookup `get_updater_plain_layer(uuid)`. -/
def get_updater_plain_layer (uuid : Nat) : layer_updater_plain := ⟨uuid⟩

/-- Lines 42-52: the scan for `start_layer_nonempty_weights_iterator`.
`it` is the position of the head of the remaining list; the result is
`(testing_layer_count, start_layer_nonempty_weights_iterator)`. -/
def find_start : List layer → (it tlc start : Nat) → Nat × Nat
  | [], _, tlc, start => (tlc, start)
  | l :: rest, it, tlc, _ =>
    -- start_layer_nonempty_weights_iterator = it;
    if !l.is_empty_data then (tlc, it)          -- break
    else find_start rest (it + 1) (tlc + 1) it  -- testing_layer_count++

/-- Members of `network_updater_plain` (and of its base `network_updater`)
that `actual_update` uses. -/
structure network_updater_plain where
  layer_list : List layer
  layer_config_count : Nat
  addition_list : Nat → ℚ
  multiplication_list : Nat → ℚ
  testing_layer_count : Nat
  start_layer_nonempty_weights_iterator : Nat
  tester_list : List layer_tester_plain
  updater_list : List layer_updater_plain
  profile_mode : Bool

/-- The constructor, lines 33-59.  `layer_config_count`, the scale
parameters and `profile_mode` are set by the base class and its callers. -/
def network_updater_plain.new (layer_list : List layer) (layer_config_count : Nat)
    (addition_list multiplication_list : Nat → ℚ) (profile_mode : Bool) :
    network_updater_plain :=
  let r := find_start layer_list 0 0 0
  { layer_list := layer_list
    layer_config_count := layer_config_count
    addition_list := addition_list
    multiplication_list := multiplication_list
    testing_layer_count := r.1
    start_layer_nonempty_weights_iterator := r.2
    -- lines 54-55: for (it = begin; it != start; ++it)
    tester_list := (layer_list.take r.2).map (fun l => get_tester_plain_layer l.uuid)
    -- lines 57-58: for (it = start; it != end; ++it)
    updater_list := (layer_list.drop r.2).map (fun l => get_updater_plain_layer l.uuid)
    profile_mode := profile_mode }


/-! ## Buffers, unit calls and their semantics -/

/-- Identity of a shared float vector (`additional_buffer_smart_ptr`);
`0` is the null pointer. -/
abbrev Buf := Nat

/-- The vector `input_converted_buf` allocated at line 127. -/
def input_converted_buf : Buf := 1

/-- The vector `initial_error_buf` allocated at line 125. -/
def initial_error_buf : Buf := 2

/-- Result of `layer_updater_plain::allocate_additional_buffers`. -/
structure updater_additional_buffer_set where
  output_neurons_buffer : Buf
  input_errors_buffer : Buf
  additional_buffers : List Buf
  deriving DecidableEq, Repr

/-- Arguments of `layer_tester_plain::test` (lines 229-237). -/
structure tester_test_args where
  unit : layer_tester_plain
  input_buffer : Buf
  additional_buffers : List Buf
  layer_pos : Nat
  input_config_pos : Nat
  output_config_pos : Nat
  entry_count : Nat
  deriving DecidableEq, Repr

/-- Arguments of `forward_dropout` (lines 261-269) and of
`backward_dropout` (lines 335-343). -/
structure dropout_args where
  unit : layer_updater_plain
  layer_id : Nat
  buffer : Buf
  config_pos : Nat
  rate : ℚ
  mask : Nat
  entry_count : Nat
  offset : Nat
  deriving DecidableEq, Repr

/-- Arguments of `layer_updater_plain::test` (lines 273-283). -/
structure updater_test_args where
  unit : layer_updater_plain
  input_buffer : Buf
  output_buffer : Buf
  additional_buffers : List Buf
  layer_pos : Nat
  data_pos : Nat
  input_config_pos : Nat
  output_config_pos : Nat
  entry_count : Nat
  input_entry_id : Int
  deriving DecidableEq, Repr

/-- Arguments of `layer_updater_plain::backprop` (lines 317-328). -/
structure backprop_args where
  unit : layer_updater_plain
  input_errors : Buf
  input_neurons : Buf
  output_errors : Buf
  output_neurons : Buf
  additional_buffers : List Buf
  layer_pos : Nat
  data_pos : Nat
  input_config_pos : Nat
  output_config_pos : Nat
  entry_count : Nat
  deriving DecidableEq, Repr

/-- Arguments of `layer_updater_plain::update_weights` (lines 347-358). -/
structure update_weights_args where
  unit : layer_updater_plain
  input_neurons : Buf
  output_errors : Buf
  additional_buffers : List Buf
  data_pos : Nat
  training_speed_pos : Nat
  layer_pos : Nat
  input_config_pos : Nat
  output_config_pos : Nat
  entry_count : Nat
  input_entry_id : Int
  deriving DecidableEq, Repr

/-- A call from `actual_update` into a layer unit. -/
inductive Event where
  | tester_test (a : tester_test_args)
  | forward_dropout (a : dropout_args)
  | updater_test (a : updater_test_args)
  | backprop (a : backprop_args)
  | backward_dropout (a : dropout_args)
  | update_weights (a : update_weights_args)
  deriving DecidableEq, Repr

/-- Everything a layer unit can read or write: the contents of every shared
float buffer (by identity and position) and, in `data`, the weight data of
all replicas with whatever else the units own. -/
structure Memory (ω : Type) where
  floats : Buf → Nat → ℚ
  data : ω

/-- The layer units as far as the driver depends on them: the effect of
each call on memory, and the buffers handed out at allocation time. -/
structure Kernels (ω : Type) where
  run : Event → Memory ω → Memory ω
  tester_allocate_additional_buffers : layer_tester_plain → Nat → Nat → List Buf
  tester_get_output_buffer : layer_tester_plain → Buf → List Buf → Buf
  updater_allocate_additional_buffers :
    layer_updater_plain → Nat → Nat → Bool → updater_additional_buffer_set

/-- What unit calls act on: memory, the state of `gen_random_offset`
(the number of offsets drawn so far) and the trace of calls made. -/
structure Machine (ω : Type) where
  mem : Memory ω
  draws : Nat
  trace : List Event

/-- Perform one unit call. -/
def call {ω : Type} (K : Kernels ω) (ev : Event) (m : Machine ω) : Machine ω :=
  { m with mem := K.run ev m.mem, trace := m.trace ++ [ev] }

/-! ## The arguments of `actual_update` -/

/-- One supervised entry as delivered by `reader.read`: raw input bytes and
target outputs, by position. -/
structure Entry where
  input : Nat → Nat
  target : Nat → ℚ

/-- The arguments of `actual_update` and the answers of its collaborators.
`reader k` is the outcome of the `k`-th call of `reader.read` (`none` when
it returns false); `gen_random_offset k` is the `k`-th drawn offset;
`layer_to_dropout_rate_map` lists the `std::map` in iteration order. -/
structure Call where
  reader : Nat → Option Entry
  reader_entry_count : Nat
  input_neuron_count : Nat
  output_neuron_count : Nat
  input_feature_map_count : Nat
  neuron_count_per_input_feature_map : Nat
  training_speed_count : Nat
  training_speed_layer_count : Nat
  updater_entry_count : Nat
  data_layer_count : Nat
  layer_to_dropout_rate_map : List (Nat × ℚ)
  random_uniform_list_size : Nat
  gen_random_offset : Nat → Nat
  planner_max_entry_count : Nat

/-- Modelled from the spec: the class `testing_result` (its header is not
among the sources), a per-replica accumulator of cumulative
per-output-neuron squared error plus a processed-entry counter. -/
structure testing_result where
  entry_count : Nat
  cumulative_mse_list : List ℚ
  deriving DecidableEq, Repr

/-- Modelled from the spec: the constructor `testing_result(neuron_count)`,
which starts with no entries and `neuron_count` zeroed error slots. -/
def testing_result.new (neuron_count : Nat) : testing_result :=
  { entry_count := 0, cumulative_mse_list := List.replicate neuron_count 0 }

/-- History record of one iteration of the per-entry loop: the position in
the stream of the entry held in the processed slot, and the contents of
`output_buffer` right after the forward pass. -/
structure EntryRecord where
  stream_index : Nat
  predicted : Nat → ℚ

/-- The state of one `actual_update` call. -/
structure State (ω : Type) where
  machine : Machine ω
  input_buf : Nat → Nat
  actual_output_buf : Nat → ℚ
  temp_mse_buf : Nat → ℚ
  res : List testing_result
  reads : Nat
  entry_count_updated_in_profile_mode : Nat
  entry_log : List EntryRecord
  batch_log : List Nat

/-- The exception type thrown at line 77. -/
structure neural_network_exception where
  what : String
  deriving DecidableEq, Repr

/-- How a call of `actual_update` ends. `undefined_behaviour` stands for a
call that neither returns nor throws a `neural_network_exception`: `top()` /
`pop()` on an empty `offset_list`, a reorganisation (lines 111-119) that
leaves its vectors or cannot allocate its rows, the chaining loop (lines
160-169) on an empty pack. `out_of_fuel` means that the main loop was still
running after the allotted number of macro-batches, in state `last`. -/
inductive Outcome (ω : Type) where
  | returned (res : List testing_result) (final : State ω)
  | threw (e : neural_network_exception) (final : State ω)
  | undefined_behaviour
  | out_of_fuel (last : State ω)


/-! ## `actual_update`, lines 65-391 -/

/-- Lines 74-77: the first key of the dropout map (in iteration order) below
`min_dropout_layer_id = testing_layer_count + 1`, if there is one. -/
def dropout_check (testing_layer_count : Nat) : List (Nat × ℚ) → Option Nat
  | [] => none
  | p :: rest =>
    if p.1 < testing_layer_count + 1 then some p.1
    else dropout_check testing_layer_count rest

/-- The message built by `boost::format` at line 77. -/
def dropout_error (layer_id : Nat) : neural_network_exception :=
  ⟨"Unable to apply dropout to layer " ++ toString layer_id⟩

/-- Lookup `layer_to_dropout_rate_map.find(layer_id)`. -/
def find_rate : List (Nat × ℚ) → Nat → Option ℚ
  | [], _ => none
  | p :: rest, layer_id => if p.1 = layer_id then some p.2 else find_rate rest layer_id

/-- Line 121. -/
def max_entry_count_in_single_batch : Nat := 1024

/-- Line 121: the macro-batch capacity. -/
def max_entry_count (c : Call) : Nat :=
  min (min c.planner_max_entry_count c.reader_entry_count) max_entry_count_in_single_batch

/-- Lines 136-146: the buffer pack of the tester units and the buffer that
leaves the last of them. `pos` is the position of `layer_it` and of
`input_config_it`. -/
def build_testing_pack {ω : Type} (K : Kernels ω) (entry_count : Nat) :
    List layer_tester_plain → (pos : Nat) → (output_buffer : Buf) →
    List (Buf × List Buf) × Buf
  | [], _, output_buffer => ([], output_buffer)
  | t :: ts, pos, output_buffer =>
    let additional_buffers := K.tester_allocate_additional_buffers t pos entry_count
    let r := build_testing_pack K entry_count ts (pos + 1)
      (K.tester_get_output_buffer t output_buffer additional_buffers)
    ((output_buffer, additional_buffers) :: r.1, r.2)

/-- Lines 147-158: the buffer pack of the updater units. `first` tells
whether `it == updater_list.begin()`. -/
def build_updater_pack {ω : Type} (K : Kernels ω) (updater_entry_count : Nat) :
    List layer_updater_plain → (pos : Nat) → (first : Bool) → (output_buffer : Buf) →
    List (Buf × updater_additional_buffer_set) × Buf
  | [], _, _, output_buffer => ([], output_buffer)
  | x :: xs, pos, first, output_buffer =>
    let additional_buffers :=
      K.updater_allocate_additional_buffers x pos updater_entry_count (!first)
    let r := build_updater_pack K updater_entry_count xs (pos + 1) false
      additional_buffers.output_neurons_buffer
    ((output_buffer, additional_buffers) :: r.1, r.2)

/-- Lines 160-169, on the pack in reverse order: every entry but the one of
the first updater unit either provides the running `output_errors` or
borrows it. On an empty pack the loop of the code starts at `rend()` and is
undefined; `actual_update` does not call this function then. -/
def chain_input_errors :
    List (Buf × updater_additional_buffer_set) → (output_errors : Buf) →
    List (Buf × updater_additional_buffer_set)
  | [], _ => []
  | [p], _ => [p]  -- it == rend() - 1: the entry of the first updater unit is left as it is
  | p :: q :: rest, output_errors =>
    if p.2.input_errors_buffer ≠ 0 then
      p :: chain_input_errors (q :: rest) p.2.input_errors_buffer
    else
      (p.1, { p.2 with input_errors_buffer := output_errors }) ::
        chain_input_errors (q :: rest) output_errors

/-- The locals of `actual_update` fixed before the main loop. -/
structure Buffers where
  max_entry_count : Nat
  testing_pack : List (Buf × List Buf)
  updater_pack : List (Buf × updater_additional_buffer_set)
  output_buffer : Buf
  mask : Nat

/-- Lines 121-174. -/
def allocate_buffers {ω : Type} (K : Kernels ω) (u : network_updater_plain) (c : Call) :
    Buffers :=
  let t := build_testing_pack K (max_entry_count c) u.tester_list 0 input_converted_buf
  let r := build_updater_pack K c.updater_entry_count u.updater_list
    u.tester_list.length true t.2
  { max_entry_count := max_entry_count c
    testing_pack := t.1
    updater_pack := (chain_input_errors r.1.reverse initial_error_buf).reverse
    output_buffer := r.2
    -- static_cast<unsigned int>(random_uniform_list.size() - 1)
    mask := (c.random_uniform_list_size + 4294967296 - 1) % 4294967296 }

/-- Overwrite `len` positions of a vector starting at `offset`. -/
def write_slice {α : Type} (buf : Nat → α) (offset len : Nat) (src : Nat → α) : Nat → α :=
  fun p => if offset ≤ p ∧ p < offset + len then src (p - offset) else buf p

/-- Overwrite one position of a vector. -/
def write_at {α : Type} (buf : Nat → α) (pos : Nat) (v : α) : Nat → α :=
  fun p => if p = pos then v else buf p

/-- Overwrite one position of one shared float buffer. -/
def set_float {ω : Type} (m : Memory ω) (b : Buf) (pos : Nat) (v : ℚ) : Memory ω :=
  { m with floats := fun b2 => if b2 = b then write_at (m.floats b2) pos v else m.floats b2 }

/-- Apply `f` to the element at a position of a list. -/
def modify_at {α : Type} (f : α → α) : List α → Nat → List α
  | [], _ => []
  | x :: xs, 0 => f x :: xs
  | x :: xs, n + 1 => x :: modify_at f xs n

/-- Lines 179-190: the load loop. `budget` is
`max_entry_count - entries_available_for_processing_count`; the result is
`(entries_remained_for_loading, entries_available_for_processing_count)`
with the new state. A slice is written where line 184 and line 185 point,
whether or not that is inside the vector as allocated (`input_buf_size`,
`actual_output_buf_size`). -/
def load_entries {ω : Type} (c : Call) :
    (budget count : Nat) → State ω → Bool × Nat × State ω
  | 0, count, s => (true, count, s)
  | budget + 1, count, s =>
    match c.reader s.reads with
    | none => (false, count, { s with reads := s.reads + 1 })
    | some e =>
      load_entries c budget (count + 1)
        { s with
          reads := s.reads + 1
          input_buf := write_slice s.input_buf (c.input_neuron_count * count)
            c.input_neuron_count e.input
          actual_output_buf := write_slice s.actual_output_buf
            (c.output_neuron_count * count) c.output_neuron_count e.target }

/-- Lines 211-216: the innermost conversion loop, with `remaining` iterations
to go; `out_it` and `in_it` are the positions of `input_converted_buf_it`
and `input_buf_it`. Returns the writes made, as (position, value) in the
order made, and the iterators as the loop leaves them. -/
def convert_neurons (addition multiplication : ℚ) (input_buf : Nat → Nat) :
    (remaining out_it in_it : Nat) → List (Nat × ℚ) × Nat × Nat
  | 0, out_it, in_it => ([], out_it, in_it)
  | remaining + 1, out_it, in_it =>
    let r := convert_neurons addition multiplication input_buf remaining (out_it + 1) (in_it + 1)
    ((out_it, (((input_buf in_it : ℕ) : ℚ) * (1 / 255) + addition) * multiplication) :: r.1,
      r.2)

/-- Lines 207-217: the loop over the feature maps of one entry, with
`remaining` feature maps to go from `feature_map_id` on. -/
def convert_feature_maps (u : network_updater_plain) (c : Call) (input_buf : Nat → Nat) :
    (remaining feature_map_id out_it in_it : Nat) → List (Nat × ℚ) × Nat × Nat
  | 0, _, out_it, in_it => ([], out_it, in_it)
  | remaining + 1, feature_map_id, out_it, in_it =>
    let n := convert_neurons (u.addition_list feature_map_id)
      (u.multiplication_list feature_map_id) input_buf c.neuron_count_per_input_feature_map
      out_it in_it
    let r := convert_feature_maps u c input_buf remaining (feature_map_id + 1) n.2.1 n.2.2
    (n.1 ++ r.1, r.2)

/-- Lines 203-218: the conversion of the entries `i, i + 1, ...`, `remaining`
of them; both iterators start each entry at `i * input_neuron_count`. -/
def convert_entries (u : network_updater_plain) (c : Call) (input_buf : Nat → Nat) :
    (remaining i : Nat) → List (Nat × ℚ)
  | 0, _ => []
  | remaining + 1, i =>
    (convert_feature_maps u c input_buf c.input_feature_map_count 0
      (i * c.input_neuron_count) (i * c.input_neuron_count)).1 ++
      convert_entries u c input_buf remaining (i + 1)

/-- Lines 197-219: convert the loaded bytes; the writes go to
`input_converted_buf`. -/
def convert_input {ω : Type} (u : network_updater_plain) (c : Call) (elem_count : Nat)
    (input_buf : Nat → Nat) (m : Memory ω) : Memory ω :=
  (convert_entries u c input_buf elem_count 0).foldl
    (fun m w => set_float m input_converted_buf w.1 w.2) m

/-- The call `(*it)->test(...)` of lines 229-237. -/
def tester_test_call (t : layer_tester_plain) (p : Buf × List Buf) (pos entry_count : Nat) :
    Event :=
  .tester_test
    { unit := t, input_buffer := p.1, additional_buffers := p.2, layer_pos := pos,
      input_config_pos := pos, output_config_pos := pos + 1, entry_count := entry_count }

/-- Lines 221-239: run the testing layers once over the loaded entries.
`pos` is the position of `layer_it` and of `input_config_it`. -/
def run_testers {ω : Type} (K : Kernels ω) (entry_count : Nat) :
    List layer_tester_plain → List (Buf × List Buf) → (pos : Nat) → Machine ω → Machine ω
  | t :: ts, p :: ps, pos, m =>
    run_testers K entry_count ts ps (pos + 1) (call K (tester_test_call t p pos entry_count) m)
  | _, _, _, m => m

/-- The call `(*it)->forward_dropout(...)` of lines 261-269. -/
def forward_dropout_call (c : Call) (b : Buffers) (x : layer_updater_plain)
    (p : Buf × updater_additional_buffer_set) (layer_id : Nat) (rate : ℚ) (offset : Nat) :
    Event :=
  .forward_dropout
    { unit := x, layer_id := layer_id, buffer := p.1, config_pos := layer_id, rate := rate,
      mask := b.mask, entry_count := c.updater_entry_count, offset := offset }

/-- The call `(*it)->test(...)` of lines 273-283. -/
def updater_test_call (c : Call) (x : layer_updater_plain)
    (p : Buf × updater_additional_buffer_set) (j layer_id input_entry_id : Nat) : Event :=
  .updater_test
    { unit := x, input_buffer := p.1, output_buffer := p.2.output_neurons_buffer,
      additional_buffers := p.2.additional_buffers, layer_pos := layer_id, data_pos := j,
      input_config_pos := layer_id, output_config_pos := layer_id + 1,
      entry_count := c.updater_entry_count,
      -- (it == updater_list.begin()) ? input_entry_id : -1
      input_entry_id := if j = 0 then (input_entry_id : Int) else -1 }

/-- Lines 245-285: the forward pass over the updater units for one entry.
`j` is the position of `it`, `updater_buffers_it` and `data_it`; `layer_id`
is the variable of that name, which `layer_it` and `input_config_it`
accompany; `offset_list` is the stack, top first. -/
def forward_updater {ω : Type} (K : Kernels ω) (c : Call) (b : Buffers)
    (input_entry_id : Nat) :
    List layer_updater_plain → List (Buf × updater_additional_buffer_set) →
    (j layer_id : Nat) → (offset_list : List Nat) → Machine ω → List Nat × Machine ω
  | x :: xs, p :: ps, j, layer_id, offset_list, m =>
    let r : List Nat × Machine ω :=
      if j ≠ 0 then  -- it != updater_list.begin()
        match find_rate c.layer_to_dropout_rate_map layer_id with
        | some rate =>
          let offset := c.gen_random_offset m.draws
          (offset :: offset_list,
            call K (forward_dropout_call c b x p layer_id rate offset)
              { m with draws := m.draws + 1 })
        | none => (offset_list, m)
      else (offset_list, m)
    forward_updater K c b input_entry_id xs ps (j + 1) (layer_id + 1) r.1
      (call K (updater_test_call c x p j layer_id input_entry_id) r.2)
  | _, _, _, _, offset_list, m => (offset_list, m)

/-- Lines 297-300: the body of the error loop for element `i`. -/
def initial_error_step {ω : Type} (c : Call) (b : Buffers) (input_entry_id : Nat)
    (s : State ω) (i : Nat) : State ω :=
  let elem_id := i % c.output_neuron_count
  let err := s.actual_output_buf (c.output_neuron_count * input_entry_id + elem_id) -
    s.machine.mem.floats b.output_buffer i
  { s with
    machine := { s.machine with mem := set_float s.machine.mem initial_error_buf i err }
    temp_mse_buf := write_at s.temp_mse_buf i (s.temp_mse_buf i + err * err) }

/-- Lines 287-302: set the initial error and accumulate the squared error
of one entry. -/
def set_initial_error {ω : Type} (c : Call) (b : Buffers) (input_entry_id : Nat)
    (s : State ω) : State ω :=
  (List.range (c.output_neuron_count * c.updater_entry_count)).foldl
    (initial_error_step c b input_entry_id) s

/-- Positions of the reverse iterators of the backward pass after `k` steps:
`layer_it`, `data_it`, `training_speed_it`, `input_config_it + 1` and
`input_config_it`. -/
structure ReversePositions where
  layer_pos : Nat
  data_pos : Nat
  speed_pos : Nat
  input_config_pos : Nat
  output_config_pos : Nat

/-- Lines 306-310: where the reverse iterators stand after `k` steps. The
subtractions stop at 0: a position is that of the iterator as long as the
iterator is inside its container, which is so for every step of the
backward pass on a call that is in bounds (`InBounds`). -/
def reverse_positions (u : network_updater_plain) (c : Call) (k : Nat) : ReversePositions :=
  { layer_pos := u.layer_list.length - 1 - k
    data_pos := c.data_layer_count - u.testing_layer_count - 1 - k
    speed_pos := c.training_speed_layer_count - u.testing_layer_count - 1 - k
    input_config_pos := u.layer_config_count - 1 - (k + 1)
    output_config_pos := u.layer_config_count - 1 - k }

/-- The call `(*it)->backprop(...)` of lines 317-328. -/
def backprop_call (c : Call) (x : layer_updater_plain)
    (p : Buf × updater_additional_buffer_set) (r : ReversePositions) (output_errors : Buf) :
    Event :=
  .backprop
    { unit := x, input_errors := p.2.input_errors_buffer, input_neurons := p.1,
      output_errors := output_errors, output_neurons := p.2.output_neurons_buffer,
      additional_buffers := p.2.additional_buffers, layer_pos := r.layer_pos,
      data_pos := r.data_pos, input_config_pos := r.input_config_pos,
      output_config_pos := r.output_config_pos, entry_count := c.updater_entry_count }

/-- The call `(*it)->backward_dropout(...)` of lines 335-343; it is handed
`*input_config_it`. -/
def backward_dropout_call (c : Call) (b : Buffers) (x : layer_updater_plain)
    (p : Buf × updater_additional_buffer_set) (r : ReversePositions)
    (reverse_layer_id : Nat) (rate : ℚ) (offset : Nat) : Event :=
  .backward_dropout
    { unit := x, layer_id := reverse_layer_id, buffer := p.2.input_errors_buffer,
      config_pos := r.output_config_pos, rate := rate, mask := b.mask,
      entry_count := c.updater_entry_count, offset := offset }

/-- The call `(*it)->update_weights(...)` of lines 347-358; `last` tells
whether `it == updater_list.rend() - 1`. -/
def update_weights_call (c : Call) (x : layer_updater_plain)
    (p : Buf × updater_additional_buffer_set) (r : ReversePositions) (output_errors : Buf)
    (last : Bool) (input_entry_id : Nat) : Event :=
  .update_weights
    { unit := x, input_neurons := p.1, output_errors := output_errors,
      additional_buffers := p.2.additional_buffers, data_pos := r.data_pos,
      training_speed_pos := r.speed_pos, layer_pos := r.layer_pos,
      input_config_pos := r.input_config_pos, output_config_pos := r.output_config_pos,
      entry_count := c.updater_entry_count,
      input_entry_id := if last then (input_entry_id : Int) else -1 }

/-- Lines 304-362: the backward pass for one entry, over the updater units
and their pack in reverse order. `k` counts the steps taken by the reverse
iterators; `none` is `top()` on an empty `offset_list`. -/
def backward_updater {ω : Type} (K : Kernels ω) (u : network_updater_plain) (c : Call)
    (b : Buffers) (input_entry_id : Nat) :
    List layer_updater_plain → List (Buf × updater_additional_buffer_set) →
    (k : Nat) → (output_errors : Buf) → (reverse_layer_id : Nat) →
    (offset_list : List Nat) → Machine ω → Option (List Nat × Machine ω)
  | x :: xs, p :: ps, k, output_errors, reverse_layer_id, offset_list, m =>
    let pos := reverse_positions u c k
    let r : Option (List Nat × Machine ω) :=
      if !xs.isEmpty then  -- it != updater_list.rend() - 1
        let m1 := call K (backprop_call c x p pos output_errors) m
        match find_rate c.layer_to_dropout_rate_map reverse_layer_id with
        | some rate =>
          match offset_list with
          | [] => none
          | offset :: rest =>
            some (rest,
              call K (backward_dropout_call c b x p pos reverse_layer_id rate offset) m1)
        | none => some (offset_list, m1)
      else some (offset_list, m)
    match r with
    | none => none
    | some (offset_list1, m2) =>
      backward_updater K u c b input_entry_id xs ps (k + 1) p.2.input_errors_buffer
        (reverse_layer_id - 1) offset_list1
        (call K (update_weights_call c x p pos output_errors xs.isEmpty input_entry_id) m2)
  | _, _, _, _, _, offset_list, m => some (offset_list, m)

/-- Lines 243-302: the first half of one iteration of the per-entry loop,
the forward pass and the error step; returns `offset_list` and the state.
`first_read` is the number of `reader.read` calls made before the
macro-batch was loaded, so that the slot `input_entry_id` holds entry
`first_read + input_entry_id` of the stream. -/
def forward_and_error {ω : Type} (K : Kernels ω) (u : network_updater_plain) (c : Call)
    (b : Buffers) (first_read input_entry_id : Nat) (s : State ω) : List Nat × State ω :=
  let f := forward_updater K c b input_entry_id u.updater_list b.updater_pack 0
    u.testing_layer_count [] s.machine
  (f.1, set_initial_error c b input_entry_id
    { s with
      machine := f.2
      entry_log := s.entry_log ++
        [{ stream_index := first_read + input_entry_id,
           predicted := f.2.mem.floats b.output_buffer }] })

/-- Lines 243-362: one iteration of the per-entry loop; also returns
`offset_list` as it is when the iteration ends. -/
def process_entry_stack {ω : Type} (K : Kernels ω) (u : network_updater_plain) (c : Call)
    (b : Buffers) (first_read input_entry_id : Nat) (s : State ω) :
    Option (List Nat × State ω) :=
  let fe := forward_and_error K u c b first_read input_entry_id s
  -- reverse_layer_id = static_cast<unsigned int>(updater_list.size() + testing_layer_count) - 1
  match backward_updater K u c b input_entry_id u.updater_list.reverse
      b.updater_pack.reverse 0 initial_error_buf
      (u.updater_list.length + u.testing_layer_count - 1) fe.1 fe.2.machine with
  | none => none
  | some r => some (r.1, { fe.2 with machine := r.2 })

/-- One iteration of the per-entry loop. -/
def process_entry {ω : Type} (K : Kernels ω) (u : network_updater_plain) (c : Call)
    (b : Buffers) (first_read input_entry_id : Nat) (s : State ω) : Option (State ω) :=
  (process_entry_stack K u c b first_read input_entry_id s).map (fun r => r.2)

/-- Line 241: the per-entry loop, with `remaining` iterations to go. -/
def process_entries {ω : Type} (K : Kernels ω) (u : network_updater_plain) (c : Call)
    (b : Buffers) (first_read : Nat) :
    (remaining input_entry_id : Nat) → State ω → Option (State ω)
  | 0, _, s => some s
  | remaining + 1, input_entry_id, s =>
    match process_entry K u c b first_read input_entry_id s with
    | none => none
    | some s1 => process_entries K u c b first_read remaining (input_entry_id + 1) s1

/-- Lines 372-376: the body of the flush loop for element `i`. When `res`
has no element at `updater_entry_id` (fewer training-speed vectors than
replicas), line 375 writes outside `res`; here `res` is then left as it
is. -/
def flush_step {ω : Type} (c : Call) (s : State ω) (i : Nat) : State ω :=
  let t := s.temp_mse_buf i * (1 / 2)
  let updater_entry_id := i / c.output_neuron_count
  let output_neuron_id := i - updater_entry_id * c.output_neuron_count
  { s with
    res := modify_at (fun r =>
      { r with cumulative_mse_list :=
          modify_at (fun x => x + t) r.cumulative_mse_list output_neuron_id })
      s.res updater_entry_id
    temp_mse_buf := write_at s.temp_mse_buf i 0 }

/-- Lines 365-378: flush the accumulated squared errors into the results. -/
def flush_statistics {ω : Type} (c : Call) (s : State ω) : State ω :=
  (List.range (c.output_neuron_count * c.updater_entry_count)).foldl (flush_step c) s

/-- Lines 195-388: the part of one iteration of the main loop that follows
the load phase, for a macro-batch of `count` entries
(`entries_available_for_processing_count`, not zero) loaded after
`first_read` earlier calls of `reader.read`. The result is the new value of
`entries_remained_for_loading` with the new state, or `none` for undefined
behaviour. -/
def process_batch {ω : Type} (K : Kernels ω) (u : network_updater_plain) (c : Call)
    (b : Buffers) (first_read count : Nat) (entries_remained_for_loading : Bool)
    (s : State ω) : Option (Bool × State ω) :=
  let s1 : State ω := { s with batch_log := s.batch_log ++ [count] }
  let m2 : Machine ω :=
    { s1.machine with mem := convert_input u c count s1.input_buf s1.machine.mem }
  let m3 := run_testers K count u.tester_list b.testing_pack 0 m2
  match process_entries K u c b first_read count 0 { s1 with machine := m3 } with
  | none => none
  | some s4 =>
    let s5 := flush_statistics c s4
    -- lines 380-381
    let s6 : State ω :=
      { s5 with res := s5.res.map (fun r => { r with entry_count := r.entry_count + count }) }
    -- lines 383-387
    if u.profile_mode then some (false, { s6 with entry_count_updated_in_profile_mode := count })
    else some (entries_remained_for_loading, s6)

/-- Lines 178-388: one iteration of the main loop. The result is the new
value of `entries_remained_for_loading` with the new state, or `none` for
undefined behaviour. -/
def macro_batch {ω : Type} (K : Kernels ω) (u : network_updater_plain) (c : Call)
    (b : Buffers) (s : State ω) : Option (Bool × State ω) :=
  let l := load_entries c b.max_entry_count 0 s
  -- lines 192-193
  if l.2.1 = 0 then some (false, l.2.2)
  else process_batch K u c b s.reads l.2.1 l.1 l.2.2

/-- Lines 176-388: the main loop, for at most `fuel` iterations. -/
def update_loop {ω : Type} (K : Kernels ω) (u : network_updater_plain) (c : Call)
    (b : Buffers) : (fuel : Nat) → State ω → Outcome ω
  | 0, s => .out_of_fuel s
  | fuel + 1, s =>
    match macro_batch K u c b s with
    | none => .undefined_behaviour
    | some (true, s1) => update_loop K u c b fuel s1
    | some (false, s1) => .returned s1.res s1

/-- One `reorganized[layer_id - testing_layer_count].push_back(
(*list[updater_entry_id])[layer_id])` of lines 114 and 119; `none` stands for
an index outside its vector. -/
def reorganize_push {δ : Type} (list : List (List δ)) (testing_layer_count layer_id : Nat)
    (rows : Option (List (List δ))) (updater_entry_id : Nat) : Option (List (List δ)) :=
  match rows, list[updater_entry_id]? with
  | some rows, some replica =>
    match replica[layer_id]? with
    | some x =>
      if layer_id - testing_layer_count < rows.length then
        some (modify_at (fun row => row ++ [x]) rows (layer_id - testing_layer_count))
      else none
    | none => none
  | _, _ => none

/-- Lines 111-114, and lines 116-119 which are the same code over the
training speeds: `list[0]->size() - testing_layer_count` empty rows, then the
two nested loops. `none` also stands for `list[0]` of an empty list and for a
first replica shorter than `testing_layer_count`, where the unsigned
difference is not a size that can be allocated. -/
def reorganize {δ : Type} (list : List (List δ)) (testing_layer_count updater_entry_count : Nat) :
    Option (List (List δ)) :=
  match list with
  | [] => none
  | first :: _ =>
    if first.length < testing_layer_count then none
    else
      (List.range' testing_layer_count (first.length - testing_layer_count)).foldl
        (fun rows layer_id =>
          (List.range updater_entry_count).foldl
            (reorganize_push list testing_layer_count layer_id) rows)
        (some (List.replicate (first.length - testing_layer_count) []))

/-- Lines 84 and 111-114: `data_list_reorganized`, with
`updater_entry_count = data_list.size()`. -/
def data_list_reorganized {δ : Type} (data_list : List (List δ)) (testing_layer_count : Nat) :
    Option (List (List δ)) :=
  reorganize data_list testing_layer_count data_list.length

/-- Lines 84 and 116-119: `training_speed_vector_list_reorganized`; the
inner loop runs to `updater_entry_count = data_list.size()`. -/
def training_speed_vector_list_reorganized {δ σ : Type} (data_list : List (List δ))
    (training_speed_vector_list : List (List σ)) (testing_layer_count : Nat) :
    Option (List (List σ)) :=
  reorganize training_speed_vector_list testing_layer_count data_list.length

/-- The shape of the argument `data_list`: one `network_data` per replica,
each with `data_layer_count` layers. The driver never looks inside a
layer's data, it only hands it to the units, so a layer's data is named by
its position. -/
def Call.data_list (c : Call) : List (List Nat) :=
  List.replicate c.updater_entry_count (List.range c.data_layer_count)

/-- The shape of the argument `training_speed_vector_list`:
`training_speed_count` vectors of `training_speed_layer_count` layers each,
a layer's speeds named by its position. -/
def Call.training_speed_vector_list (c : Call) : List (List Nat) :=
  List.replicate c.training_speed_count (List.range c.training_speed_layer_count)

/-- The state in which `actual_update` starts: nothing read, nothing
called, no result yet. -/
def State.initial {ω : Type} (mem : Memory ω) (entry_count_updated_in_profile_mode : Nat) :
    State ω :=
  { machine := { mem := mem, draws := 0, trace := [] }
    input_buf := fun _ => 0
    actual_output_buf := fun _ => 0
    temp_mse_buf := fun _ => 0
    res := []
    reads := 0
    entry_count_updated_in_profile_mode := entry_count_updated_in_profile_mode
    entry_log := []
    batch_log := [] }

/-- The state in which `actual_update` enters its main loop: one zeroed
result per training-speed vector (lines 89-90) and the fresh vectors
`initial_error_buf` and `input_converted_buf` zero-initialised (lines
125-127). -/
def State.at_loop_entry {ω : Type} (c : Call) (mem : Memory ω)
    (entry_count_updated_in_profile_mode : Nat) : State ω :=
  { State.initial mem entry_count_updated_in_profile_mode with
    res := List.replicate c.training_speed_count (testing_result.new c.output_neuron_count)
    machine :=
      { mem :=
          { mem with floats := fun b2 =>
              if b2 = initial_error_buf ∨ b2 = input_converted_buf then fun _ => 0
              else mem.floats b2 }
        draws := 0
        trace := [] } }

/-- The function `network_updater_plain::actual_update`, lines 65-391, started with
memory `mem` and with the member `entry_count_updated_in_profile_mode` as
given. The call does not get to its main loop when the reorganisation of
lines 111-119 indexes outside a vector or asks for a row count that is not
a size, or when there is no updater unit, so that the chaining loop of
lines 160-169 starts at `rend()` and runs towards `rend() - 1`. -/
def actual_update {ω : Type} (K : Kernels ω) (u : network_updater_plain) (c : Call)
    (fuel : Nat) (mem : Memory ω) (entry_count_updated_in_profile_mode : Nat) : Outcome ω :=
  let s0 := State.initial mem entry_count_updated_in_profile_mode
  -- lines 74-77
  match dropout_check u.testing_layer_count c.layer_to_dropout_rate_map with
  | some layer_id => .threw (dropout_error layer_id) s0
  | none =>
    -- lines 86-87
    if c.updater_entry_count = 0 then .returned s0.res s0
    else
      -- lines 111-114 and 116-119
      match data_list_reorganized c.data_list u.testing_layer_count,
        training_speed_vector_list_reorganized c.data_list c.training_speed_vector_list
          u.testing_layer_count with
      | some _, some _ =>
        -- lines 160-169: `it = rbegin()` against `rend() - 1`
        if u.updater_list.isEmpty then .undefined_behaviour
        else
          update_loop K u c (allocate_buffers K u c) fuel
            (State.at_loop_entry c mem entry_count_updated_in_profile_mode)
      | _, _ => .undefined_behaviour

/-! ## Observations used in the statements -/

/-- The `(layer id, rate, offset)` of the `forward_dropout` calls of a trace. -/
def forward_dropouts : List Event → List (Nat × ℚ × Nat)
  | [] => []
  | .forward_dropout a :: rest => (a.layer_id, a.rate, a.offset) :: forward_dropouts rest
  | _ :: rest => forward_dropouts rest

/-- The `(layer id, rate, offset)` of the `backward_dropout` calls of a trace. -/
def backward_dropouts : List Event → List (Nat × ℚ × Nat)
  | [] => []
  | .backward_dropout a :: rest => (a.layer_id, a.rate, a.offset) :: backward_dropouts rest
  | _ :: rest => backward_dropouts rest

/-- The units on which `layer_tester_plain::test` is called in a trace,
with the entry count passed. -/
def tester_calls : List Event → List (layer_tester_plain × Nat)
  | [] => []
  | .tester_test a :: rest => (a.unit, a.entry_count) :: tester_calls rest
  | _ :: rest => tester_calls rest

/-- The units on which `layer_updater_plain::test` is called in a trace,
with the entry index passed. -/
def updater_test_calls : List Event → List (layer_updater_plain × Int)
  | [] => []
  | .updater_test a :: rest => (a.unit, a.input_entry_id) :: updater_test_calls rest
  | _ :: rest => updater_test_calls rest

/-- Target value `o` of entry `e` of the stream. -/
def target_of (c : Call) (e o : Nat) : ℚ :=
  match c.reader e with
  | some x => x.target o
  | none => 0

/-- Sizes of the macro-batches that cut `n` entries into runs of `cap`:
full ones, then the shorter rest if there is one. -/
def batch_sizes (n cap : Nat) : List Nat :=
  List.replicate (n / cap) cap ++ (if n % cap = 0 then [] else [n % cap])

/-- Half the sum, over the logged entries, of the squared difference between
target `o` and element `i` of the output buffer after the forward pass. -/
def half_squared_error_sum (c : Call) (log : List EntryRecord) (o i : Nat) : ℚ :=
  1 / 2 * (log.map (fun r => (target_of c r.stream_index o - r.predicted i) ^ 2)).sum

/-- The state in which a call ended, when it ended by `return`. -/
def Outcome.returned_state {ω : Type} : Outcome ω → Option (State ω)
  | .returned _ s => some s
  | _ => none

/-! ## Sample instances -/

/-- Units whose calls leave memory alone and that allocate one output buffer
per updater unit. -/
def idle_kernels : Kernels Unit :=
  { run := fun _ m => m
    tester_allocate_additional_buffers := fun _ _ _ => []
    tester_get_output_buffer := fun _ b _ => b
    updater_allocate_additional_buffers := fun x _ _ _ => ⟨10 + x.uuid, 0, []⟩ }

/-- Memory holding zeros. -/
def zero_memory : Memory Unit := ⟨fun _ _ => 0, ()⟩

/-- A reader holding `n` entries of input byte 255 and target 2. -/
def constant_reader (n : Nat) : Nat → Option Entry :=
  fun k => if k < n then some ⟨fun _ => 255, fun _ => 2⟩ else none

/-- A call with one input and one output neuron on a stream of `n` entries. -/
def sample_call (n replicas training_speeds cap : Nat) (dropout : List (Nat × ℚ)) : Call :=
  { reader := constant_reader n
    reader_entry_count := n
    input_neuron_count := 1
    output_neuron_count := 1
    input_feature_map_count := 1
    neuron_count_per_input_feature_map := 1
    training_speed_count := training_speeds
    training_speed_layer_count := 4
    updater_entry_count := replicas
    data_layer_count := 4
    layer_to_dropout_rate_map := dropout
    random_uniform_list_size := 8
    gen_random_offset := fun k => k + 5
    planner_max_entry_count := cap }

/-- The updater of a topology of one weightless layer followed by three
layers with weights. -/
def sample_updater (profile_mode : Bool) : network_updater_plain :=
  network_updater_plain.new [⟨0, true⟩, ⟨1, false⟩, ⟨2, false⟩, ⟨3, true⟩] 5
    (fun _ => 0) (fun _ => 1) profile_mode

/-- The updater of a topology whose only layer owns no weight data. -/
def weightless_updater : network_updater_plain :=
  network_updater_plain.new [⟨0, true⟩] 2 (fun _ => 0) (fun _ => 1) false


/-! ## Layers marked for dropout -/

/-- The layers of `ids` that have a rate in the dropout map, each with its
rate, in the order of `ids`. -/
def marked (m : List (Nat × ℚ)) : List Nat → List (Nat × ℚ)
  | [] => []
  | layer_id :: ids =>
    match find_rate m layer_id with
    | some rate => (layer_id, rate) :: marked m ids
    | none => marked m ids

/-- The `n` layer ids `top, top - 1, ...` in this order. -/
def ids_down : (n top : Nat) → List Nat
  | 0, _ => []
  | n + 1, top => top :: ids_down n (top - 1)


/-! ## Invariants of the main loop -/

/-- Slot `o` of the cumulative error list of result `r`, when both exist. -/
def cum_at (res : List testing_result) (r o : Nat) : Option ℚ :=
  (res[r]?).bind (fun x => x.cumulative_mse_list[o]?)

/-- The first `n` slots of `actual_output_buf` hold the targets of the
stream entries `first, first + 1, ...`. -/
def Loaded {ω : Type} (c : Call) (first n : Nat) (s : State ω) : Prop :=
  ∀ k, k < n → ∀ o, o < c.output_neuron_count →
    s.actual_output_buf (c.output_neuron_count * k + o) = target_of c (first + k) o

/-- Every result in `res` has `output_neuron_count` error slots and has
counted `n` entries. -/
def ResultsShape (c : Call) (n : Nat) (res : List testing_result) : Prop :=
  ∀ x, x ∈ res → x.cumulative_mse_list.length = c.output_neuron_count ∧ x.entry_count = n

/-- What is in the results plus half of what is still in `temp_mse_buf` is
half the sum of the squared errors of the entries processed so far. -/
def MseInv {ω : Type} (c : Call) (s : State ω) : Prop :=
  ∀ i, i < c.output_neuron_count * c.updater_entry_count → ∀ v,
    cum_at s.res (i / c.output_neuron_count) (i % c.output_neuron_count) = some v →
    v + s.temp_mse_buf i * (1 / 2) =
      half_squared_error_sum c s.entry_log (i % c.output_neuron_count) i

/-- The fields of the state that unit calls and the error step leave alone. -/
structure SameDriver {ω : Type} (s t : State ω) : Prop where
  res : t.res = s.res
  reads : t.reads = s.reads
  input_buf : t.input_buf = s.input_buf
  actual_output_buf : t.actual_output_buf = s.actual_output_buf
  profile_count : t.entry_count_updated_in_profile_mode = s.entry_count_updated_in_profile_mode
  batch_log : t.batch_log = s.batch_log

/-- What holds whenever the main loop is about to start a macro-batch with
profile mode off, after `q` full macro-batches. -/
structure LoopInv {ω : Type} (c : Call) (s : State ω) (q : Nat) : Prop where
  reads : s.reads = q * max_entry_count c
  batch_log : s.batch_log = List.replicate q (max_entry_count c)
  entry_log : s.entry_log.map (fun r => r.stream_index) = List.range (q * max_entry_count c)
  shape : ResultsShape c (q * max_entry_count c) s.res
  length : s.res.length = c.training_speed_count
  temp : ∀ i, s.temp_mse_buf i = 0
  mse : MseInv c s

/-- What holds when the main loop has returned after `n` entries. -/
structure Finished {ω : Type} (c : Call) (n : Nat) (s t : State ω) : Prop where
  reads : t.reads = n + 1
  batch_log : t.batch_log = batch_sizes n (max_entry_count c)
  entry_log : t.entry_log.map (fun r => r.stream_index) = List.range n
  shape : ResultsShape c n t.res
  length : t.res.length = c.training_speed_count
  temp : ∀ i, t.temp_mse_buf i = 0
  mse : MseInv c t
  profile_count : t.entry_count_updated_in_profile_mode = s.entry_count_updated_in_profile_mode

/-- A call whose reader announces three entries and delivers one; the
capacity is two. -/
def short_stream_call : Call :=
  { sample_call 3 1 1 2 [] with reader := constant_reader 1 }


/-! ## Buffer sizes and further observations -/

/-- Line 123: the number of elements of `input_buf`. -/
def input_buf_size (c : Call) : Nat := max_entry_count c * c.input_neuron_count

/-- Line 124: the number of elements of `actual_output_buf`. -/
def actual_output_buf_size (c : Call) : Nat := max_entry_count c * c.input_neuron_count

/-- The calls on which every iterator and every computed offset of
`actual_update` stays inside its container. `network_updater.h` promises
the first six ("schema, data and reader are guaranteed to be compatible");
`split` and `updaters` say that the constructor found a layer with weights
and cut the topology there; `targets` says that `actual_output_buf`, which
line 124 sizes by the input neuron count, has room for the targets of a full
macro-batch. -/
structure InBounds (u : network_updater_plain) (c : Call) : Prop where
  /-- One layer configuration before the first layer and one after each
  layer (`*(input_config_it + 1)`). -/
  configs : u.layer_config_count = u.layer_list.length + 1
  /-- Each `network_data` of `data_list` has one `layer_data` per layer. -/
  data : c.data_layer_count = u.layer_list.length
  /-- Each training-speed vector has one `layer_data` per layer. -/
  speeds : c.training_speed_layer_count = u.layer_list.length
  /-- There is a training-speed vector for every replica
  (`training_speed_vector_list[updater_entry_id]`, `res_it + updater_entry_id`). -/
  replicas : c.updater_entry_count ≤ c.training_speed_count
  /-- The reader's input configuration: neuron count is feature map count
  times neuron count per feature map. -/
  input_shape :
    c.input_neuron_count = c.input_feature_map_count * c.neuron_count_per_input_feature_map
  /-- An entry has input, so that `input_buf` and `actual_output_buf` are
  not empty when the capacity is not zero (lines 184-185 dereference
  `begin() + ...`). -/
  inputs : 0 < c.input_neuron_count
  /-- The tester units stand for the first `testing_layer_count` layers. -/
  testers : u.tester_list.length = u.testing_layer_count
  /-- The updater units stand for the remaining layers (`layer_it` starts at
  `layer_list.begin() + testing_layer_count`). -/
  split : u.testing_layer_count + u.updater_list.length = u.layer_list.length
  /-- There is an updater unit (`rend() - 1`, `output_buffer`). -/
  updaters : u.updater_list ≠ []
  /-- The target slice of the last slot of a macro-batch ends inside
  `actual_output_buf`. -/
  targets : c.output_neuron_count * max_entry_count c ≤ actual_output_buf_size c

/-- The state an outcome carries, whichever way the call ended or was cut
off. -/
def Outcome.last_state {ω : Type} : Outcome ω → Option (State ω)
  | .returned _ s => some s
  | .threw _ s => some s
  | .out_of_fuel s => some s
  | .undefined_behaviour => none

/-- A call with one input neuron and two output neurons per entry on a
stream of three entries; the capacity is two. -/
def wide_target_call : Call :=
  { sample_call 3 1 1 2 [] with output_neuron_count := 2 }


/-! ## `testing_complete_result_set`, `src/nnforge/testing_complete_result_set.cpp` -/

/-- Modelled from the spec: the class `output_neuron_value_set` (its header
is not among the sources), the values of the output neurons, one vector per
entry. -/
structure output_neuron_value_set where
  neuron_value_list : List (List ℚ)

/-- Modelled from the spec: the constructor
`output_neuron_value_set(entry_count, neuron_count)` (not among the sources),
which holds `entry_count` vectors of `neuron_count` values. -/
def output_neuron_value_set.new (entry_count neuron_count : Nat) : output_neuron_value_set :=
  ⟨List.replicate entry_count (List.replicate neuron_count 0)⟩

/-- Members of `testing_complete_result_set`; `mse` is null until
`recalculate_mse` is called. -/
structure testing_complete_result_set where
  actual_output_neuron_value_set : output_neuron_value_set
  predicted_output_neuron_value_set : output_neuron_value_set
  mse : Option testing_result

/-- Lines 25-33: the one-argument constructor; `none` stands for
`neuron_value_list[0]` of an empty list. -/
def testing_complete_result_set.new (actual : output_neuron_value_set) :
    Option testing_complete_result_set :=
  match actual.neuron_value_list with
  | [] => none
  | first :: _ =>
    some
      { actual_output_neuron_value_set := actual
        predicted_output_neuron_value_set :=
          output_neuron_value_set.new actual.neuron_value_list.length first.length
        mse := none }

/-- Lines 44-48: the loop over `it_mse` with `it_actual` and `it_predicted`
alongside; `none` stands for one of the two running past its end. -/
def accumulate_entry : List ℚ → List ℚ → List ℚ → Option (List ℚ)
  | [], _, _ => some []
  | m :: ms, a :: as, p :: ps =>
    -- float diff = (*it_actual - *it_predicted); *it_mse += diff * diff * 0.5F;
    (accumulate_entry ms as ps).map (fun r => (m + (a - p) * (a - p) * (1 / 2)) :: r)
  | _ :: _, _, _ => none

/-- Lines 40-49: the loop over the entries of the actual set (`it1`) with
the predicted set (`it2`) alongside. -/
def accumulate_entries : List ℚ → List (List ℚ) → List (List ℚ) → Option (List ℚ)
  | mse, [], _ => some mse
  | mse, a :: as, p :: ps =>
    match accumulate_entry mse a p with
    | none => none
    | some mse1 => accumulate_entries mse1 as ps
  | _, _ :: _, [] => none

/-- Lines 35-50: `testing_complete_result_set::recalculate_mse`. -/
def testing_complete_result_set.recalculate_mse (t : testing_complete_result_set) :
    Option testing_complete_result_set :=
  match t.actual_output_neuron_value_set.neuron_value_list with
  | [] => none
  | first :: _ =>
    match accumulate_entries (testing_result.new first.length).cumulative_mse_list
        t.actual_output_neuron_value_set.neuron_value_list
        t.predicted_output_neuron_value_set.neuron_value_list with
    | none => none
    | some cumulative =>
      some
        { t with
          mse := some
            { entry_count := t.actual_output_neuron_value_set.neuron_value_list.length
              cumulative_mse_list := cumulative } }

/-- Sample value sets: two entries of two neurons. -/
def sample_actual_values : output_neuron_value_set := ⟨[[1, 2], [3, 4]]⟩

/-- Sample predictions: two entries of two neurons. -/
def sample_predicted_values : output_neuron_value_set := ⟨[[0, 2], [1, 1]]⟩


/-! ## Samples for the reorganisation of lines 111-119 -/

/-- Sample weight data: two replicas of three layers, named by numbers. -/
def sample_data_list : List (List Nat) := [[10, 11, 12], [20, 21, 22]]

/-- Sample training speeds: two vectors of three layers. -/
def sample_speed_list : List (List Nat) := [[110, 111, 112], [120, 121, 122]]


/-! ## Sign and growth of the accumulated errors -/

/-- Every element of `temp_mse_buf` and every element of every result's
`cumulative_mse_list` is non-negative. -/
def NonNegative {ω : Type} (s : State ω) : Prop :=
  (∀ i, 0 ≤ s.temp_mse_buf i) ∧
    ∀ x, x ∈ s.res → ∀ v, v ∈ x.cumulative_mse_list → 0 ≤ v

/-- The results `b` are the results `a` grown: as many results with as many
error slots, and result by result `entry_count` and every error slot of `b`
are at least those of `a`. -/
def Grown (a b : List testing_result) : Prop :=
  List.Forall₂
    (fun x y => x.entry_count ≤ y.entry_count ∧
      List.Forall₂ (fun v w => v ≤ w) x.cumulative_mse_list y.cumulative_mse_list) a b


/-! ## What the forward and the backward pass hand to an updater unit -/

/-- What a call into an updater unit is handed of the topology and of the
buffer pack: the unit, the positions of the layer descriptor, of the weight
data and of the input and output configurations, and the input buffer and
scratch buffers of the pack entry. -/
structure LayerUse where
  unit : layer_updater_plain
  layer_pos : Nat
  data_pos : Nat
  input_config_pos : Nat
  output_config_pos : Nat
  input_neurons : Buf
  additional_buffers : List Buf
  deriving DecidableEq, Repr

/-- The `layer_updater_plain::test` calls of a trace. -/
def test_uses : List Event → List LayerUse
  | [] => []
  | .updater_test a :: rest =>
    { unit := a.unit, layer_pos := a.layer_pos, data_pos := a.data_pos,
      input_config_pos := a.input_config_pos, output_config_pos := a.output_config_pos,
      input_neurons := a.input_buffer, additional_buffers := a.additional_buffers } ::
      test_uses rest
  | _ :: rest => test_uses rest

/-- The `update_weights` calls of a trace, each with the position of the
training-speed data it is handed. -/
def update_weights_uses : List Event → List (LayerUse × Nat)
  | [] => []
  | .update_weights a :: rest =>
    ({ unit := a.unit, layer_pos := a.layer_pos, data_pos := a.data_pos,
       input_config_pos := a.input_config_pos, output_config_pos := a.output_config_pos,
       input_neurons := a.input_neurons, additional_buffers := a.additional_buffers },
      a.training_speed_pos) :: update_weights_uses rest
  | _ :: rest => update_weights_uses rest

/-- The `backprop` calls of a trace. -/
def backprop_uses : List Event → List LayerUse
  | [] => []
  | .backprop a :: rest =>
    { unit := a.unit, layer_pos := a.layer_pos, data_pos := a.data_pos,
      input_config_pos := a.input_config_pos, output_config_pos := a.output_config_pos,
      input_neurons := a.input_neurons, additional_buffers := a.additional_buffers } ::
      backprop_uses rest
  | _ :: rest => backprop_uses rest

/-- What the forward pass hands to the units `xs` with pack entries `ps`,
from `data_it` at `j` and `layer_it`, `input_config_it` at `layer_id`. -/
def forward_uses : List layer_updater_plain → List (Buf × updater_additional_buffer_set) →
    (j layer_id : Nat) → List LayerUse
  | x :: xs, p :: ps, j, layer_id =>
    { unit := x, layer_pos := layer_id, data_pos := j, input_config_pos := layer_id,
      output_config_pos := layer_id + 1, input_neurons := p.1,
      additional_buffers := p.2.additional_buffers } :: forward_uses xs ps (j + 1) (layer_id + 1)
  | _, _, _, _ => []

/-- What the backward pass hands to the units `xs` with pack entries `ps`
(both in reverse order), from the reverse iterators after `k` steps. -/
def backward_uses (u : network_updater_plain) (c : Call) :
    List layer_updater_plain → List (Buf × updater_additional_buffer_set) → (k : Nat) →
    List (LayerUse × Nat)
  | x :: xs, p :: ps, k =>
    ({ unit := x, layer_pos := (reverse_positions u c k).layer_pos,
       data_pos := (reverse_positions u c k).data_pos,
       input_config_pos := (reverse_positions u c k).input_config_pos,
       output_config_pos := (reverse_positions u c k).output_config_pos,
       input_neurons := p.1, additional_buffers := p.2.additional_buffers },
      (reverse_positions u c k).speed_pos) :: backward_uses u c xs ps (k + 1)
  | _, _, _ => []

/-- A call on a stream of one entry whose weight data and training speeds
have one layer, as the one-layer topology of `weightless_updater` has. -/
def weightless_call : Call :=
  { sample_call 1 1 1 2 [] with data_layer_count := 1, training_speed_layer_count := 1 }


/-! ## `softmax_layer_hessian_plain::backprop`,
`src/nnforge/plain/softmax_layer_hessian_plain.cpp` lines 95-157 -/

/-- What `backprop` reads from `input_configuration_specific` (lines
107-109), whose class is not among the sources: `get_neuron_count()`,
`get_neuron_count_per_feature_map()` and the member `feature_map_count`.
In a configuration of the program the neuron count is the feature map count
times the neuron count per feature map; the three numbers are kept apart
here because the code reads them apart, and the theorems say which relation
between them they use. -/
structure softmax_configuration where
  input_neuron_count : Nat
  input_neuron_count_per_feature_map : Nat
  feature_map_count : Nat
  deriving DecidableEq, Repr

/-- Lines 154-157. -/
def softmax_layer_hessian_plain.is_in_place_backprop : Bool := true

/-- Lines 135-141: the first inner loop of a workload whose iterators stand
at `base`. -/
def backprop_sum (cfg : softmax_configuration) (floats : Buf → Nat → ℚ)
    (output_errors output_neurons : Buf) (base : Nat) : ℚ :=
  (List.range cfg.feature_map_count).foldl
    (fun sum feature_map_id =>
      let offset := feature_map_id * cfg.input_neuron_count_per_feature_map
      let val := floats output_neurons (base + offset)
      sum + val * val * floats output_errors (base + offset)) 0

/-- Lines 145-148: one iteration of the second inner loop. -/
def backprop_write_step (cfg : softmax_configuration)
    (input_errors output_errors output_neurons : Buf) (base : Nat) (sum : ℚ)
    (floats : Buf → Nat → ℚ) (feature_map_id : Nat) : Buf → Nat → ℚ :=
  let offset := feature_map_id * cfg.input_neuron_count_per_feature_map
  let y := floats output_neurons (base + offset)
  let y2 := y * y
  fun b => if b = input_errors then
      write_at (floats b) (base + offset)
        (y2 * (floats output_errors (base + offset) * (2 * (y2 - y) + 1) - sum))
    else floats b

/-- Lines 128-133: where the three iterators of a workload stand,
`entry_id * input_neuron_count + neuron_id`. -/
def workload_base (cfg : softmax_configuration) (workload_id : Nat) : Nat :=
  let entry_id := workload_id / cfg.input_neuron_count_per_feature_map
  let neuron_id := workload_id - entry_id * cfg.input_neuron_count_per_feature_map
  entry_id * cfg.input_neuron_count + neuron_id

/-- Lines 128-149: the body of the workload loop. -/
def backprop_workload (cfg : softmax_configuration)
    (input_errors output_errors output_neurons : Buf) (floats : Buf → Nat → ℚ)
    (workload_id : Nat) : Buf → Nat → ℚ :=
  (List.range cfg.feature_map_count).foldl
    (backprop_write_step cfg input_errors output_errors output_neurons
      (workload_base cfg workload_id)
      (backprop_sum cfg floats output_errors output_neurons (workload_base cfg workload_id)))
    floats

/-- The workload loop of lines 126-150 with its iterations taken one after
the other in the order `schedule`. -/
def backprop_schedule (cfg : softmax_configuration)
    (input_errors output_errors output_neurons : Buf) (schedule : List Nat)
    (floats : Buf → Nat → ℚ) : Buf → Nat → ℚ :=
  schedule.foldl (backprop_workload cfg input_errors output_errors output_neurons) floats

/-- Lines 95-152: `softmax_layer_hessian_plain::backprop` on the contents
`floats` of the buffers, the workloads `0 .. total_workload - 1` taken in
increasing order. The three buffers are given by identity, so that
`input_errors = output_errors` is the in-place call. -/
def softmax_layer_hessian_plain.backprop (cfg : softmax_configuration)
    (input_errors output_errors output_neurons : Buf) (entry_count : Nat)
    (floats : Buf → Nat → ℚ) : Buf → Nat → ℚ :=
  backprop_schedule cfg input_errors output_errors output_neurons
    (List.range (entry_count * cfg.input_neuron_count_per_feature_map)) floats

/-- Buffer contents for the samples: buffer 3 (the output neurons) holds 1
everywhere, buffer 2 (the output errors) holds `1, 2, 3, ...`, every other
buffer holds 0. -/
def softmax_sample_floats : Buf → Nat → ℚ :=
  fun b p => if b = 3 then 1 else if b = 2 then (p : ℚ) + 1 else 0


/-! ## Runs with and without a dropout map -/

/-- The same call with an empty dropout map. -/
def without_dropout (c : Call) : Call := { c with layer_to_dropout_rate_map := [] }

/-- The state `s` with the number of offsets drawn and the trace of calls
replaced: what a run has done to memory, buffers and results, apart from how
it got there. -/
def State.with_history {ω : Type} (s : State ω) (draws : Nat) (trace : List Event) : State ω :=
  { s with machine := { s.machine with draws := draws, trace := trace } }

/-- What a call that ended by `return` hands back: the returned results and
the memory it leaves, weight data included. -/
def Outcome.results {ω : Type} : Outcome ω → Option (List testing_result × Memory ω)
  | .returned res final => some (res, final.machine.mem)
  | _ => none

/-- The outcome `o2` is the outcome `o1` up to the offsets drawn and the
trace of calls. -/
def SameUpToHistory {ω : Type} : Outcome ω → Outcome ω → Prop
  | .returned res final, o2 => ∃ d t, o2 = .returned res (final.with_history d t)
  | .threw e final, o2 => ∃ d t, o2 = .threw e (final.with_history d t)
  | .undefined_behaviour, o2 => o2 = .undefined_behaviour
  | .out_of_fuel last, o2 => ∃ d t, o2 = .out_of_fuel (last.with_history d t)


/-- The `(layer id, configuration position)` of the `forward_dropout` calls
of a trace. -/
def forward_dropout_configs : List Event → List (Nat × Nat)
  | [] => []
  | .forward_dropout a :: rest => (a.layer_id, a.config_pos) :: forward_dropout_configs rest
  | _ :: rest => forward_dropout_configs rest

/-- The `(layer id, configuration position)` of the `backward_dropout` calls
of a trace. -/
def backward_dropout_configs : List Event → List (Nat × Nat)
  | [] => []
  | .backward_dropout a :: rest => (a.layer_id, a.config_pos) :: backward_dropout_configs rest
  | _ :: rest => backward_dropout_configs rest


/-! ## `get_max_batch_size` and `update_buffers_configuration`, lines 397-445 -/

/-- Arguments of `layer_tester_plain::update_buffer_configuration` (lines
427-432). -/
structure tester_configuration_args where
  unit : layer_tester_plain
  layer_pos : Nat
  input_config_pos : Nat
  output_config_pos : Nat
  deriving DecidableEq, Repr

/-- Arguments of `layer_updater_plain::update_buffer_configuration`: the
call of lines 406-412 passes no entry count (`none`), the call of lines
436-443 passes `updater_entry_count`. -/
structure updater_configuration_args where
  unit : layer_updater_plain
  layer_pos : Nat
  input_config_pos : Nat
  output_config_pos : Nat
  backprop_required : Bool
  updater_entry_count : Option Nat
  deriving DecidableEq, Repr

/-- A call of `update_buffer_configuration` on a layer unit. -/
inductive ConfigurationCall where
  | tester (a : tester_configuration_args)
  | updater (a : updater_configuration_args)
  deriving DecidableEq, Repr

/-- Lines 425-433: the loop over the tester units; `pos` is the position of
`layer_it` and of `input_config_it`. -/
def tester_configuration_calls : List layer_tester_plain → (pos : Nat) → List ConfigurationCall
  | [], _ => []
  | t :: ts, pos =>
    .tester { unit := t, layer_pos := pos, input_config_pos := pos,
              output_config_pos := pos + 1 } :: tester_configuration_calls ts (pos + 1)

/-- Lines 404-413 and 434-444: the loop over the updater units; `pos` is the
position of `layer_it` and of `input_config_it`, `first` tells whether
`it == updater_list.begin()`, `entry_count` is the last argument when there
is one. -/
def updater_configuration_calls (entry_count : Option Nat) :
    List layer_updater_plain → (pos : Nat) → (first : Bool) → List ConfigurationCall
  | [], _, _ => []
  | x :: xs, pos, first =>
    .updater { unit := x, layer_pos := pos, input_config_pos := pos,
               output_config_pos := pos + 1, backprop_required := !first,
               updater_entry_count := entry_count } ::
      updater_configuration_calls entry_count xs (pos + 1) false

/-- Lines 397-413: the calls `get_max_batch_size` makes to fill
`buffer_configuration`; `layer_it` and `input_config_it` start at
`begin()`. -/
def network_updater_plain.get_max_batch_size_calls (u : network_updater_plain) :
    List ConfigurationCall :=
  updater_configuration_calls none u.updater_list 0 true

/-- Lines 397-416: `get_max_batch_size`. The planner
`plain_config->get_max_entry_count(buffer_configuration, 0.5F)` is not among
the sources and is a parameter: what it answers for the configuration the
calls have filled. -/
def network_updater_plain.get_max_batch_size (u : network_updater_plain)
    (get_max_entry_count : List ConfigurationCall → Nat) : Nat :=
  get_max_entry_count u.get_max_batch_size_calls

/-- Lines 418-445: the calls `update_buffers_configuration` makes; the
loop over the updater units goes on from where the loop over the tester
units left `layer_it` and `input_config_it`. -/
def network_updater_plain.update_buffers_configuration (u : network_updater_plain)
    (updater_entry_count : Nat) : List ConfigurationCall :=
  tester_configuration_calls u.tester_list 0 ++
    updater_configuration_calls (some updater_entry_count) u.updater_list
      u.tester_list.length true

/-- The `(unit, layer position, input and output configuration position,
backprop flag)` of the calls on updater units. -/
def updater_configuration_uses : List ConfigurationCall →
    List (layer_updater_plain × Nat × Nat × Nat × Bool)
  | [] => []
  | .updater a :: rest =>
    (a.unit, a.layer_pos, a.input_config_pos, a.output_config_pos, a.backprop_required) ::
      updater_configuration_uses rest
  | .tester _ :: rest => updater_configuration_uses rest


/-! ## The chain of error buffers -/

/-- Lines 147-158: the pack of the updater units as allocated, before the
chaining pass of lines 160-169. -/
def allocated_updater_pack {ω : Type} (K : Kernels ω) (u : network_updater_plain) (c : Call) :
    List (Buf × updater_additional_buffer_set) :=
  (build_updater_pack K c.updater_entry_count u.updater_list u.tester_list.length true
    (build_testing_pack K (max_entry_count c) u.tester_list 0 input_converted_buf).2).1

/-- What the claim names: the input-errors buffer of the nearest of the
`following` entries (nearest first) that has one, or `fallback` if none
has. -/
def nearest_errors : List (Buf × updater_additional_buffer_set) → (fallback : Buf) → Buf
  | [], fallback => fallback
  | q :: rest, fallback =>
    if q.2.input_errors_buffer ≠ 0 then q.2.input_errors_buffer
    else nearest_errors rest fallback

/-- The `output_errors` buffer of the `update_weights` calls of a trace. -/
def update_weights_errors : List Event → List Buf
  | [] => []
  | .update_weights a :: rest => a.output_errors :: update_weights_errors rest
  | _ :: rest => update_weights_errors rest

/-- The `(input_errors, output_errors)` buffers of the `backprop` calls of a
trace. -/
def backprop_errors : List Event → List (Buf × Buf)
  | [] => []
  | .backprop a :: rest => (a.input_errors, a.output_errors) :: backprop_errors rest
  | _ :: rest => backprop_errors rest

/-- The `(input_errors_buffer, output_errors)` pairs met by the backward loop
over the pack entries `ps` when it starts with `output_errors` (line 361
hands each entry's `input_errors_buffer` on to the next step). -/
def errors_chain : (output_errors : Buf) → List (Buf × updater_additional_buffer_set) →
    List (Buf × Buf)
  | _, [] => []
  | output_errors, p :: ps =>
    (p.2.input_errors_buffer, output_errors) :: errors_chain p.2.input_errors_buffer ps


/-! ## `softmax_layer_hessian_plain::test`, lines 42-93 of
`src/nnforge/plain/softmax_layer_hessian_plain.cpp`, and the scratch buffers
it declares, lines 159-172 -/

/-- Lines 159-172: one `(feature_map_count, false)` per thread. -/
def softmax_layer_hessian_plain.get_elem_count_and_per_entry_flag_additional_buffers
    (cfg : softmax_configuration) (openmp_thread_count : Nat) : List (Nat × Bool) :=
  (List.range openmp_thread_count).foldl
    (fun res _ => res ++ [(cfg.feature_map_count, false)]) []

/-- What a call of `test` acts on: the contents of the float buffers, the
scratch vector `local_additional_buffer` of the running thread (thread 0, as
without OpenMP), and in `written`, an observation-only history variable, the
writes made through `out_it` in the order made. Numbers are elements of any
field `α`, with `expf` a function on it. -/
structure softmax_test_state (α : Type) where
  floats : Buf → Nat → α
  local_additional_buffer : List α
  written : List (Nat × α)

/-- Lines 84-86: one iteration of the first inner loop, carrying `sum`;
`none` stands for `local_additional_buffer[feature_map_id]` outside the
vector. -/
def test_exp_step {α : Type} [Field α] (expf : α → α) (cfg : softmax_configuration)
    (input_buffer : Buf) (base : Nat) (acc : Option (softmax_test_state α × α))
    (feature_map_id : Nat) : Option (softmax_test_state α × α) :=
  match acc with
  | none => none
  | some (st, sum) =>
    let val :=
      expf (st.floats input_buffer (base + feature_map_id * cfg.input_neuron_count_per_feature_map))
    if feature_map_id < st.local_additional_buffer.length then
      some ({ st with
              local_additional_buffer := st.local_additional_buffer.set feature_map_id val },
            sum + val)
    else none

/-- Line 90: one iteration of the second inner loop. -/
def test_write_step {α : Type} [Field α] (cfg : softmax_configuration) (output_buffer : Buf)
    (base : Nat) (mult : α) (acc : Option (softmax_test_state α)) (feature_map_id : Nat) :
    Option (softmax_test_state α) :=
  match acc with
  | none => none
  | some st =>
    match st.local_additional_buffer[feature_map_id]? with
    | none => none
    | some v =>
      some { st with
        floats := fun b =>
          if b = output_buffer then
            write_at (st.floats b)
              (base + feature_map_id * cfg.input_neuron_count_per_feature_map) (v * mult)
          else st.floats b
        written := st.written ++
          [(base + feature_map_id * cfg.input_neuron_count_per_feature_map, v * mult)] }

/-- Lines 75-90: the body of the workload loop. -/
def test_workload {α : Type} [Field α] (expf : α → α) (cfg : softmax_configuration)
    (input_buffer output_buffer : Buf) (acc : Option (softmax_test_state α))
    (workload_id : Nat) : Option (softmax_test_state α) :=
  match acc with
  | none => none
  | some st =>
    match (List.range cfg.feature_map_count).foldl
        (test_exp_step expf cfg input_buffer (workload_base cfg workload_id)) (some (st, 0)) with
    | none => none
    | some (st1, sum) =>
      -- float mult = 1.0F / sum;
      (List.range cfg.feature_map_count).foldl
        (test_write_step cfg output_buffer (workload_base cfg workload_id) (1 / sum)) (some st1)

/-- The workload loop of lines 73-91 with its iterations taken one after
the other in the order `schedule`. -/
def test_schedule {α : Type} [Field α] (expf : α → α) (cfg : softmax_configuration)
    (input_buffer output_buffer : Buf) (schedule : List Nat) (st : softmax_test_state α) :
    Option (softmax_test_state α) :=
  schedule.foldl (test_workload expf cfg input_buffer output_buffer) (some st)

/-- Lines 42-93: `softmax_layer_hessian_plain::test`, the workloads
`0 .. total_workload - 1` taken in increasing order. -/
def softmax_layer_hessian_plain.test {α : Type} [Field α] (expf : α → α)
    (cfg : softmax_configuration) (input_buffer output_buffer : Buf) (entry_count : Nat)
    (st : softmax_test_state α) : Option (softmax_test_state α) :=
  test_schedule expf cfg input_buffer output_buffer
    (List.range (entry_count * cfg.input_neuron_count_per_feature_map)) st

/-- The positions `test` writes to, workload by workload. -/
def test_positions (cfg : softmax_configuration) (schedule : List Nat) : List Nat :=
  schedule.flatMap (fun w =>
    (List.range cfg.feature_map_count).map
      (fun f => workload_base cfg w + f * cfg.input_neuron_count_per_feature_map))

/-- Sample configuration: two neurons per entry, one per feature map, two
feature maps. -/
def two_maps : softmax_configuration := ⟨2, 1, 2⟩

/-- A stand-in for `expf` on the rationals, positive everywhere. -/
def sample_expf (x : ℚ) : ℚ := x * x + 1

/-- Sample state for `test`: buffer 1 (the input) holds `0, 1, 2, ...`,
every other buffer 0; a scratch vector of two elements; nothing written. -/
def softmax_test_sample : softmax_test_state ℚ :=
  { floats := fun b p => if b = 1 then (p : ℚ) else 0
    local_additional_buffer := [0, 0]
    written := [] }

/-! ## The layer chain builder -/

/-- C1, at the failing input: for the topology whose single layer owns no
weight data the constructor sets `testing_layer_count` to 1 but builds no
tester unit and puts the layer into `updater_list`. -/
theorem c1_weightless_topology_split :
    weightless_updater.testing_layer_count = 1 ∧
    weightless_updater.tester_list = [] ∧
    weightless_updater.updater_list = [get_updater_plain_layer 0] ∧
    weightless_updater.tester_list.length ≠ weightless_updater.testing_layer_count := by
  decide

/-! ## Dropout check and early exits -/

theorem dropout_check_some_iff (tlc : Nat) (m : List (Nat × ℚ)) :
    (∃ k, dropout_check tlc m = some k) ↔ ∃ p ∈ m, p.1 < tlc + 1 := by
  induction m with
  | nil => simp [dropout_check]
  | cons p rest ih =>
    by_cases h : p.1 < tlc + 1
    · simp only [dropout_check, h, if_true]
      exact ⟨fun _ => ⟨p, List.mem_cons_self _ _, h⟩, fun _ => ⟨p.1, rfl⟩⟩
    · simp only [dropout_check, h, if_false, ih, List.mem_cons]
      constructor
      · rintro ⟨q, hq, hlt⟩
        exact ⟨q, Or.inr hq, hlt⟩
      · rintro ⟨q, hq | hq, hlt⟩
        · exact absurd (hq ▸ hlt) h
        · exact ⟨q, hq, hlt⟩

theorem dropout_check_some_lt (tlc : Nat) (m : List (Nat × ℚ)) (k : Nat)
    (h : dropout_check tlc m = some k) : k < tlc + 1 := by
  induction m with
  | nil => simp [dropout_check] at h
  | cons p rest ih =>
    unfold dropout_check at h
    split at h
    · cases h; assumption
    · exact ih h

theorem dropout_check_none_iff (tlc : Nat) (m : List (Nat × ℚ)) :
    dropout_check tlc m = none ↔ ∀ p ∈ m, tlc + 1 ≤ p.1 := by
  have h := dropout_check_some_iff tlc m
  cases hd : dropout_check tlc m with
  | none =>
    simp only [true_iff]
    intro p hp
    by_contra hlt
    have : ∃ k, dropout_check tlc m = some k := h.2 ⟨p, hp, by omega⟩
    simp [hd] at this
  | some k =>
    simp only [false_iff, reduceCtorEq]
    intro hall
    obtain ⟨p, hp, hlt⟩ := h.1 ⟨k, hd⟩
    have := hall p hp
    omega

theorem update_loop_not_threw {ω : Type} (K : Kernels ω) (u : network_updater_plain)
    (c : Call) (b : Buffers) (fuel : Nat) (s : State ω) (e : neural_network_exception)
    (final : State ω) : update_loop K u c b fuel s ≠ .threw e final := by
  induction fuel generalizing s with
  | zero => simp [update_loop]
  | succ n ih =>
    unfold update_loop
    split
    · simp
    · exact ih _
    · simp

/-- Past the dropout check and the test for zero replicas, a call either is
undefined, whatever the fuel, or runs the main loop from its entry state. -/
theorem actual_update_loop_or_undefined {ω : Type} (K : Kernels ω)
    (u : network_updater_plain) (c : Call) (mem : Memory ω) (ecu : Nat)
    (hmap : dropout_check u.testing_layer_count c.layer_to_dropout_rate_map = none)
    (hrep : ¬ c.updater_entry_count = 0) :
    (∀ fuel, actual_update K u c fuel mem ecu = .undefined_behaviour) ∨
    ∀ fuel, actual_update K u c fuel mem ecu =
      update_loop K u c (allocate_buffers K u c) fuel (State.at_loop_entry c mem ecu) := by
  simp only [actual_update, hmap, hrep, if_false]
  cases data_list_reorganized c.data_list u.testing_layer_count with
  | none => exact Or.inl (fun _ => rfl)
  | some rows =>
    cases training_speed_vector_list_reorganized c.data_list c.training_speed_vector_list
        u.testing_layer_count with
    | none => exact Or.inl (fun _ => rfl)
    | some speeds =>
      by_cases he : u.updater_list.isEmpty = true
      · exact Or.inl (fun _ => by simp only [he, if_true])
      · exact Or.inr (fun _ => by simp only [he, if_false, Bool.false_eq_true])

/-- C2: a dropout map with a layer index below `testing_layer_count` makes
`actual_update` throw `neural_network_exception`, whatever the fuel, in a
state in which no entry has been read, no unit has been called and memory
(hence all weight data) is as it was on entry. -/
theorem c2_dropout_below_first_trainable_layer_throws {ω : Type} (K : Kernels ω)
    (u : network_updater_plain) (c : Call) (fuel : Nat) (mem : Memory ω) (ecu : Nat)
    (h : ∃ p ∈ c.layer_to_dropout_rate_map, p.1 < u.testing_layer_count) :
    ∃ layer_id final,
      actual_update K u c fuel mem ecu = .threw (dropout_error layer_id) final ∧
      layer_id < u.testing_layer_count + 1 ∧
      final.reads = 0 ∧ final.machine.trace = [] ∧ final.machine.mem = mem ∧
      final.res = [] ∧ final.entry_log = [] := by
  obtain ⟨p, hp, hlt⟩ := h
  obtain ⟨k, hk⟩ := (dropout_check_some_iff u.testing_layer_count _).2 ⟨p, hp, by omega⟩
  exact ⟨k, State.initial mem ecu, by simp [actual_update, hk],
    dropout_check_some_lt _ _ _ hk, rfl, rfl, rfl, rfl, rfl⟩

/-- Witness for C2: the sample updater has one testing layer and the map
names layer 0. -/
theorem c2_dropout_below_first_trainable_layer_throws_witness :
    (∃ p ∈ (sample_call 3 1 1 2 [(0, 1 / 2)]).layer_to_dropout_rate_map,
      p.1 < (sample_updater false).testing_layer_count) ∧
    ∃ layer_id final,
      actual_update idle_kernels (sample_updater false) (sample_call 3 1 1 2 [(0, 1 / 2)])
        5 zero_memory 0 = .threw (dropout_error layer_id) final ∧
      layer_id < (sample_updater false).testing_layer_count + 1 ∧
      final.reads = 0 ∧ final.machine.trace = [] ∧ final.machine.mem = zero_memory ∧
      final.res = [] ∧ final.entry_log = [] :=
  ⟨⟨(0, 1 / 2), by simp [sample_call], by decide⟩,
    c2_dropout_below_first_trainable_layer_throws idle_kernels (sample_updater false)
      (sample_call 3 1 1 2 [(0, 1 / 2)]) 5 zero_memory 0
      ⟨(0, 1 / 2), by simp [sample_call], by decide⟩⟩

/-- C3 fails as stated: every index of the map `{1 ↦ 1/2}` is at or above
`testing_layer_count = 1`, yet `actual_update` throws. -/
theorem c3_index_of_first_updater_layer_rejected :
    (∀ p ∈ (sample_call 3 1 1 2 [(1, 1 / 2)]).layer_to_dropout_rate_map,
      (sample_updater false).testing_layer_count ≤ p.1) ∧
    ∃ final, actual_update idle_kernels (sample_updater false)
      (sample_call 3 1 1 2 [(1, 1 / 2)]) 5 zero_memory 0 =
        .threw (dropout_error 1) final := by
  refine ⟨?_, _, rfl⟩
  intro p hp
  simp [sample_call] at hp
  subst hp
  decide

/-- C3 as amended: `actual_update` throws exactly when the dropout map has an
index at or below `testing_layer_count`; in particular a map whose indices
are all strictly above it never makes the call throw. -/
theorem c3_throws_iff_index_not_above_first_updater_layer {ω : Type} (K : Kernels ω)
    (u : network_updater_plain) (c : Call) (fuel : Nat) (mem : Memory ω) (ecu : Nat) :
    (∃ e final, actual_update K u c fuel mem ecu = .threw e final) ↔
      ∃ p ∈ c.layer_to_dropout_rate_map, p.1 ≤ u.testing_layer_count := by
  constructor
  · rintro ⟨e, final, h⟩
    cases hd : dropout_check u.testing_layer_count c.layer_to_dropout_rate_map with
    | some k =>
      obtain ⟨p, hp, hlt⟩ := (dropout_check_some_iff _ _).1 ⟨k, hd⟩
      exact ⟨p, hp, by omega⟩
    | none =>
      exfalso
      by_cases hz : c.updater_entry_count = 0
      · simp [actual_update, hd, hz] at h
      · rcases actual_update_loop_or_undefined K u c mem ecu hd hz with hu | hl
        · rw [hu fuel] at h
          simp at h
        · rw [hl fuel] at h
          exact update_loop_not_threw _ _ _ _ _ _ _ _ h
  · rintro ⟨p, hp, hle⟩
    obtain ⟨k, hk⟩ := (dropout_check_some_iff u.testing_layer_count _).2 ⟨p, hp, by omega⟩
    exact ⟨dropout_error k, State.initial mem ecu, by simp [actual_update, hk]⟩

/-- C4 fails as stated: with no replica and an empty dropout map the call
returns the empty result sequence; it does not throw. -/
theorem c4_zero_replicas_returns_empty :
    (sample_call 3 0 0 2 []).updater_entry_count = 0 ∧
    ∃ final, actual_update idle_kernels (sample_updater false) (sample_call 3 0 0 2 [])
      5 zero_memory 0 = .returned [] final := by
  exact ⟨rfl, _, rfl⟩

/-- C4 as amended: with zero replicas and a dropout map that passes the
check, `actual_update` returns the empty result sequence at once: nothing
is read, no unit is called and memory is untouched. -/
theorem c4_zero_replicas_return_at_once {ω : Type} (K : Kernels ω)
    (u : network_updater_plain) (c : Call) (fuel : Nat) (mem : Memory ω) (ecu : Nat)
    (hzero : c.updater_entry_count = 0)
    (hmap : ∀ p ∈ c.layer_to_dropout_rate_map, u.testing_layer_count + 1 ≤ p.1) :
    ∃ final, actual_update K u c fuel mem ecu = .returned [] final ∧
      final.reads = 0 ∧ final.machine.trace = [] ∧ final.machine.mem = mem ∧
      final.entry_count_updated_in_profile_mode = ecu := by
  have hd := (dropout_check_none_iff u.testing_layer_count _).2 hmap
  exact ⟨State.initial mem ecu, by simp [actual_update, hd, hzero, State.initial],
    rfl, rfl, rfl, rfl⟩

/-- Witness for C4 as amended. -/
theorem c4_zero_replicas_return_at_once_witness :
    (sample_call 3 0 0 2 [(2, 1 / 2)]).updater_entry_count = 0 ∧
    (∀ p ∈ (sample_call 3 0 0 2 [(2, 1 / 2)]).layer_to_dropout_rate_map,
      (sample_updater false).testing_layer_count + 1 ≤ p.1) ∧
    ∃ final, actual_update idle_kernels (sample_updater false)
        (sample_call 3 0 0 2 [(2, 1 / 2)]) 5 zero_memory 7 = .returned [] final ∧
      final.reads = 0 ∧ final.machine.trace = [] ∧ final.machine.mem = zero_memory ∧
      final.entry_count_updated_in_profile_mode = 7 :=
  ⟨rfl, by simp [sample_call]; decide,
    c4_zero_replicas_return_at_once idle_kernels (sample_updater false)
      (sample_call 3 0 0 2 [(2, 1 / 2)]) 5 zero_memory 7 rfl
      (by simp [sample_call]; decide)⟩


/-! ## Dropout offsets: forward push, backward pop -/

theorem forward_dropouts_append (a b : List Event) :
    forward_dropouts (a ++ b) = forward_dropouts a ++ forward_dropouts b := by
  induction a with
  | nil => rfl
  | cons e rest ih => cases e <;> simp [forward_dropouts, ih]

theorem backward_dropouts_append (a b : List Event) :
    backward_dropouts (a ++ b) = backward_dropouts a ++ backward_dropouts b := by
  induction a with
  | nil => rfl
  | cons e rest ih => cases e <;> simp [backward_dropouts, ih]

theorem marked_append (m : List (Nat × ℚ)) (a b : List Nat) :
    marked m (a ++ b) = marked m a ++ marked m b := by
  induction a with
  | nil => rfl
  | cons x rest ih =>
    simp only [List.cons_append, marked]
    cases find_rate m x <;> simp [ih]

theorem marked_reverse (m : List (Nat × ℚ)) (a : List Nat) :
    marked m a.reverse = (marked m a).reverse := by
  induction a with
  | nil => rfl
  | cons x rest ih =>
    simp only [List.reverse_cons, marked_append, ih, marked]
    cases find_rate m x <;> simp [marked]

theorem marked_fst_sublist (m : List (Nat × ℚ)) (a : List Nat) :
    ((marked m a).map Prod.fst).Sublist a := by
  induction a with
  | nil => exact List.Sublist.slnil
  | cons x rest ih =>
    simp only [marked]
    cases find_rate m x with
    | none => exact List.Sublist.cons _ ih
    | some r => exact List.Sublist.cons₂ _ ih

theorem ids_down_eq (n base : Nat) :
    ids_down n (n + base) = (List.range' (base + 1) n).reverse := by
  induction n with
  | zero => rfl
  | succ k ih =>
    have h : k + 1 + base - 1 = k + base := by omega
    simp only [ids_down, h, ih, List.range'_concat, List.reverse_append, List.reverse_cons,
      List.reverse_nil, List.nil_append, List.singleton_append, Nat.one_mul]
    congr 1
    omega

theorem forward_dropouts_call_cons (c : Call) (b : Buffers) (x : layer_updater_plain)
    (p : Buf × updater_additional_buffer_set) (layer_id : Nat) (rate : ℚ) (offset : Nat)
    (evs : List Event) :
    forward_dropouts (forward_dropout_call c b x p layer_id rate offset :: evs) =
      (layer_id, rate, offset) :: forward_dropouts evs := rfl

theorem backward_dropouts_call_cons (c : Call) (b : Buffers) (x : layer_updater_plain)
    (p : Buf × updater_additional_buffer_set) (r : ReversePositions) (layer_id : Nat)
    (rate : ℚ) (offset : Nat) (evs : List Event) :
    backward_dropouts (backward_dropout_call c b x p r layer_id rate offset :: evs) =
      (layer_id, rate, offset) :: backward_dropouts evs := rfl

/-- The forward pass from a unit that is not the first one: every layer with
a rate gets one `forward_dropout`, the drawn offsets are pushed in layer
order. -/
theorem forward_updater_tail {ω : Type} (K : Kernels ω) (c : Call) (b : Buffers)
    (input_entry_id : Nat) :
    ∀ (xs : List layer_updater_plain) (ps : List (Buf × updater_additional_buffer_set))
      (j layer_id : Nat) (offset_list : List Nat) (m : Machine ω),
      j ≠ 0 → xs.length = ps.length →
      ∃ (F : List (Nat × ℚ × Nat)) (evs : List Event),
        (forward_updater K c b input_entry_id xs ps j layer_id offset_list m).1 =
          (F.map (fun t => t.2.2)).reverse ++ offset_list ∧
        (forward_updater K c b input_entry_id xs ps j layer_id offset_list m).2.trace =
          m.trace ++ evs ∧
        forward_dropouts evs = F ∧ backward_dropouts evs = [] ∧
        F.map (fun t => (t.1, t.2.1)) =
          marked c.layer_to_dropout_rate_map (List.range' layer_id xs.length) := by
  intro xs
  induction xs with
  | nil =>
    intro ps j layer_id offset_list m _ hlen
    cases ps with
    | nil => exact ⟨[], [], by simp [forward_updater], by simp [forward_updater], rfl, rfl, rfl⟩
    | cons p ps => simp at hlen
  | cons x xs ih =>
    intro ps j layer_id offset_list m hj hlen
    cases ps with
    | nil => simp at hlen
    | cons p ps =>
      have hlen2 : xs.length = ps.length := by simpa using hlen
      cases hr : find_rate c.layer_to_dropout_rate_map layer_id with
      | none =>
        obtain ⟨F, evs, h1, h2, h3, h4, h5⟩ := ih ps (j + 1) (layer_id + 1) offset_list
          (call K (updater_test_call c x p j layer_id input_entry_id) m) (by omega) hlen2
        refine ⟨F, updater_test_call c x p j layer_id input_entry_id :: evs, ?_, ?_, ?_, ?_, ?_⟩
        · simpa [forward_updater, hj, hr] using h1
        · simp only [forward_updater, hj, hr, ne_eq, not_false_eq_true, if_true]
          rw [h2]; simp [call]
        · simpa [forward_dropouts, updater_test_call] using h3
        · simpa [backward_dropouts, updater_test_call] using h4
        · simp [List.range'_succ, marked, hr, h5]
      | some rate =>
        obtain ⟨F, evs, h1, h2, h3, h4, h5⟩ := ih ps (j + 1) (layer_id + 1)
          (c.gen_random_offset m.draws :: offset_list)
          (call K (updater_test_call c x p j layer_id input_entry_id)
            (call K (forward_dropout_call c b x p layer_id rate (c.gen_random_offset m.draws))
              { m with draws := m.draws + 1 }))
          (by omega) hlen2
        refine ⟨(layer_id, rate, c.gen_random_offset m.draws) :: F,
          forward_dropout_call c b x p layer_id rate (c.gen_random_offset m.draws) ::
            updater_test_call c x p j layer_id input_entry_id :: evs, ?_, ?_, ?_, ?_, ?_⟩
        · simp only [forward_updater, hj, hr, ne_eq, not_false_eq_true, if_true]
          rw [h1]; simp
        · simp only [forward_updater, hj, hr, ne_eq, not_false_eq_true, if_true]
          rw [h2]; simp [call]
        · rw [forward_dropouts_call_cons]
          simpa [forward_dropouts, updater_test_call] using h3
        · simpa [backward_dropouts, updater_test_call, forward_dropout_call] using h4
        · simp [List.range'_succ, marked, hr, h5]

/-- The backward pass over `xs` (in reverse order): given the offsets of the
marked layers on top of the stack, it pops exactly those, hands each to the
`backward_dropout` of its layer and never finds the stack empty. -/
theorem backward_updater_pops {ω : Type} (K : Kernels ω) (u : network_updater_plain)
    (c : Call) (b : Buffers) (input_entry_id : Nat) :
    ∀ (xs : List layer_updater_plain) (ps : List (Buf × updater_additional_buffer_set))
      (k output_errors reverse_layer_id : Nat) (F : List (Nat × ℚ × Nat))
      (rest : List Nat) (m : Machine ω),
      xs.length = ps.length →
      F.map (fun t => (t.1, t.2.1)) =
        marked c.layer_to_dropout_rate_map (ids_down (xs.length - 1) reverse_layer_id) →
      ∃ (m' : Machine ω) (evs : List Event),
        backward_updater K u c b input_entry_id xs ps k output_errors reverse_layer_id
          (F.map (fun t => t.2.2) ++ rest) m = some (rest, m') ∧
        m'.trace = m.trace ++ evs ∧
        backward_dropouts evs = F ∧ forward_dropouts evs = [] := by
  intro xs
  induction xs with
  | nil =>
    intro ps k oe rid F rest m hlen hF
    cases ps with
    | cons p ps => simp at hlen
    | nil =>
      simp [ids_down, marked] at hF
      subst hF
      exact ⟨m, [], by simp [backward_updater], by simp, rfl, rfl⟩
  | cons x xs ih =>
    intro ps k oe rid F rest m hlen hF
    cases ps with
    | nil => simp at hlen
    | cons p ps =>
      have hlen2 : xs.length = ps.length := by simpa using hlen
      cases xs with
      | nil =>
        simp [ids_down, marked] at hF
        subst hF
        cases ps with
        | cons q qs => simp at hlen2
        | nil =>
          exact ⟨call K
              (update_weights_call c x p (reverse_positions u c k) oe true input_entry_id) m,
            [update_weights_call c x p (reverse_positions u c k) oe true input_entry_id],
            by simp [backward_updater], by simp [call], rfl, rfl⟩
      | cons y ys =>
        have hlen3 : (y :: ys).length - 1 = ys.length := by simp
        have hids : ids_down ((x :: y :: ys).length - 1) rid =
            rid :: ids_down ((y :: ys).length - 1) (rid - 1) := by
          simp [ids_down]
        rw [hids] at hF
        cases hr : find_rate c.layer_to_dropout_rate_map rid with
        | none =>
          simp only [marked, hr] at hF
          obtain ⟨m', evs, h1, h2, h3, h4⟩ := ih ps (k + 1) p.2.input_errors_buffer (rid - 1) F
            rest
            (call K (update_weights_call c x p (reverse_positions u c k) oe false input_entry_id)
              (call K (backprop_call c x p (reverse_positions u c k) oe) m)) hlen2 hF
          refine ⟨m', backprop_call c x p (reverse_positions u c k) oe ::
            update_weights_call c x p (reverse_positions u c k) oe false input_entry_id :: evs,
            ?_, ?_, ?_, ?_⟩
          · simpa [backward_updater, hr] using h1
          · rw [h2]; simp [call]
          · simpa [backward_dropouts, backprop_call, update_weights_call] using h3
          · simpa [forward_dropouts, backprop_call, update_weights_call] using h4
        | some rate =>
          simp only [marked, hr] at hF
          cases F with
          | nil => simp at hF
          | cons t F' =>
            simp only [List.map_cons, List.cons.injEq] at hF
            obtain ⟨ht, hF'⟩ := hF
            obtain ⟨m', evs, h1, h2, h3, h4⟩ := ih ps (k + 1) p.2.input_errors_buffer (rid - 1)
              F' rest
              (call K
                (update_weights_call c x p (reverse_positions u c k) oe false input_entry_id)
                (call K (backward_dropout_call c b x p (reverse_positions u c k) rid rate t.2.2)
                  (call K (backprop_call c x p (reverse_positions u c k) oe) m))) hlen2 hF'
            refine ⟨m', backprop_call c x p (reverse_positions u c k) oe ::
              backward_dropout_call c b x p (reverse_positions u c k) rid rate t.2.2 ::
              update_weights_call c x p (reverse_positions u c k) oe false input_entry_id :: evs,
              ?_, ?_, ?_, ?_⟩
            · simpa [backward_updater, hr] using h1
            · rw [h2]; simp [call]
            · have ht' : t = (rid, rate, t.2.2) := by
                rcases t with ⟨a, r, o⟩
                simp only [Prod.mk.injEq] at ht
                simp [ht.1, ht.2]
              have : backward_dropouts
                  (backprop_call c x p (reverse_positions u c k) oe ::
                    backward_dropout_call c b x p (reverse_positions u c k) rid rate t.2.2 ::
                    update_weights_call c x p (reverse_positions u c k) oe false input_entry_id ::
                    evs) = (rid, rate, t.2.2) :: backward_dropouts evs := by
                simp [backward_dropouts, backprop_call, update_weights_call,
                  backward_dropout_call]
              rw [this, h3, ← ht']
            · simpa [forward_dropouts, backprop_call, update_weights_call,
                backward_dropout_call] using h4

theorem foldl_preserves {α β γ : Type} (f : α → β → α) (g : α → γ)
    (h : ∀ a b, g (f a b) = g a) (l : List β) (a : α) : g (l.foldl f a) = g a := by
  induction l generalizing a with
  | nil => rfl
  | cons x rest ih => simp [List.foldl_cons, ih, h]

theorem build_updater_pack_length {ω : Type} (K : Kernels ω) (n : Nat) :
    ∀ (xs : List layer_updater_plain) (pos : Nat) (first : Bool) (ob : Buf),
      (build_updater_pack K n xs pos first ob).1.length = xs.length := by
  intro xs
  induction xs with
  | nil => intro _ _ _; rfl
  | cons x xs ih => intro pos first ob; simp [build_updater_pack, ih]

theorem chain_input_errors_length :
    ∀ (l : List (Buf × updater_additional_buffer_set)) (oe : Buf),
      (chain_input_errors l oe).length = l.length := by
  intro l
  induction l with
  | nil => intro _; rfl
  | cons p rest ih =>
    intro oe
    cases rest with
    | nil => rfl
    | cons q rest2 =>
      unfold chain_input_errors
      split <;> simp [ih]

theorem allocate_buffers_updater_pack_length {ω : Type} (K : Kernels ω)
    (u : network_updater_plain) (c : Call) :
    (allocate_buffers K u c).updater_pack.length = u.updater_list.length := by
  simp [allocate_buffers, chain_input_errors_length, build_updater_pack_length]

/-- The whole forward pass: dropout is applied at the marked layers after
the first updater layer. -/
theorem forward_updater_pushes {ω : Type} (K : Kernels ω) (c : Call) (b : Buffers)
    (input_entry_id : Nat) (xs : List layer_updater_plain)
    (ps : List (Buf × updater_additional_buffer_set)) (layer_id : Nat) (m : Machine ω)
    (hlen : xs.length = ps.length) :
    ∃ (F : List (Nat × ℚ × Nat)) (evs : List Event),
      (forward_updater K c b input_entry_id xs ps 0 layer_id [] m).1 =
        (F.map (fun t => t.2.2)).reverse ∧
      (forward_updater K c b input_entry_id xs ps 0 layer_id [] m).2.trace = m.trace ++ evs ∧
      forward_dropouts evs = F ∧ backward_dropouts evs = [] ∧
      F.map (fun t => (t.1, t.2.1)) =
        marked c.layer_to_dropout_rate_map (List.range' (layer_id + 1) (xs.length - 1)) := by
  cases xs with
  | nil =>
    cases ps with
    | nil => exact ⟨[], [], by simp [forward_updater], by simp [forward_updater], rfl, rfl, rfl⟩
    | cons p ps => simp at hlen
  | cons x xs =>
    cases ps with
    | nil => simp at hlen
    | cons p ps =>
      have hlen2 : xs.length = ps.length := by simpa using hlen
      obtain ⟨F, evs, h1, h2, h3, h4, h5⟩ := forward_updater_tail K c b input_entry_id xs ps 1
        (layer_id + 1) [] (call K (updater_test_call c x p 0 layer_id input_entry_id) m)
        (by omega) hlen2
      refine ⟨F, updater_test_call c x p 0 layer_id input_entry_id :: evs, ?_, ?_, ?_, ?_, ?_⟩
      · simpa [forward_updater] using h1
      · simp only [forward_updater, ne_eq, not_true_eq_false, if_false, Nat.zero_add]
        rw [h2]; simp [call]
      · simpa [forward_dropouts, updater_test_call] using h3
      · simpa [backward_dropouts, updater_test_call] using h4
      · simpa using h5

theorem set_initial_error_machine_trace {ω : Type} (c : Call) (b : Buffers) (id : Nat)
    (s : State ω) : (set_initial_error c b id s).machine.trace = s.machine.trace :=
  foldl_preserves (initial_error_step c b id) (fun s => s.machine.trace) (fun _ _ => rfl) _ s

/-- One iteration of the per-entry loop: the backward pass pops exactly what
the forward pass pushed, in reverse order. -/
theorem entry_iteration_replays_offsets {ω : Type} (K : Kernels ω)
    (u : network_updater_plain) (c : Call) (first_read input_entry_id : Nat) (s : State ω) :
    ∃ (final : State ω) (evs : List Event),
      process_entry_stack K u c (allocate_buffers K u c) first_read input_entry_id s =
        some ([], final) ∧
      final.machine.trace = s.machine.trace ++ evs ∧
      backward_dropouts evs = (forward_dropouts evs).reverse ∧
      ((backward_dropouts evs).map Prod.fst).Perm ((forward_dropouts evs).map Prod.fst) ∧
      ((forward_dropouts evs).map Prod.fst).Nodup := by
  have hlen := (allocate_buffers_updater_pack_length K u c).symm
  obtain ⟨F, evsF, hf1, hf2, hf3, hf4, hf5⟩ := forward_updater_pushes K c
    (allocate_buffers K u c) input_entry_id u.updater_list (allocate_buffers K u c).updater_pack
    u.testing_layer_count s.machine hlen
  have hids : F.reverse.map (fun t => (t.1, t.2.1)) =
      marked c.layer_to_dropout_rate_map
        (ids_down (u.updater_list.reverse.length - 1)
          (u.updater_list.length + u.testing_layer_count - 1)) := by
    rw [List.map_reverse, hf5, ← marked_reverse, List.length_reverse]
    cases hn : u.updater_list.length with
    | zero => rfl
    | succ n =>
      have h1 : n + 1 - 1 = n := by omega
      have h2 : n + 1 + u.testing_layer_count - 1 = n + u.testing_layer_count := by omega
      rw [h1, h2, ids_down_eq]
  have hstack : (forward_and_error K u c (allocate_buffers K u c) first_read input_entry_id
      s).1 = F.reverse.map (fun t => t.2.2) ++ [] := by
    simp only [forward_and_error]
    rw [hf1, List.map_reverse, List.append_nil]
  have htrace : (forward_and_error K u c (allocate_buffers K u c) first_read input_entry_id
      s).2.machine.trace = s.machine.trace ++ evsF := by
    simp only [forward_and_error]
    rw [set_initial_error_machine_trace]
    exact hf2
  obtain ⟨m', evsB, hb1, hb2, hb3, hb4⟩ := backward_updater_pops K u c
    (allocate_buffers K u c) input_entry_id u.updater_list.reverse
    (allocate_buffers K u c).updater_pack.reverse 0 initial_error_buf
    (u.updater_list.length + u.testing_layer_count - 1) F.reverse []
    (forward_and_error K u c (allocate_buffers K u c) first_read input_entry_id s).2.machine
    (by simp [hlen]) hids
  refine ⟨{ (forward_and_error K u c (allocate_buffers K u c) first_read input_entry_id s).2
      with machine := m' }, evsF ++ evsB, ?_, ?_, ?_, ?_, ?_⟩
  · simp only [process_entry_stack]
    rw [hstack, hb1]
  · simp only []
    rw [hb2, htrace, List.append_assoc]
  · simp [forward_dropouts_append, backward_dropouts_append, hf3, hf4, hb3, hb4]
  · simp only [forward_dropouts_append, backward_dropouts_append, hf3, hf4, hb3, hb4,
      List.nil_append, List.append_nil, List.map_reverse]
    exact List.reverse_perm _
  · simp only [forward_dropouts_append, hf3, hb4, List.append_nil]
    have hfst : F.map Prod.fst =
        (marked c.layer_to_dropout_rate_map
          (List.range' (u.testing_layer_count + 1) (u.updater_list.length - 1))).map Prod.fst := by
      rw [← hf5]; simp
    rw [hfst]
    exact (marked_fst_sublist _ _).nodup (List.nodup_range' _ _)

/-- C5: in every iteration of the per-entry loop, whatever the dropout map
and the state, the backward pass never takes `top()` of an empty
`offset_list` (the iteration yields a state), `offset_list` is empty when
the iteration ends, and the `backward_dropout` calls are the
`forward_dropout` calls of the same iteration in reverse order with the same
layer, rate and offset; so both are applied at the same layers, each layer
at most once. -/
theorem c5_dropout_offsets_replayed_in_reverse {ω : Type} (K : Kernels ω)
    (u : network_updater_plain) (c : Call) (first_read input_entry_id : Nat) (s : State ω) :
    ∃ (final : State ω) (evs : List Event),
      process_entry_stack K u c (allocate_buffers K u c) first_read input_entry_id s =
        some ([], final) ∧
      final.machine.trace = s.machine.trace ++ evs ∧
      backward_dropouts evs = (forward_dropouts evs).reverse ∧
      ((backward_dropouts evs).map Prod.fst).Perm ((forward_dropouts evs).map Prod.fst) ∧
      ((forward_dropouts evs).map Prod.fst).Nodup :=
  entry_iteration_replays_offsets K u c first_read input_entry_id s


/-! ## The error step and the flush step -/

theorem foldl_invariant {α β : Type} (f : α → β → α) (P : α → Prop)
    (h : ∀ a b, P a → P (f a b)) (l : List β) (a : α) (ha : P a) : P (l.foldl f a) := by
  induction l generalizing a with
  | nil => exact ha
  | cons x rest ih => exact ih _ (h _ _ ha)

theorem initial_error_fold {ω : Type} (c : Call) (b : Buffers) (id : Nat) (s : State ω)
    (n : Nat) :
    (∀ i, ((List.range n).foldl (initial_error_step c b id) s).temp_mse_buf i =
      if i < n then
        s.temp_mse_buf i +
          (s.actual_output_buf (c.output_neuron_count * id + i % c.output_neuron_count) -
            s.machine.mem.floats b.output_buffer i) ^ 2
      else s.temp_mse_buf i) ∧
    (∀ bb j, n ≤ j →
      ((List.range n).foldl (initial_error_step c b id) s).machine.mem.floats bb j =
        s.machine.mem.floats bb j) ∧
    ((List.range n).foldl (initial_error_step c b id) s).actual_output_buf =
      s.actual_output_buf := by
  induction n with
  | zero => simp
  | succ n ih =>
    obtain ⟨h1, h2, h3⟩ := ih
    rw [List.range_succ, List.foldl_append]
    simp only [List.foldl_cons, List.foldl_nil]
    refine ⟨?_, ?_, ?_⟩
    · intro i
      simp only [initial_error_step, write_at]
      by_cases hi : i = n
      · subst hi
        simp only [if_true, h1, h3, h2 _ _ (Nat.le_refl _), Nat.lt_irrefl, if_false,
          Nat.lt_succ_self]
        ring
      · simp only [hi, if_false, h1]
        by_cases hlt : i < n
        · simp [hlt, Nat.lt_succ_of_lt hlt]
        · have : ¬ i < n + 1 := by omega
          simp [hlt, this]
    · intro bb j hj
      simp only [initial_error_step, set_float, write_at]
      have hne : j ≠ n := by omega
      by_cases hb : bb = initial_error_buf
      · simp [hb, hne, write_at, h2 _ _ (by omega : n ≤ j)]
      · simp [hb, write_at, h2 _ _ (by omega : n ≤ j)]
    · simp only [initial_error_step]
      exact h3

theorem set_initial_error_same_driver {ω : Type} (c : Call) (b : Buffers) (id : Nat)
    (s : State ω) : SameDriver s (set_initial_error c b id s) :=
  foldl_invariant (initial_error_step c b id) (fun t => SameDriver s t)
    (fun _ _ h => ⟨h.res, h.reads, h.input_buf, h.actual_output_buf, h.profile_count,
      h.batch_log⟩) _ s ⟨rfl, rfl, rfl, rfl, rfl, rfl⟩

theorem set_initial_error_entry_log {ω : Type} (c : Call) (b : Buffers) (id : Nat)
    (s : State ω) : (set_initial_error c b id s).entry_log = s.entry_log :=
  foldl_preserves (initial_error_step c b id) (fun s => s.entry_log) (fun _ _ => rfl) _ s

/-- One iteration of the per-entry loop always yields a state: it leaves the
driver's own fields alone, logs the entry, and adds the squared error of
every output element to `temp_mse_buf`. -/
theorem process_entry_spec {ω : Type} (K : Kernels ω) (u : network_updater_plain) (c : Call)
    (first_read id : Nat) (s : State ω) :
    ∃ (t : State ω) (P : Nat → ℚ),
      process_entry K u c (allocate_buffers K u c) first_read id s = some t ∧
      SameDriver s t ∧
      t.entry_log = s.entry_log ++ [{ stream_index := first_read + id, predicted := P }] ∧
      ∀ i, t.temp_mse_buf i =
        if i < c.output_neuron_count * c.updater_entry_count then
          s.temp_mse_buf i +
            (s.actual_output_buf (c.output_neuron_count * id + i % c.output_neuron_count) -
              P i) ^ 2
        else s.temp_mse_buf i := by
  obtain ⟨final, evs, h, _⟩ := entry_iteration_replays_offsets K u c first_read id s
  have hfe : ∃ m', final =
      { (forward_and_error K u c (allocate_buffers K u c) first_read id s).2 with
        machine := m' } := by
    simp only [process_entry_stack] at h
    split at h
    · simp at h
    · simp only [Option.some.injEq, Prod.mk.injEq] at h
      exact ⟨_, h.2.symm⟩
  obtain ⟨m', hm'⟩ := hfe
  refine ⟨final, (forward_updater K c (allocate_buffers K u c) id u.updater_list
      (allocate_buffers K u c).updater_pack 0 u.testing_layer_count []
      s.machine).2.mem.floats (allocate_buffers K u c).output_buffer, ?_, ?_, ?_, ?_⟩
  · simp [process_entry, h]
  · subst hm'
    have hs := set_initial_error_same_driver c (allocate_buffers K u c) id
      { s with
        machine := (forward_updater K c (allocate_buffers K u c) id u.updater_list
          (allocate_buffers K u c).updater_pack 0 u.testing_layer_count [] s.machine).2
        entry_log := s.entry_log ++
          [{ stream_index := first_read + id,
             predicted := (forward_updater K c (allocate_buffers K u c) id u.updater_list
               (allocate_buffers K u c).updater_pack 0 u.testing_layer_count []
               s.machine).2.mem.floats (allocate_buffers K u c).output_buffer }] }
    exact ⟨hs.res, hs.reads, hs.input_buf, hs.actual_output_buf, hs.profile_count,
      hs.batch_log⟩
  · subst hm'
    simp only [forward_and_error]
    rw [set_initial_error_entry_log]
  · subst hm'
    intro i
    simp only [forward_and_error, set_initial_error]
    rw [(initial_error_fold c (allocate_buffers K u c) id _ _).1 i]

theorem length_modify_at {α : Type} (f : α → α) (l : List α) (n : Nat) :
    (modify_at f l n).length = l.length := by
  induction l generalizing n with
  | nil => rfl
  | cons x rest ih => cases n <;> simp [modify_at, ih]

theorem getElem?_modify_at {α : Type} (f : α → α) (l : List α) (n k : Nat) :
    (modify_at f l n)[k]? = if k = n then (l[k]?).map f else l[k]? := by
  induction l generalizing n k with
  | nil => simp [modify_at]
  | cons x rest ih =>
    cases n with
    | zero => cases k <;> simp [modify_at]
    | succ n => cases k <;> simp [modify_at, ih]

theorem forall_mem_modify_at {α : Type} (f : α → α) (P : α → Prop) (l : List α) (n : Nat)
    (hl : ∀ x, x ∈ l → P x) (hf : ∀ x, P x → P (f x)) : ∀ x, x ∈ modify_at f l n → P x := by
  induction l generalizing n with
  | nil => intro x hx; simp [modify_at] at hx
  | cons y rest ih =>
    intro x hx
    cases n with
    | zero =>
      simp only [modify_at, List.mem_cons] at hx
      rcases hx with rfl | hx
      · exact hf _ (hl _ (List.mem_cons_self _ _))
      · exact hl _ (List.mem_cons_of_mem _ hx)
    | succ n =>
      simp only [modify_at, List.mem_cons] at hx
      rcases hx with rfl | hx
      · exact hl _ (List.mem_cons_self _ _)
      · exact ih n (fun z hz => hl _ (List.mem_cons_of_mem _ hz)) x hx

theorem cum_at_flush_step {ω : Type} (c : Call) (s : State ω) (n r o : Nat) :
    cum_at (flush_step c s n).res r o =
      if r = n / c.output_neuron_count ∧ o = n % c.output_neuron_count then
        (cum_at s.res r o).map (fun x => x + s.temp_mse_buf n * (1 / 2))
      else cum_at s.res r o := by
  have hmod : n - n / c.output_neuron_count * c.output_neuron_count =
      n % c.output_neuron_count := by
    have := Nat.div_add_mod n c.output_neuron_count
    rw [Nat.mul_comm] at this
    omega
  simp only [flush_step, cum_at, getElem?_modify_at, hmod]
  by_cases hr : r = n / c.output_neuron_count
  · simp only [hr, true_and, if_true]
    cases hx : s.res[n / c.output_neuron_count]? with
    | none => simp
    | some x =>
      simp only [Option.map_some', Option.some_bind, getElem?_modify_at]
  · simp [hr]

theorem div_mod_inj (k i n : Nat) (h1 : i / k = n / k) (h2 : i % k = n % k) : i = n := by
  have a := Nat.div_add_mod i k
  have b := Nat.div_add_mod n k
  rw [h1, h2] at a
  omega

/-- The flush loop over the first `n` elements. -/
theorem flush_fold {ω : Type} (c : Call) (s : State ω) (n : Nat) :
    (∀ i, ((List.range n).foldl (flush_step c) s).temp_mse_buf i =
      if i < n then 0 else s.temp_mse_buf i) ∧
    (∀ i, cum_at ((List.range n).foldl (flush_step c) s).res
        (i / c.output_neuron_count) (i % c.output_neuron_count) =
      if i < n then
        (cum_at s.res (i / c.output_neuron_count) (i % c.output_neuron_count)).map
          (fun x => x + s.temp_mse_buf i * (1 / 2))
      else cum_at s.res (i / c.output_neuron_count) (i % c.output_neuron_count)) := by
  induction n with
  | zero => simp
  | succ n ih =>
    obtain ⟨h1, h2⟩ := ih
    rw [List.range_succ, List.foldl_append]
    simp only [List.foldl_cons, List.foldl_nil]
    refine ⟨?_, ?_⟩
    · intro i
      by_cases hi : i = n
      · subst hi
        simp [flush_step, write_at]
      · have : (flush_step c ((List.range n).foldl (flush_step c) s) n).temp_mse_buf i =
            ((List.range n).foldl (flush_step c) s).temp_mse_buf i := by
          simp [flush_step, write_at, hi]
        rw [this, h1]
        by_cases hlt : i < n
        · simp [hlt, Nat.lt_succ_of_lt hlt]
        · have : ¬ i < n + 1 := by omega
          simp [hlt, this]
    · intro i
      rw [cum_at_flush_step]
      by_cases hi : i = n
      · subst hi
        simp only [and_self, if_true, Nat.lt_succ_self, h2, Nat.lt_irrefl, if_false, h1]
      · have hne : ¬ (i / c.output_neuron_count = n / c.output_neuron_count ∧
            i % c.output_neuron_count = n % c.output_neuron_count) := by
          rintro ⟨a, b⟩
          exact hi (div_mod_inj _ _ _ a b)
        simp only [hne, if_false, h2]
        by_cases hlt : i < n
        · simp [hlt, Nat.lt_succ_of_lt hlt]
        · have : ¬ i < n + 1 := by omega
          simp [hlt, this]

/-- The fields the flush step leaves alone. -/
theorem flush_statistics_frame {ω : Type} (c : Call) (s : State ω) :
    (flush_statistics c s).machine = s.machine ∧
    (flush_statistics c s).reads = s.reads ∧
    (flush_statistics c s).entry_log = s.entry_log ∧
    (flush_statistics c s).batch_log = s.batch_log ∧
    (flush_statistics c s).entry_count_updated_in_profile_mode =
      s.entry_count_updated_in_profile_mode ∧
    (flush_statistics c s).res.length = s.res.length :=
  foldl_invariant (flush_step c)
    (fun t => t.machine = s.machine ∧ t.reads = s.reads ∧ t.entry_log = s.entry_log ∧
      t.batch_log = s.batch_log ∧
      t.entry_count_updated_in_profile_mode = s.entry_count_updated_in_profile_mode ∧
      t.res.length = s.res.length)
    (fun a i h => by
      simp only [flush_step, length_modify_at]
      exact h) _ s ⟨rfl, rfl, rfl, rfl, rfl, rfl⟩

theorem flush_statistics_shape {ω : Type} (c : Call) (n : Nat) (s : State ω)
    (h : ResultsShape c n s.res) : ResultsShape c n (flush_statistics c s).res :=
  foldl_invariant (flush_step c) (fun t => ResultsShape c n t.res)
    (fun a i ha => by
      simp only [flush_step]
      exact forall_mem_modify_at _ _ _ _ ha (fun x hx => by
        simpa [length_modify_at] using hx)) _ s h

/-! ## The per-entry loop and one macro-batch -/

theorem half_squared_error_sum_append (c : Call) (log : List EntryRecord) (r : EntryRecord)
    (o i : Nat) :
    half_squared_error_sum c (log ++ [r]) o i =
      half_squared_error_sum c log o i +
        1 / 2 * (target_of c r.stream_index o - r.predicted i) ^ 2 := by
  simp [half_squared_error_sum, List.map_append, List.sum_append]
  ring

theorem SameDriver.trans {ω : Type} {s t w : State ω} (h1 : SameDriver s t)
    (h2 : SameDriver t w) : SameDriver s w :=
  ⟨h2.res.trans h1.res, h2.reads.trans h1.reads, h2.input_buf.trans h1.input_buf,
    h2.actual_output_buf.trans h1.actual_output_buf, h2.profile_count.trans h1.profile_count,
    h2.batch_log.trans h1.batch_log⟩

theorem Loaded.of_same_buf {ω : Type} {c : Call} {first n : Nat} {s t : State ω}
    (h : Loaded c first n s) (hb : t.actual_output_buf = s.actual_output_buf) :
    Loaded c first n t := by
  intro k hk o ho
  rw [hb]
  exact h k hk o ho

/-- The per-entry loop always runs to its end; it processes the slots
`input_entry_id, input_entry_id + 1, ...` in this order, once each. -/
theorem process_entries_spec {ω : Type} (K : Kernels ω) (u : network_updater_plain)
    (c : Call) (first_read : Nat) :
    ∀ (n id : Nat) (s : State ω),
      ∃ t : State ω,
        process_entries K u c (allocate_buffers K u c) first_read n id s = some t ∧
        SameDriver s t ∧
        t.entry_log.map (fun r => r.stream_index) =
          s.entry_log.map (fun r => r.stream_index) ++ List.range' (first_read + id) n ∧
        (∀ i, c.output_neuron_count * c.updater_entry_count ≤ i →
          t.temp_mse_buf i = s.temp_mse_buf i) ∧
        (Loaded c first_read (id + n) s → MseInv c s → MseInv c t) := by
  intro n
  induction n with
  | zero =>
    intro id s
    exact ⟨s, rfl, ⟨rfl, rfl, rfl, rfl, rfl, rfl⟩, by simp, fun _ _ => rfl, fun _ h => h⟩
  | succ n ih =>
    intro id s
    obtain ⟨t, P, h1, h2, h3, h4⟩ := process_entry_spec K u c first_read id s
    obtain ⟨w, g1, g2, g3, g4, g5⟩ := ih (id + 1) t
    refine ⟨w, ?_, h2.trans g2, ?_, ?_, ?_⟩
    · simp [process_entries, h1, g1]
    · rw [g3, h3]
      simp [List.range'_succ, Nat.add_assoc]
    · intro i hi
      rw [g4 i hi, h4 i]
      simp [Nat.not_lt.2 hi]
    · intro hl hm
      apply g5
      · have : id + 1 + n = id + (n + 1) := by omega
        rw [this]
        exact hl.of_same_buf h2.actual_output_buf
      · intro i hi v hv
        rw [h2.res] at hv
        have hpos : 0 < c.output_neuron_count := by
          rcases Nat.eq_zero_or_pos c.output_neuron_count with h0 | h0
          · rw [h0] at hi; simp at hi
          · exact h0
        have htgt := hl id (by omega) (i % c.output_neuron_count) (Nat.mod_lt _ hpos)
        rw [h3, half_squared_error_sum_append, h4 i, if_pos hi, htgt, ← hm i hi v hv]
        ring

theorem cum_at_map_entry_count (res : List testing_result) (n r o : Nat) :
    cum_at (res.map (fun x => { x with entry_count := x.entry_count + n })) r o =
      cum_at res r o := by
  simp only [cum_at, List.getElem?_map]
  cases res[r]? <;> rfl

/-- One macro-batch of `n` loaded entries always runs to its end. -/
theorem process_batch_spec {ω : Type} (K : Kernels ω) (u : network_updater_plain) (c : Call)
    (first_read n : Nat) (flag : Bool) (s : State ω) :
    ∃ t : State ω,
      process_batch K u c (allocate_buffers K u c) first_read n flag s =
        some (if u.profile_mode then false else flag, t) ∧
      t.reads = s.reads ∧
      t.batch_log = s.batch_log ++ [n] ∧
      t.entry_log.map (fun r => r.stream_index) =
        s.entry_log.map (fun r => r.stream_index) ++ List.range' first_read n ∧
      t.entry_count_updated_in_profile_mode =
        (if u.profile_mode then n else s.entry_count_updated_in_profile_mode) ∧
      t.res.length = s.res.length ∧
      (∀ k, ResultsShape c k s.res → ResultsShape c (k + n) t.res) ∧
      ((∀ i, s.temp_mse_buf i = 0) → ∀ i, t.temp_mse_buf i = 0) ∧
      (Loaded c first_read n s → MseInv c s → MseInv c t) := by
  obtain ⟨w, g1, g2, g3, g4, g5⟩ := process_entries_spec K u c first_read n 0
    { s with
      batch_log := s.batch_log ++ [n]
      machine := run_testers K n u.tester_list (allocate_buffers K u c).testing_pack 0
        { s.machine with mem := convert_input u c n s.input_buf s.machine.mem } }
  obtain ⟨f1, f2, f3, f4, f5, f6⟩ := flush_statistics_frame c w
  obtain ⟨ft, fc⟩ := flush_fold c w (c.output_neuron_count * c.updater_entry_count)
  have hshape : ∀ k, ResultsShape c k s.res → ResultsShape c (k + n)
      ((flush_statistics c w).res.map
        (fun r => { r with entry_count := r.entry_count + n })) := by
    intro k hk x hx
    have hw : ResultsShape c k w.res := by rw [g2.res]; exact hk
    have hf := flush_statistics_shape c k w hw
    simp only [List.mem_map] at hx
    obtain ⟨y, hy, rfl⟩ := hx
    exact ⟨(hf y hy).1, by simp [(hf y hy).2]⟩
  have htemp : (∀ i, s.temp_mse_buf i = 0) → ∀ i, (flush_statistics c w).temp_mse_buf i = 0 := by
    intro hz i
    simp only [flush_statistics]
    rw [ft i]
    split
    · rfl
    · rw [g4 i (by omega)]
      exact hz i
  have hmse : Loaded c first_read n s → MseInv c s → ∀ i,
      i < c.output_neuron_count * c.updater_entry_count → ∀ v,
      cum_at ((flush_statistics c w).res.map
        (fun r => { r with entry_count := r.entry_count + n }))
        (i / c.output_neuron_count) (i % c.output_neuron_count) = some v →
      v + (flush_statistics c w).temp_mse_buf i * (1 / 2) =
        half_squared_error_sum c (flush_statistics c w).entry_log
          (i % c.output_neuron_count) i := by
    intro hl hm i hi v hv
    have hw : MseInv c w := g5 (by simpa using hl) hm
    rw [cum_at_map_entry_count] at hv
    simp only [flush_statistics] at hv
    rw [fc i, if_pos hi] at hv
    cases hc : cum_at w.res (i / c.output_neuron_count) (i % c.output_neuron_count) with
    | none => simp [hc] at hv
    | some v0 =>
      simp only [hc, Option.map_some', Option.some.injEq] at hv
      have hzero : (flush_statistics c w).temp_mse_buf i = 0 := by
        simp only [flush_statistics]
        rw [ft i, if_pos hi]
      rw [hzero, f3, ← hw i hi v0 hc, ← hv]
      ring
  by_cases hp : u.profile_mode = true
  · refine ⟨{ (flush_statistics c w) with
        res := (flush_statistics c w).res.map
          (fun r => { r with entry_count := r.entry_count + n })
        entry_count_updated_in_profile_mode := n }, ?_, ?_, ?_, ?_, ?_, ?_, hshape, htemp,
      hmse⟩
    · simp [process_batch, g1, hp]
    · simp only [f2, g2.reads]
    · simp only [f4, g2.batch_log]
    · simp only [f3, g3]
      simp
    · simp [hp]
    · simp [f6, g2.res]
  · refine ⟨{ (flush_statistics c w) with
        res := (flush_statistics c w).res.map
          (fun r => { r with entry_count := r.entry_count + n }) }, ?_, ?_, ?_, ?_, ?_, ?_,
      hshape, htemp, hmse⟩
    · simp [process_batch, g1, hp]
    · simp only [f2, g2.reads]
    · simp only [f4, g2.batch_log]
    · simp only [f3, g3]
      simp
    · simp [hp, f5, g2.profile_count]
    · simp [f6, g2.res]

/-! ## The load loop -/

/-- The load loop touches only `reads` and the two load buffers. -/
theorem load_entries_frame {ω : Type} (c : Call) :
    ∀ (budget count : Nat) (s : State ω),
      (load_entries c budget count s).2.2.machine = s.machine ∧
      (load_entries c budget count s).2.2.temp_mse_buf = s.temp_mse_buf ∧
      (load_entries c budget count s).2.2.res = s.res ∧
      (load_entries c budget count s).2.2.entry_count_updated_in_profile_mode =
        s.entry_count_updated_in_profile_mode ∧
      (load_entries c budget count s).2.2.entry_log = s.entry_log ∧
      (load_entries c budget count s).2.2.batch_log = s.batch_log := by
  intro budget
  induction budget with
  | zero => intro count s; exact ⟨rfl, rfl, rfl, rfl, rfl, rfl⟩
  | succ n ih =>
    intro count s
    unfold load_entries
    split
    · exact ⟨rfl, rfl, rfl, rfl, rfl, rfl⟩
    · exact ih _ _

/-- The load loop when the next `k` reads succeed and either `k` fills the
budget or the read after them fails. -/
theorem load_entries_spec {ω : Type} (c : Call) :
    ∀ (budget count : Nat) (s : State ω) (k : Nat),
      k ≤ budget →
      (∀ i, i < k → (c.reader (s.reads + i)).isSome) →
      (k < budget → c.reader (s.reads + k) = none) →
      (load_entries c budget count s).1 = decide (k = budget) ∧
      (load_entries c budget count s).2.1 = count + k ∧
      (load_entries c budget count s).2.2.reads =
        s.reads + k + (if k = budget then 0 else 1) ∧
      (∀ p, p < c.output_neuron_count * count →
        (load_entries c budget count s).2.2.actual_output_buf p = s.actual_output_buf p) ∧
      (∀ j, j < k → ∀ o, o < c.output_neuron_count →
        (load_entries c budget count s).2.2.actual_output_buf
          (c.output_neuron_count * (count + j) + o) = target_of c (s.reads + j) o) := by
  intro budget
  induction budget with
  | zero =>
    intro count s k hk _ _
    have : k = 0 := by omega
    subst this
    exact ⟨rfl, rfl, rfl, fun _ _ => rfl, fun j hj => absurd hj (Nat.not_lt_zero _)⟩
  | succ n ih =>
    intro count s k hk hsome hnone
    cases k with
    | zero =>
      have h0 : c.reader s.reads = none := by simpa using hnone (by omega)
      have hne : ¬ (0 = n + 1) := by omega
      simp only [load_entries, h0]
      refine ⟨?_, ?_, ?_, ?_, fun j hj => absurd hj (Nat.not_lt_zero _)⟩
      · simp
      · simp
      · simp [hne]
      · intro p _; trivial
    | succ k =>
      have h0 := hsome 0 (by omega)
      simp only [Nat.add_zero] at h0
      obtain ⟨e, he⟩ := Option.isSome_iff_exists.1 h0
      have hmul : c.output_neuron_count * (count + 1) =
          c.output_neuron_count * count + c.output_neuron_count := Nat.mul_succ _ _
      obtain ⟨a1, a2, a3, a4, a5⟩ := ih (count + 1)
        { s with
          reads := s.reads + 1
          input_buf := write_slice s.input_buf (c.input_neuron_count * count)
            c.input_neuron_count e.input
          actual_output_buf := write_slice s.actual_output_buf
            (c.output_neuron_count * count) c.output_neuron_count e.target } k (by omega)
        (fun i hi => by
          have := hsome (i + 1) (by omega)
          simpa [Nat.add_assoc, Nat.add_comm 1 i] using this)
        (fun hlt => by
          have := hnone (by omega)
          simpa [Nat.add_assoc, Nat.add_comm 1 k] using this)
      simp only [load_entries, he]
      refine ⟨?_, ?_, ?_, ?_, ?_⟩
      · rw [a1]; simp
      · rw [a2]; omega
      · rw [a3]
        by_cases hkn : k = n
        · simp [hkn]; omega
        · have : ¬ (k + 1 = n + 1) := by omega
          simp [hkn, this]; omega
      · intro p hp
        rw [a4 p (by rw [hmul]; omega)]
        simp only [write_slice]
        rw [if_neg (by omega)]
      · intro j hj o ho
        cases j with
        | zero =>
          simp only [Nat.add_zero]
          rw [a4 _ (by rw [hmul]; omega)]
          simp only [write_slice]
          rw [if_pos ⟨by omega, by omega⟩]
          simp [target_of, he]
        | succ j =>
          have := a5 j (by omega) o ho
          have e1 : count + 1 + j = count + (j + 1) := by omega
          have e2 : s.reads + 1 + j = s.reads + (j + 1) := by omega
          simp only [e1, e2] at this
          exact this

/-! ## One iteration of the main loop -/

theorem MseInv.congr {ω : Type} {c : Call} {s t : State ω} (h : MseInv c s)
    (hr : t.res = s.res) (ht : t.temp_mse_buf = s.temp_mse_buf)
    (hl : t.entry_log = s.entry_log) : MseInv c t := by
  intro i hi v hv
  rw [hr] at hv
  rw [ht, hl]
  exact h i hi v hv

/-- From any position of the stream some number `k` of reads, at most the
budget, succeed, and the next one fails unless the budget is filled. -/
theorem exists_load_count (c : Call) (p : Nat) :
    ∀ budget, ∃ k, k ≤ budget ∧ (∀ i, i < k → (c.reader (p + i)).isSome) ∧
      (k < budget → c.reader (p + k) = none) := by
  intro budget
  induction budget with
  | zero => exact ⟨0, Nat.le_refl _, fun i hi => absurd hi (Nat.not_lt_zero _), fun h => absurd h (Nat.lt_irrefl _)⟩
  | succ n ih =>
    obtain ⟨k, hk, hs, hn⟩ := ih
    by_cases hlt : k < n
    · exact ⟨k, by omega, hs, fun _ => hn hlt⟩
    · have hkn : k = n := by omega
      subst hkn
      cases hr : c.reader (p + k) with
      | none => exact ⟨k, by omega, hs, fun _ => hr⟩
      | some e =>
        refine ⟨k + 1, Nat.le_refl _, ?_, fun h => absurd h (Nat.lt_irrefl _)⟩
        intro i hi
        by_cases hik : i < k
        · exact hs i hik
        · have : i = k := by omega
          subst this
          simp [hr]

/-- One iteration of the main loop when `k` entries get loaded. -/
theorem macro_batch_spec {ω : Type} (K : Kernels ω) (u : network_updater_plain) (c : Call)
    (s : State ω) (k : Nat) (hk : k ≤ max_entry_count c)
    (hsome : ∀ i, i < k → (c.reader (s.reads + i)).isSome)
    (hnone : k < max_entry_count c → c.reader (s.reads + k) = none) :
    ∃ t : State ω,
      macro_batch K u c (allocate_buffers K u c) s =
        some (if k = 0 then false else if u.profile_mode then false
          else decide (k = max_entry_count c), t) ∧
      t.reads = s.reads + k + (if k = max_entry_count c then 0 else 1) ∧
      t.batch_log = s.batch_log ++ (if k = 0 then [] else [k]) ∧
      t.entry_log.map (fun r => r.stream_index) =
        s.entry_log.map (fun r => r.stream_index) ++ List.range' s.reads k ∧
      t.entry_count_updated_in_profile_mode =
        (if k ≠ 0 ∧ u.profile_mode = true then k
          else s.entry_count_updated_in_profile_mode) ∧
      t.res.length = s.res.length ∧
      (∀ n, ResultsShape c n s.res → ResultsShape c (n + k) t.res) ∧
      ((∀ i, s.temp_mse_buf i = 0) → ∀ i, t.temp_mse_buf i = 0) ∧
      (MseInv c s → MseInv c t) ∧
      (k = 0 → t.res = s.res) := by
  have hB : (allocate_buffers K u c).max_entry_count = max_entry_count c := rfl
  obtain ⟨l1, l2, l3, l4, l5⟩ := load_entries_spec c (max_entry_count c) 0 s k hk hsome hnone
  obtain ⟨f1, f2, f3, f4, f5, f6⟩ := load_entries_frame c (max_entry_count c) 0 s
  simp only [Nat.zero_add] at l2 l5
  by_cases hk0 : k = 0
  · subst hk0
    refine ⟨(load_entries c (max_entry_count c) 0 s).2.2, ?_, l3, ?_, ?_, ?_, ?_, ?_, ?_, ?_, ?_⟩
    · simp [macro_batch, hB, l2]
    · simp [f6]
    · simp [f5]
    · simp [f4]
    · simp [f3]
    · intro n hn; rw [f3]; exact hn
    · intro hz i; rw [f2]; exact hz i
    · intro hm; exact hm.congr f3 f2 f5
    · intro _; exact f3
  · obtain ⟨t, p1, p2, p3, p4, p5, p6, p7, p8, p9⟩ := process_batch_spec K u c s.reads k
      (load_entries c (max_entry_count c) 0 s).1 (load_entries c (max_entry_count c) 0 s).2.2
    refine ⟨t, ?_, ?_, ?_, ?_, ?_, ?_, ?_, ?_, ?_, ?_⟩
    · simp only [macro_batch, hB, l2, hk0, if_false]
      rw [p1, l1]
    · rw [p2, l3]
    · rw [p3, f6]; simp [hk0]
    · rw [p4, f5]
    · rw [p5, f4]
      by_cases hp : u.profile_mode = true <;> simp [hp, hk0]
    · rw [p6, f3]
    · intro n hn
      exact p7 n (by rw [f3]; exact hn)
    · intro hz
      exact p8 (by intro i; rw [f2]; exact hz i)
    · intro hm
      exact p9 (fun j hj o ho => l5 j hj o ho) (hm.congr f3 f2 f5)
    · intro h; exact absurd h hk0

/-! ## The main loop -/

theorem batch_sizes_full (q cap : Nat) (hcap : 0 < cap) :
    batch_sizes (q * cap) cap = List.replicate q cap := by
  simp [batch_sizes, Nat.mul_div_cancel _ hcap]

theorem batch_sizes_rest (q cap n : Nat) (hn : 0 < n) (hlt : n < cap) :
    batch_sizes (q * cap + n) cap = List.replicate q cap ++ [n] := by
  have hcap : 0 < cap := by omega
  have hdiv : (q * cap + n) / cap = q := by
    rw [Nat.mul_comm, Nat.mul_add_div hcap, Nat.div_eq_of_lt hlt, Nat.add_zero]
  have hmod : (q * cap + n) % cap = n := by
    rw [Nat.mul_comm, Nat.mul_add_mod, Nat.mod_eq_of_lt hlt]
  have hne : ¬ n = 0 := by omega
  simp [batch_sizes, hdiv, hmod, hne]

theorem range_append_range' (a b : Nat) :
    List.range a ++ List.range' a b = List.range (a + b) := by
  rw [List.range_eq_range', List.range_eq_range']
  have := List.range'_append_1 0 a b
  simp only [Nat.zero_add] at this
  rw [this, Nat.add_comm]

/-- With profile mode off the main loop consumes the stream in macro-batches
of `max_entry_count` entries and returns after the read that fails. -/
theorem update_loop_exhausts {ω : Type} (K : Kernels ω) (u : network_updater_plain)
    (c : Call) (hp : u.profile_mode = false) (hcap : 0 < max_entry_count c) :
    ∀ (fuel q n : Nat) (s : State ω),
      LoopInv c s q →
      (∀ i, i < n → (c.reader (q * max_entry_count c + i)).isSome) →
      c.reader (q * max_entry_count c + n) = none →
      n < fuel →
      ∃ t : State ω,
        update_loop K u c (allocate_buffers K u c) fuel s = .returned t.res t ∧
        Finished c (q * max_entry_count c + n) s t ∧ (n = 0 → t.res = s.res) := by
  intro fuel
  induction fuel with
  | zero => intro q n s _ _ _ h; exact absurd h (Nat.not_lt_zero _)
  | succ fuel ih =>
    intro q n s hinv hsome hnone hfuel
    by_cases hfull : max_entry_count c ≤ n
    · -- a full macro-batch, and the loop goes on
      obtain ⟨t, m1, m2, m3, m4, m5, m6, m7, m8, m9, _⟩ := macro_batch_spec K u c s
        (max_entry_count c) (Nat.le_refl _)
        (fun i hi => by rw [hinv.reads]; exact hsome i (by omega))
        (fun h => absurd h (Nat.lt_irrefl _))
      have hne : ¬ max_entry_count c = 0 := by omega
      simp only [hne, if_false, hp, if_true, decide_True, Bool.false_eq_true, ne_eq,
        not_false_eq_true, true_and] at m1 m2 m3 m5
      have hq : (q + 1) * max_entry_count c = q * max_entry_count c + max_entry_count c :=
        Nat.succ_mul _ _
      have hinv' : LoopInv c t (q + 1) :=
        { reads := by rw [m2, hinv.reads, hq]; omega
          batch_log := by rw [m3, hinv.batch_log, List.replicate_succ']
          entry_log := by rw [m4, hinv.entry_log, hinv.reads, range_append_range', hq]
          shape := by rw [hq]; exact m7 _ hinv.shape
          length := by rw [m6, hinv.length]
          temp := m8 hinv.temp
          mse := m9 hinv.mse }
      obtain ⟨w, w1, w2, _⟩ := ih (q + 1) (n - max_entry_count c) t hinv'
        (fun i hi => by
          have := hsome (max_entry_count c + i) (by omega)
          rw [hq, Nat.add_assoc]; exact this)
        (by
          have : q * max_entry_count c + max_entry_count c + (n - max_entry_count c) =
              q * max_entry_count c + n := by omega
          rw [hq, this]; exact hnone)
        (by omega)
      have hsum : (q + 1) * max_entry_count c + (n - max_entry_count c) =
          q * max_entry_count c + n := by rw [hq]; omega
      rw [hsum] at w2
      refine ⟨w, ?_, ?_, fun h => absurd h (by omega)⟩
      · simp only [update_loop, m1]
        exact w1
      · exact
          { reads := w2.reads
            batch_log := w2.batch_log
            entry_log := w2.entry_log
            shape := w2.shape
            length := w2.length
            temp := w2.temp
            mse := w2.mse
            profile_count := by rw [w2.profile_count, m5] }
    · -- the stream ends inside this macro-batch
      have hlt : n < max_entry_count c := by omega
      obtain ⟨t, m1, m2, m3, m4, m5, m6, m7, m8, m9, m10⟩ := macro_batch_spec K u c s n
        (by omega) (fun i hi => by rw [hinv.reads]; exact hsome i hi)
        (fun _ => by rw [hinv.reads]; exact hnone)
      have hne : ¬ n = max_entry_count c := by omega
      have hflag : (if n = 0 then false else if u.profile_mode = true then false
          else decide (n = max_entry_count c)) = false := by
        simp [hp, hne]
      rw [hflag] at m1
      simp only [hne, if_false, hp, Bool.false_eq_true, and_false] at m2 m5
      refine ⟨t, ?_, ?_, m10⟩
      · simp only [update_loop, m1]
      · exact
          { reads := by rw [m2, hinv.reads]
            batch_log := by
              rw [m3, hinv.batch_log]
              by_cases h0 : n = 0
              · subst h0
                simp [batch_sizes_full _ _ hcap]
              · simp only [h0, if_false]
                rw [batch_sizes_rest _ _ _ (by omega) hlt]
            entry_log := by rw [m4, hinv.entry_log, hinv.reads, range_append_range']
            shape := m7 _ hinv.shape
            length := by rw [m6, hinv.length]
            temp := m8 hinv.temp
            mse := m9 hinv.mse
            profile_count := m5 }

theorem cum_at_replicate_new (n k r o : Nat) (v : ℚ)
    (h : cum_at (List.replicate n (testing_result.new k)) r o = some v) : v = 0 := by
  simp only [cum_at, List.getElem?_replicate] at h
  split at h
  · simp only [Option.some_bind, testing_result.new, List.getElem?_replicate] at h
    split at h
    · exact (Option.some.inj h).symm
    · simp at h
  · simp at h

theorem loop_entry_inv {ω : Type} (c : Call) (mem : Memory ω) (ecu : Nat) :
    LoopInv c (State.at_loop_entry c mem ecu) 0 :=
  { reads := by simp [State.at_loop_entry, State.initial]
    batch_log := by simp [State.at_loop_entry, State.initial]
    entry_log := by simp [State.at_loop_entry, State.initial]
    shape := by
      intro x hx
      simp only [State.at_loop_entry, List.mem_replicate] at hx
      rw [hx.2]
      simp [testing_result.new]
    length := by simp [State.at_loop_entry]
    temp := fun _ => rfl
    mse := by
      intro i _ v hv
      have := cum_at_replicate_new _ _ _ _ _ hv
      subst this
      simp [State.at_loop_entry, State.initial, half_squared_error_sum] }

theorem flat_index (k r o bound : Nat) (hr : r < bound) (ho : o < k) :
    r * k + o < k * bound ∧ (r * k + o) / k = r ∧ (r * k + o) % k = o := by
  have hk : 0 < k := by omega
  refine ⟨?_, ?_, ?_⟩
  · have h1 : (r + 1) * k ≤ bound * k := Nat.mul_le_mul_right k hr
    rw [Nat.succ_mul] at h1
    rw [Nat.mul_comm k bound]
    omega
  · rw [Nat.mul_comm, Nat.mul_add_div hk, Nat.div_eq_of_lt ho, Nat.add_zero]
  · rw [Nat.mul_comm, Nat.mul_add_mod, Nat.mod_eq_of_lt ho]

/-- In a state whose scratch accumulator is empty, every existing error slot
of the first `updater_entry_count` results holds half the sum of the squared
errors logged so far. -/
theorem mse_of_inv {ω : Type} (c : Call) (n : Nat) (s : State ω) (hm : MseInv c s)
    (hz : ∀ i, s.temp_mse_buf i = 0) (hs : ResultsShape c n s.res) (r o : Nat)
    (result : testing_result) (hr : r < c.updater_entry_count)
    (ho : o < c.output_neuron_count) (hres : s.res[r]? = some result) :
    result.cumulative_mse_list[o]? =
      some (half_squared_error_sum c s.entry_log o (r * c.output_neuron_count + o)) := by
  obtain ⟨h1, h2, h3⟩ := flat_index c.output_neuron_count r o c.updater_entry_count hr ho
  have hlen := (hs result (List.getElem?_mem hres)).1
  obtain ⟨v, hv⟩ : ∃ v, result.cumulative_mse_list[o]? = some v :=
    ⟨_, List.getElem?_eq_getElem (by omega)⟩
  have hc : cum_at s.res ((r * c.output_neuron_count + o) / c.output_neuron_count)
      ((r * c.output_neuron_count + o) % c.output_neuron_count) = some v := by
    rw [h2, h3]
    simp [cum_at, hres, hv]
  have := hm _ h1 _ hc
  rw [hz, h3] at this
  rw [hv, ← this]
  simp

theorem flush_statistics_zeroes {ω : Type} (c : Call) (s : State ω)
    (h : ∀ i, c.output_neuron_count * c.updater_entry_count ≤ i → s.temp_mse_buf i = 0) :
    ∀ i, (flush_statistics c s).temp_mse_buf i = 0 := by
  intro i
  simp only [flush_statistics]
  rw [(flush_fold c s _).1 i]
  split
  · rfl
  · exact h i (by omega)

/-! ## Runs of `actual_update` -/

/-- C8 fails as stated: with profile mode on and a reader that has no entry,
the call processes no macro-batch and leaves
`entry_count_updated_in_profile_mode` at its old value, here 5, although no
entry was read. -/
theorem c8_empty_reader_leaves_profile_count_stale :
    (sample_updater true).profile_mode = true ∧
    (sample_call 0 1 1 2 []).reader 0 = none ∧
    ∃ final : State Unit,
      actual_update idle_kernels (sample_updater true) (sample_call 0 1 1 2 []) 3
        zero_memory 5 = .returned final.res final ∧
      final.batch_log = [] ∧ final.entry_log.length = 0 ∧
      final.entry_count_updated_in_profile_mode = 5 :=
  ⟨rfl, rfl, _, rfl, rfl, rfl, rfl⟩

/-- C9, at the failing input: for the topology whose single layer owns no
weight data, a run over two entries processes one macro-batch (of two
entries) in which no tester unit is called at all, while the layer's unit is
evaluated by the per-entry loop, once per entry. -/
theorem c9_weightless_layer_evaluated_per_entry :
    (actual_update idle_kernels weightless_updater (sample_call 2 1 1 2 []) 3
      zero_memory 0).returned_state.map (fun s =>
        (s.batch_log, tester_calls s.machine.trace, updater_test_calls s.machine.trace)) =
      some ([2], [], [(get_updater_plain_layer 0, 0), (get_updater_plain_layer 0, 1)]) := by
  decide

/-- C10, at the failing input: with one replica and two training-speed
vectors the returned sequence has two results, one per training-speed
vector (the loop of lines 89-90 runs to `training_speed_vector_list.size()`),
not one per replica. -/
theorem c10_one_result_per_training_speed_vector :
    (sample_call 0 1 2 2 []).updater_entry_count = 1 ∧
    ∃ res final,
      actual_update idle_kernels (sample_updater false) (sample_call 0 1 2 2 []) 3
        zero_memory 0 = .returned res final ∧
      res.length = 2 :=
  ⟨rfl, _, _, rfl, rfl⟩

/-! ## Where the layer chain builder and the testing pass do what is intended -/

theorem find_start_all_weightless :
    ∀ (layers : List layer) (it tlc start : Nat),
      (∀ l, l ∈ layers → l.is_empty_data = true) →
      find_start layers it tlc start =
        (tlc + layers.length, if layers.length = 0 then start else it + layers.length - 1) := by
  intro layers
  induction layers with
  | nil => intro it tlc start _; rfl
  | cons l rest ih =>
    intro it tlc start h
    have hl := h l (List.mem_cons_self _ _)
    simp only [find_start, hl, Bool.not_true, Bool.false_eq_true, if_false]
    rw [ih (it + 1) (tlc + 1) it (fun x hx => h x (List.mem_cons_of_mem _ hx))]
    simp only [List.length_cons, Nat.succ_ne_zero, if_false, Prod.mk.injEq]
    constructor
    · omega
    · split <;> omega

theorem find_start_of_weighted :
    ∀ (layers : List layer) (it tlc start : Nat),
      (∃ l, l ∈ layers ∧ l.is_empty_data = false) →
      find_start layers it tlc start =
        (tlc + (layers.takeWhile (fun l => l.is_empty_data)).length,
          it + (layers.takeWhile (fun l => l.is_empty_data)).length) := by
  intro layers
  induction layers with
  | nil => intro it tlc start h; obtain ⟨l, hl, _⟩ := h; simp at hl
  | cons l rest ih =>
    intro it tlc start h
    cases hl : l.is_empty_data with
    | false => simp [find_start, hl, List.takeWhile]
    | true =>
      have hrest : ∃ x, x ∈ rest ∧ x.is_empty_data = false := by
        obtain ⟨x, hx, hx2⟩ := h
        rcases List.mem_cons.1 hx with rfl | hx'
        · rw [hl] at hx2; cases hx2
        · exact ⟨x, hx', hx2⟩
      simp only [find_start, hl, Bool.not_true, Bool.false_eq_true, if_false, List.takeWhile,
        List.length_cons]
      rw [ih (it + 1) (tlc + 1) it hrest]
      simp only [Prod.mk.injEq]
      constructor <;> omega

/-- When some layer owns weight data the constructor splits the topology at
the first such layer, as intended: `k` tester units for the `k` layers before
it, updater units for the rest, and `testing_layer_count = k`. -/
theorem constructor_splits_at_first_weighted_layer (layers : List layer) (cfg : Nat)
    (add mul : Nat → ℚ) (pm : Bool) (h : ∃ l, l ∈ layers ∧ l.is_empty_data = false) :
    (network_updater_plain.new layers cfg add mul pm).testing_layer_count =
      (layers.takeWhile (fun l => l.is_empty_data)).length ∧
    (network_updater_plain.new layers cfg add mul pm).tester_list =
      ((layers.take (layers.takeWhile (fun l => l.is_empty_data)).length).map
        (fun l => get_tester_plain_layer l.uuid)) ∧
    (network_updater_plain.new layers cfg add mul pm).updater_list =
      ((layers.drop (layers.takeWhile (fun l => l.is_empty_data)).length).map
        (fun l => get_updater_plain_layer l.uuid)) := by
  simp [network_updater_plain.new, find_start_of_weighted layers 0 0 0 h]

/-- When the topology is not empty and no layer owns weight data, the
constructor counts every layer in `testing_layer_count` but builds a tester
unit for all but the last one. -/
theorem constructor_on_weightless_topology (layers : List layer) (cfg : Nat)
    (add mul : Nat → ℚ) (pm : Bool) (hne : layers ≠ [])
    (h : ∀ l, l ∈ layers → l.is_empty_data = true) :
    (network_updater_plain.new layers cfg add mul pm).testing_layer_count = layers.length ∧
    (network_updater_plain.new layers cfg add mul pm).tester_list.length + 1 = layers.length ∧
    (network_updater_plain.new layers cfg add mul pm).updater_list.length = 1 := by
  have hpos : 0 < layers.length := List.length_pos.2 hne
  have hz : ¬ layers.length = 0 := by omega
  simp only [network_updater_plain.new, find_start_all_weightless layers 0 0 0 h, hz, if_false,
    Nat.zero_add, List.length_map, List.length_take, List.length_drop]
  refine ⟨trivial, ?_, ?_⟩ <;> omega

theorem tester_calls_append (a b : List Event) :
    tester_calls (a ++ b) = tester_calls a ++ tester_calls b := by
  induction a with
  | nil => rfl
  | cons e rest ih => cases e <;> simp [tester_calls, ih]

theorem build_testing_pack_length {ω : Type} (K : Kernels ω) (n : Nat) :
    ∀ (ts : List layer_tester_plain) (pos : Nat) (ob : Buf),
      (build_testing_pack K n ts pos ob).1.length = ts.length := by
  intro ts
  induction ts with
  | nil => intro _ _; rfl
  | cons t ts ih => intro pos ob; simp [build_testing_pack, ih]

theorem run_testers_calls {ω : Type} (K : Kernels ω) (n : Nat) :
    ∀ (ts : List layer_tester_plain) (ps : List (Buf × List Buf)) (pos : Nat) (m : Machine ω),
      ts.length = ps.length →
      ∃ evs, (run_testers K n ts ps pos m).trace = m.trace ++ evs ∧
        tester_calls evs = ts.map (fun t => (t, n)) := by
  intro ts
  induction ts with
  | nil =>
    intro ps pos m h
    cases ps with
    | nil => exact ⟨[], by simp [run_testers], rfl⟩
    | cons p ps => simp at h
  | cons t ts ih =>
    intro ps pos m h
    cases ps with
    | nil => simp at h
    | cons p ps =>
      obtain ⟨evs, h1, h2⟩ := ih ps (pos + 1) (call K (tester_test_call t p pos n) m)
        (by simpa using h)
      refine ⟨tester_test_call t p pos n :: evs, ?_, ?_⟩
      · simp only [run_testers]
        rw [h1]
        simp [call]
      · simp [tester_calls, tester_test_call, h2]

theorem forward_updater_no_tester {ω : Type} (K : Kernels ω) (c : Call) (b : Buffers)
    (id : Nat) :
    ∀ (xs : List layer_updater_plain) (ps : List (Buf × updater_additional_buffer_set))
      (j layer_id : Nat) (st : List Nat) (m : Machine ω),
      ∃ evs, (forward_updater K c b id xs ps j layer_id st m).2.trace = m.trace ++ evs ∧
        tester_calls evs = [] := by
  intro xs
  induction xs with
  | nil => intro ps j l st m; exact ⟨[], by simp [forward_updater], rfl⟩
  | cons x xs ih =>
    intro ps j l st m
    cases ps with
    | nil => exact ⟨[], by simp [forward_updater], rfl⟩
    | cons p ps =>
      simp only [forward_updater]
      by_cases hj : j = 0
      · obtain ⟨evs, h1, h2⟩ := ih ps (j + 1) (l + 1) st
          (call K (updater_test_call c x p j l id) m)
        refine ⟨updater_test_call c x p j l id :: evs, ?_, ?_⟩
        · simp only [hj, ne_eq, not_true_eq_false, if_false] at h1 ⊢
          rw [h1]; simp [call]
        · simpa [tester_calls, updater_test_call] using h2
      · cases hr : find_rate c.layer_to_dropout_rate_map l with
        | none =>
          obtain ⟨evs, h1, h2⟩ := ih ps (j + 1) (l + 1) st
            (call K (updater_test_call c x p j l id) m)
          refine ⟨updater_test_call c x p j l id :: evs, ?_, ?_⟩
          · simp only [hj, ne_eq, not_false_eq_true, if_true]
            rw [h1]; simp [call]
          · simpa [tester_calls, updater_test_call] using h2
        | some rate =>
          obtain ⟨evs, h1, h2⟩ := ih ps (j + 1) (l + 1) (c.gen_random_offset m.draws :: st)
            (call K (updater_test_call c x p j l id)
              (call K (forward_dropout_call c b x p l rate (c.gen_random_offset m.draws))
                { m with draws := m.draws + 1 }))
          refine ⟨forward_dropout_call c b x p l rate (c.gen_random_offset m.draws) ::
            updater_test_call c x p j l id :: evs, ?_, ?_⟩
          · simp only [hj, ne_eq, not_false_eq_true, if_true]
            rw [h1]; simp [call]
          · simpa [tester_calls, updater_test_call, forward_dropout_call] using h2

theorem backward_updater_no_tester {ω : Type} (K : Kernels ω) (u : network_updater_plain)
    (c : Call) (b : Buffers) (id : Nat) :
    ∀ (xs : List layer_updater_plain) (ps : List (Buf × updater_additional_buffer_set))
      (k oe rid : Nat) (st : List Nat) (m : Machine ω) (r : List Nat × Machine ω),
      backward_updater K u c b id xs ps k oe rid st m = some r →
      ∃ evs, r.2.trace = m.trace ++ evs ∧ tester_calls evs = [] := by
  intro xs
  induction xs with
  | nil =>
    intro ps k oe rid st m r h
    simp only [backward_updater, Option.some.injEq] at h
    subst h
    exact ⟨[], by simp, rfl⟩
  | cons x xs ih =>
    intro ps k oe rid st m r h
    cases ps with
    | nil =>
      simp only [backward_updater, Option.some.injEq] at h
      subst h
      exact ⟨[], by simp, rfl⟩
    | cons p ps =>
      cases hx : xs.isEmpty with
      | true =>
        simp only [backward_updater, hx, Bool.not_true, Bool.false_eq_true, if_false] at h
        obtain ⟨evs, h1, h2⟩ := ih ps _ _ _ _ _ r h
        refine ⟨update_weights_call c x p (reverse_positions u c k) oe true id :: evs, ?_, ?_⟩
        · rw [h1]; simp [call]
        · simpa [tester_calls, update_weights_call] using h2
      | false =>
        cases hr : find_rate c.layer_to_dropout_rate_map rid with
        | none =>
          simp only [backward_updater, hx, Bool.not_false, if_true, hr] at h
          obtain ⟨evs, h1, h2⟩ := ih ps _ _ _ _ _ r h
          refine ⟨backprop_call c x p (reverse_positions u c k) oe ::
            update_weights_call c x p (reverse_positions u c k) oe false id :: evs, ?_, ?_⟩
          · rw [h1]; simp [call]
          · simpa [tester_calls, update_weights_call, backprop_call] using h2
        | some rate =>
          cases st with
          | nil => simp [backward_updater, hx, hr] at h
          | cons offset rest =>
            simp only [backward_updater, hx, Bool.not_false, if_true, hr] at h
            obtain ⟨evs, h1, h2⟩ := ih ps _ _ _ _ _ r h
            refine ⟨backprop_call c x p (reverse_positions u c k) oe ::
              backward_dropout_call c b x p (reverse_positions u c k) rid rate offset ::
              update_weights_call c x p (reverse_positions u c k) oe false id :: evs, ?_, ?_⟩
            · rw [h1]; simp [call]
            · simpa [tester_calls, update_weights_call, backprop_call,
                backward_dropout_call] using h2

theorem process_entry_no_tester {ω : Type} (K : Kernels ω) (u : network_updater_plain)
    (c : Call) (b : Buffers) (first id : Nat) (s t : State ω)
    (h : process_entry K u c b first id s = some t) :
    ∃ evs, t.machine.trace = s.machine.trace ++ evs ∧ tester_calls evs = [] := by
  simp only [process_entry, process_entry_stack, Option.map_eq_some'] at h
  obtain ⟨r, hr, rfl⟩ := h
  split at hr
  · simp at hr
  · rename_i r2 hb
    simp only [Option.some.injEq] at hr
    subst hr
    obtain ⟨evsB, b1, b2⟩ := backward_updater_no_tester K u c b id _ _ _ _ _ _ _ _ hb
    obtain ⟨evsF, f1, f2⟩ := forward_updater_no_tester K c b id u.updater_list b.updater_pack 0
      u.testing_layer_count [] s.machine
    refine ⟨evsF ++ evsB, ?_, by simp [tester_calls_append, f2, b2]⟩
    simp only []
    rw [b1]
    simp only [forward_and_error]
    rw [set_initial_error_machine_trace]
    simp only []
    rw [f1, List.append_assoc]

theorem process_entries_no_tester {ω : Type} (K : Kernels ω) (u : network_updater_plain)
    (c : Call) (b : Buffers) (first : Nat) :
    ∀ (n id : Nat) (s t : State ω),
      process_entries K u c b first n id s = some t →
      ∃ evs, t.machine.trace = s.machine.trace ++ evs ∧ tester_calls evs = [] := by
  intro n
  induction n with
  | zero =>
    intro id s t h
    simp only [process_entries, Option.some.injEq] at h
    subst h
    exact ⟨[], by simp, rfl⟩
  | succ n ih =>
    intro id s t h
    simp only [process_entries] at h
    split at h
    · simp at h
    · rename_i s1 h1
      obtain ⟨e1, a1, a2⟩ := process_entry_no_tester K u c b first id s s1 h1
      obtain ⟨e2, b1, b2⟩ := ih (id + 1) s1 t h
      exact ⟨e1 ++ e2, by rw [b1, a1, List.append_assoc], by simp [tester_calls_append, a2, b2]⟩

/-- In every processed macro-batch each unit of `tester_list` is called
exactly once, in order, with the number of loaded entries; the per-entry
loop calls none of them. -/
theorem process_batch_runs_each_tester_once {ω : Type} (K : Kernels ω)
    (u : network_updater_plain) (c : Call) (first n : Nat) (flag : Bool) (s : State ω)
    (r : Bool × State ω)
    (h : process_batch K u c (allocate_buffers K u c) first n flag s = some r) :
    ∃ evs, r.2.machine.trace = s.machine.trace ++ evs ∧
      tester_calls evs = u.tester_list.map (fun t => (t, n)) := by
  simp only [process_batch] at h
  split at h
  · simp at h
  · rename_i s4 h4
    obtain ⟨e2, b1, b2⟩ := process_entries_no_tester K u c _ first n 0 _ s4 h4
    obtain ⟨e1, a1, a2⟩ := run_testers_calls K n u.tester_list
      (allocate_buffers K u c).testing_pack 0
      { s.machine with mem := convert_input u c n s.input_buf s.machine.mem }
      (by simp [allocate_buffers, build_testing_pack_length])
    have htrace : s4.machine.trace = s.machine.trace ++ (e1 ++ e2) := by
      rw [b1]
      simp only []
      rw [a1, List.append_assoc]
    have hflush := (flush_statistics_frame c s4).1
    refine ⟨e1 ++ e2, ?_, by simp [tester_calls_append, a2, b2]⟩
    split at h
    · simp only [Option.some.injEq] at h
      subst h
      simp only []
      rw [hflush, htrace]
    · simp only [Option.some.injEq] at h
      subst h
      simp only []
      rw [hflush, htrace]

/-! ## The macro-batch capacity -/

/-- Every macro-batch logged by the main loop holds at least one entry and
at most `max_entry_count`. -/
theorem update_loop_batch_bounds {ω : Type} (K : Kernels ω) (u : network_updater_plain)
    (c : Call) :
    ∀ (fuel : Nat) (s : State ω),
      (∀ n, n ∈ s.batch_log → 1 ≤ n ∧ n ≤ max_entry_count c) →
      ∀ t, (update_loop K u c (allocate_buffers K u c) fuel s).last_state = some t →
        ∀ n, n ∈ t.batch_log → 1 ≤ n ∧ n ≤ max_entry_count c := by
  intro fuel
  induction fuel with
  | zero =>
    intro s hs t ht
    simp only [update_loop, Outcome.last_state, Option.some.injEq] at ht
    subst ht
    exact hs
  | succ fuel ih =>
    intro s hs t ht
    obtain ⟨k, hk, hsome, hnone⟩ := exists_load_count c s.reads (max_entry_count c)
    obtain ⟨w, m1, _, m3, _⟩ := macro_batch_spec K u c s k hk hsome hnone
    have hw : ∀ n, n ∈ w.batch_log → 1 ≤ n ∧ n ≤ max_entry_count c := by
      intro n hn
      rw [m3, List.mem_append] at hn
      rcases hn with hn | hn
      · exact hs n hn
      · by_cases hk0 : k = 0
        · simp [hk0] at hn
        · simp only [hk0, if_false, List.mem_singleton] at hn
          subst hn
          exact ⟨by omega, hk⟩
    cases hflag : (if k = 0 then false else if u.profile_mode = true then false
        else decide (k = max_entry_count c)) with
    | false =>
      rw [hflag] at m1
      simp only [update_loop, m1, Outcome.last_state, Option.some.injEq] at ht
      subst ht
      exact hw
    | true =>
      rw [hflag] at m1
      simp only [update_loop, m1] at ht
      exact ih w hw t ht

theorem actual_update_batch_bounds {ω : Type} (K : Kernels ω) (u : network_updater_plain)
    (c : Call) (fuel : Nat) (mem : Memory ω) (ecu : Nat) (t : State ω)
    (ht : (actual_update K u c fuel mem ecu).last_state = some t) :
    ∀ n, n ∈ t.batch_log → 1 ≤ n ∧ n ≤ max_entry_count c := by
  cases hd : dropout_check u.testing_layer_count c.layer_to_dropout_rate_map with
  | some k =>
    simp only [actual_update, hd, Outcome.last_state, Option.some.injEq] at ht
    subst ht
    intro n hn
    simp [State.initial] at hn
  | none =>
    by_cases hz : c.updater_entry_count = 0
    · simp only [actual_update, hd, hz, if_true, Outcome.last_state, Option.some.injEq] at ht
      subst ht
      intro n hn
      simp [State.initial] at hn
    · rcases actual_update_loop_or_undefined K u c mem ecu hd hz with hu | hl
      · rw [hu fuel] at ht
        simp [Outcome.last_state] at ht
      · rw [hl fuel] at ht
        exact update_loop_batch_bounds K u c fuel _
          (by intro n hn; simp [State.at_loop_entry, State.initial] at hn) t ht

/-- C11 fails as stated: a reader that announces no entry makes the
capacity 0 although the planner answers 2. -/
theorem c11_capacity_zero_for_empty_reader :
    1 ≤ (sample_call 0 1 1 2 []).planner_max_entry_count ∧
    (sample_call 0 1 1 2 []).reader_entry_count = 0 ∧
    max_entry_count (sample_call 0 1 1 2 []) = 0 := by
  decide

/-- C11 as amended: `max_entry_count` never exceeds the planner's answer,
the reader's entry count or the hard cap of 1024; it is at least 1 as soon
as the planner's answer and the reader's entry count are; and every
macro-batch the main loop processes, up to any point of any run, holds at
least one entry and at most `max_entry_count` entries. -/
theorem c11_capacity_bounds {ω : Type} (K : Kernels ω) (u : network_updater_plain)
    (c : Call) (fuel : Nat) (mem : Memory ω) (ecu : Nat) :
    max_entry_count c ≤ c.planner_max_entry_count ∧
    max_entry_count c ≤ c.reader_entry_count ∧
    max_entry_count c ≤ max_entry_count_in_single_batch ∧
    max_entry_count_in_single_batch = 1024 ∧
    (1 ≤ c.planner_max_entry_count → 1 ≤ c.reader_entry_count → 1 ≤ max_entry_count c) ∧
    ∀ t, (actual_update K u c fuel mem ecu).last_state = some t →
      ∀ n, n ∈ t.batch_log → 1 ≤ n ∧ n ≤ max_entry_count c := by
  refine ⟨?_, ?_, ?_, rfl, ?_, actual_update_batch_bounds K u c fuel mem ecu⟩
  · simp only [max_entry_count]; omega
  · simp only [max_entry_count]; omega
  · simp only [max_entry_count]; omega
  · intro h1 h2
    simp only [max_entry_count, max_entry_count_in_single_batch]
    omega

/-! ## The target buffer -/

/-- When an entry has at most as many target values as input bytes, every
target slice lies inside `actual_output_buf`. -/
theorem target_slices_fit_of_le (c : Call) (h : c.output_neuron_count ≤ c.input_neuron_count)
    (e : Nat) (he : e < max_entry_count c) :
    c.output_neuron_count * (e + 1) ≤ actual_output_buf_size c := by
  have h1 : c.output_neuron_count * (e + 1) ≤ c.input_neuron_count * (e + 1) :=
    Nat.mul_le_mul_right _ h
  have h2 : c.input_neuron_count * (e + 1) ≤ c.input_neuron_count * max_entry_count c :=
    Nat.mul_le_mul_left _ he
  simp only [actual_output_buf_size]
  rw [Nat.mul_comm (max_entry_count c)]
  exact Nat.le_trans h1 h2

/-- C20, at the failing input: with one input neuron, two output neurons and
capacity two, `actual_output_buf` is allocated with two elements, while the
load loop stores the targets of the second entry at positions 2 and 3. -/
theorem c20_target_slice_past_the_end :
    max_entry_count wide_target_call = 2 ∧
    actual_output_buf_size wide_target_call = 2 ∧
    wide_target_call.output_neuron_count * 1 = 2 ∧
    wide_target_call.output_neuron_count * (1 + 1) = 4 ∧
    (load_entries wide_target_call 2 0 (State.initial zero_memory 0)).2.1 = 2 ∧
    (State.initial zero_memory 0).actual_output_buf 3 = 0 ∧
    (load_entries wide_target_call 2 0 (State.initial zero_memory 0)).2.2.actual_output_buf 3
      = 2 := by
  refine ⟨by decide, by decide, by decide, by decide, by decide, rfl, ?_⟩
  simp [load_entries, wide_target_call, sample_call, constant_reader, State.initial,
    write_slice]

/-! ## The error seeded into the backward pass -/

/-- After the error loop has passed element `j`, `initial_error_buf[j]`
holds target minus prediction, the prediction being the one in place before
the loop started (also when the output buffer and `initial_error_buf` are
one and the same vector). -/
theorem initial_error_fold_seed {ω : Type} (c : Call) (b : Buffers) (id : Nat) (s : State ω)
    (n : Nat) :
    ∀ j, j < n →
      ((List.range n).foldl (initial_error_step c b id) s).machine.mem.floats
          initial_error_buf j =
        s.actual_output_buf (c.output_neuron_count * id + j % c.output_neuron_count) -
          s.machine.mem.floats b.output_buffer j := by
  induction n with
  | zero => intro j hj; exact absurd hj (Nat.not_lt_zero _)
  | succ n ih =>
    intro j hj
    obtain ⟨_, h2, h3⟩ := initial_error_fold c b id s n
    rw [List.range_succ, List.foldl_append]
    simp only [List.foldl_cons, List.foldl_nil, initial_error_step, set_float, write_at,
      if_true]
    by_cases hjn : j = n
    · subst hjn
      simp only [if_true, h3, h2 _ _ (Nat.le_refl _)]
    · simp only [hjn, if_false]
      exact ih j (by omega)

theorem mod_eq_sub_div_mul (i k : Nat) : i % k = i - i / k * k := by
  have := Nat.div_add_mod i k
  rw [Nat.mul_comm] at this
  omega

/-- C16: in every iteration of the per-entry loop, when the backward pass
starts, `initial_error_buf[r * output_neuron_count + o]` holds the target
`o` of the processed slot minus element `r * output_neuron_count + o` of the
output buffer as the forward pass left it, for every replica `r` and output
neuron `o` (the same target for every replica); when the slot holds entry
`first_read + input_entry_id` of the stream this target is the entry's
target `o`. The neuron index `i % output_neuron_count` of the error loop is
the index `i - (i / output_neuron_count) * output_neuron_count` of the flush
loop, for every `i`. -/
theorem c16_initial_error_is_target_minus_predicted {ω : Type} (K : Kernels ω)
    (u : network_updater_plain) (c : Call) (b : Buffers) (first_read input_entry_id : Nat)
    (s : State ω) :
    (∀ r o, r < c.updater_entry_count → o < c.output_neuron_count →
      (forward_and_error K u c b first_read input_entry_id s).2.machine.mem.floats
          initial_error_buf (r * c.output_neuron_count + o) =
        s.actual_output_buf (c.output_neuron_count * input_entry_id + o) -
          (forward_updater K c b input_entry_id u.updater_list b.updater_pack 0
            u.testing_layer_count [] s.machine).2.mem.floats b.output_buffer
            (r * c.output_neuron_count + o)) ∧
    (Loaded c first_read (input_entry_id + 1) s →
      ∀ r o, r < c.updater_entry_count → o < c.output_neuron_count →
        (forward_and_error K u c b first_read input_entry_id s).2.machine.mem.floats
            initial_error_buf (r * c.output_neuron_count + o) =
          target_of c (first_read + input_entry_id) o -
            (forward_updater K c b input_entry_id u.updater_list b.updater_pack 0
              u.testing_layer_count [] s.machine).2.mem.floats b.output_buffer
              (r * c.output_neuron_count + o)) ∧
    (∀ i, i % c.output_neuron_count =
      i - (i / c.output_neuron_count) * c.output_neuron_count) ∧
    (∀ (t : State ω) (i : Nat),
      (initial_error_step c b input_entry_id t i).machine.mem.floats initial_error_buf i =
        t.actual_output_buf
            (c.output_neuron_count * input_entry_id + i % c.output_neuron_count) -
          t.machine.mem.floats b.output_buffer i) := by
  have key : ∀ r o, r < c.updater_entry_count → o < c.output_neuron_count →
      (forward_and_error K u c b first_read input_entry_id s).2.machine.mem.floats
          initial_error_buf (r * c.output_neuron_count + o) =
        s.actual_output_buf (c.output_neuron_count * input_entry_id + o) -
          (forward_updater K c b input_entry_id u.updater_list b.updater_pack 0
            u.testing_layer_count [] s.machine).2.mem.floats b.output_buffer
            (r * c.output_neuron_count + o) := by
    intro r o hr ho
    obtain ⟨h1, _, h3⟩ := flat_index c.output_neuron_count r o c.updater_entry_count hr ho
    simp only [forward_and_error, set_initial_error]
    rw [initial_error_fold_seed c b input_entry_id _ _ _ h1, h3]
  refine ⟨key, ?_, fun i => mod_eq_sub_div_mul i _, ?_⟩
  · intro hl r o hr ho
    rw [key r o hr ho, hl input_entry_id (Nat.lt_succ_self _) o ho]
  · intro t i
    simp [initial_error_step, set_float, write_at]

/-! ## Input normalisation -/

theorem convert_neurons_spec (a μ : ℚ) (ib : Nat → Nat) :
    ∀ (n out_it in_it : Nat),
      (convert_neurons a μ ib n out_it in_it).2 = (out_it + n, in_it + n) ∧
      ((convert_neurons a μ ib n out_it in_it).1.map Prod.fst = List.range' out_it n) ∧
      ∀ w, w ∈ (convert_neurons a μ ib n out_it in_it).1 ↔
        ∃ j, j < n ∧ w = (out_it + j, (((ib (in_it + j) : ℕ) : ℚ) * (1 / 255) + a) * μ) := by
  intro n
  induction n with
  | zero =>
    intro o i
    refine ⟨rfl, rfl, ?_⟩
    intro w
    simp [convert_neurons]
  | succ n ih =>
    intro o i
    obtain ⟨h1, h2, h3⟩ := ih (o + 1) (i + 1)
    refine ⟨?_, ?_, ?_⟩
    · simp only [convert_neurons, h1, Prod.mk.injEq]
      constructor <;> omega
    · simp only [convert_neurons, List.map_cons, h2, List.range'_succ]
    · intro w
      simp only [convert_neurons, List.mem_cons, h3]
      constructor
      · rintro (rfl | ⟨j, hj, rfl⟩)
        · exact ⟨0, by omega, by simp⟩
        · exact ⟨j + 1, by omega, by
            have e1 : o + 1 + j = o + (j + 1) := by omega
            have e2 : i + 1 + j = i + (j + 1) := by omega
            rw [e1, e2]⟩
      · rintro ⟨j, hj, rfl⟩
        cases j with
        | zero => left; simp
        | succ j =>
          right
          exact ⟨j, by omega, by
            have e1 : o + 1 + j = o + (j + 1) := by omega
            have e2 : i + 1 + j = i + (j + 1) := by omega
            rw [e1, e2]⟩

theorem convert_feature_maps_spec (u : network_updater_plain) (c : Call) (ib : Nat → Nat) :
    ∀ (n f out_it in_it : Nat),
      (convert_feature_maps u c ib n f out_it in_it).2 =
        (out_it + n * c.neuron_count_per_input_feature_map,
          in_it + n * c.neuron_count_per_input_feature_map) ∧
      ((convert_feature_maps u c ib n f out_it in_it).1.map Prod.fst =
        List.range' out_it (n * c.neuron_count_per_input_feature_map)) ∧
      ∀ w, w ∈ (convert_feature_maps u c ib n f out_it in_it).1 ↔
        ∃ g j, g < n ∧ j < c.neuron_count_per_input_feature_map ∧
          w = (out_it + (g * c.neuron_count_per_input_feature_map + j),
            (((ib (in_it + (g * c.neuron_count_per_input_feature_map + j)) : ℕ) : ℚ) *
              (1 / 255) + u.addition_list (f + g)) * u.multiplication_list (f + g)) := by
  intro n
  induction n with
  | zero =>
    intro f o i
    refine ⟨by simp [convert_feature_maps], by simp [convert_feature_maps], ?_⟩
    intro w
    simp [convert_feature_maps]
  | succ n ih =>
    intro f o i
    obtain ⟨n1, n2, n3⟩ := convert_neurons_spec (u.addition_list f) (u.multiplication_list f) ib
      c.neuron_count_per_input_feature_map o i
    obtain ⟨h1, h2, h3⟩ := ih (f + 1) (o + c.neuron_count_per_input_feature_map)
      (i + c.neuron_count_per_input_feature_map)
    have hmul : (n + 1) * c.neuron_count_per_input_feature_map =
        n * c.neuron_count_per_input_feature_map + c.neuron_count_per_input_feature_map :=
      Nat.succ_mul _ _
    refine ⟨?_, ?_, ?_⟩
    · simp only [convert_feature_maps, n1, h1, Prod.mk.injEq, hmul]
      constructor <;> omega
    · simp only [convert_feature_maps, n1, List.map_append, n2, h2, hmul]
      rw [List.range'_append_1]
    · intro w
      simp only [convert_feature_maps, n1, List.mem_append, n3, h3]
      constructor
      · rintro (⟨j, hj, rfl⟩ | ⟨g, j, hg, hj, rfl⟩)
        · exact ⟨0, j, by omega, hj, by simp⟩
        · refine ⟨g + 1, j, by omega, hj, ?_⟩
          have e1 : o + c.neuron_count_per_input_feature_map +
              (g * c.neuron_count_per_input_feature_map + j) =
              o + ((g + 1) * c.neuron_count_per_input_feature_map + j) := by
            rw [Nat.succ_mul]; omega
          have e2 : i + c.neuron_count_per_input_feature_map +
              (g * c.neuron_count_per_input_feature_map + j) =
              i + ((g + 1) * c.neuron_count_per_input_feature_map + j) := by
            rw [Nat.succ_mul]; omega
          have e3 : f + 1 + g = f + (g + 1) := by omega
          rw [e1, e2, e3]
      · rintro ⟨g, j, hg, hj, rfl⟩
        cases g with
        | zero => left; exact ⟨j, hj, by simp⟩
        | succ g =>
          right
          refine ⟨g, j, by omega, hj, ?_⟩
          have e1 : o + c.neuron_count_per_input_feature_map +
              (g * c.neuron_count_per_input_feature_map + j) =
              o + ((g + 1) * c.neuron_count_per_input_feature_map + j) := by
            rw [Nat.succ_mul]; omega
          have e2 : i + c.neuron_count_per_input_feature_map +
              (g * c.neuron_count_per_input_feature_map + j) =
              i + ((g + 1) * c.neuron_count_per_input_feature_map + j) := by
            rw [Nat.succ_mul]; omega
          have e3 : f + 1 + g = f + (g + 1) := by omega
          rw [e1, e2, e3]

/-- The writes of the conversion of the entries `i, ..., i + n - 1`. -/
theorem convert_entries_mem (u : network_updater_plain) (c : Call) (ib : Nat → Nat) :
    ∀ (n i : Nat) (w : Nat × ℚ),
      w ∈ convert_entries u c ib n i ↔
        ∃ e f j, i ≤ e ∧ e < i + n ∧ f < c.input_feature_map_count ∧
          j < c.neuron_count_per_input_feature_map ∧
          w = (e * c.input_neuron_count + (f * c.neuron_count_per_input_feature_map + j),
            (((ib (e * c.input_neuron_count +
                (f * c.neuron_count_per_input_feature_map + j)) : ℕ) : ℚ) * (1 / 255) +
              u.addition_list f) * u.multiplication_list f) := by
  intro n
  induction n with
  | zero =>
    intro i w
    simp only [convert_entries, List.not_mem_nil, false_iff]
    rintro ⟨e, f, j, h1, h2, _⟩
    omega
  | succ n ih =>
    intro i w
    simp only [convert_entries, List.mem_append, ih,
      (convert_feature_maps_spec u c ib c.input_feature_map_count 0 _ _).2.2, Nat.zero_add]
    constructor
    · rintro (⟨g, j, hg, hj, rfl⟩ | ⟨e, f, j, h1, h2, hf, hj, rfl⟩)
      · exact ⟨i, g, j, Nat.le_refl _, by omega, hg, hj, rfl⟩
      · exact ⟨e, f, j, by omega, by omega, hf, hj, rfl⟩
    · rintro ⟨e, f, j, h1, h2, hf, hj, rfl⟩
      by_cases he : e = i
      · subst he
        left
        exact ⟨f, j, hf, hj, rfl⟩
      · right
        exact ⟨e, f, j, by omega, by omega, hf, hj, rfl⟩

/-- When an entry has as many neurons as its feature maps hold together, the
conversion writes the positions of the loaded entries one after the other. -/
theorem convert_entries_positions (u : network_updater_plain) (c : Call) (ib : Nat → Nat)
    (h : c.input_neuron_count =
      c.input_feature_map_count * c.neuron_count_per_input_feature_map) :
    ∀ (n i : Nat),
      (convert_entries u c ib n i).map Prod.fst =
        List.range' (i * c.input_neuron_count) (n * c.input_neuron_count) := by
  intro n
  induction n with
  | zero => intro i; simp [convert_entries]
  | succ n ih =>
    intro i
    simp only [convert_entries, List.map_append, ih,
      (convert_feature_maps_spec u c ib c.input_feature_map_count 0 _ _).2.1, ← h]
    have e1 : (i + 1) * c.input_neuron_count = i * c.input_neuron_count + c.input_neuron_count :=
      Nat.succ_mul _ _
    have e2 : (n + 1) * c.input_neuron_count = n * c.input_neuron_count + c.input_neuron_count :=
      Nat.succ_mul _ _
    rw [e1, e2, List.range'_append_1]

theorem foldl_set_float_other {ω : Type} (b : Buf) (p : Nat) :
    ∀ (l : List (Nat × ℚ)) (m : Memory ω), p ∉ l.map Prod.fst →
      (l.foldl (fun m w => set_float m b w.1 w.2) m).floats b p = m.floats b p := by
  intro l
  induction l with
  | nil => intro m _; rfl
  | cons x xs ih =>
    intro m hp
    simp only [List.map_cons, List.mem_cons, not_or] at hp
    simp only [List.foldl_cons]
    rw [ih _ hp.2]
    simp [set_float, write_at, hp.1]

theorem foldl_set_float_written {ω : Type} (b : Buf) :
    ∀ (l : List (Nat × ℚ)) (m : Memory ω), (l.map Prod.fst).Nodup →
      ∀ w, w ∈ l → (l.foldl (fun m w => set_float m b w.1 w.2) m).floats b w.1 = w.2 := by
  intro l
  induction l with
  | nil => intro m _ w hw; simp at hw
  | cons x xs ih =>
    intro m hnd w hw
    simp only [List.map_cons, List.nodup_cons] at hnd
    simp only [List.foldl_cons]
    rcases List.mem_cons.1 hw with rfl | hw'
    · rw [foldl_set_float_other b _ xs _ hnd.1]
      simp [set_float, write_at]
    · exact ih _ hnd.2 w hw'

/-- C14: in exact arithmetic, the writes of the normalisation step are
exactly the writes of `(byte / 255 + addition_list[f]) * multiplication_list[f]`
to position `i * input_neuron_count + f * neuron_count_per_input_feature_map + j`,
one for every loaded entry `i`, feature map `f` and neuron `j`, `byte` being
the raw input at the same position. When `input_neuron_count` is
`input_feature_map_count * neuron_count_per_input_feature_map`, the positions
written are `0, 1, ..., elem_count * input_neuron_count - 1`, each exactly
once, and the converted buffer ends up holding those values. -/
theorem c14_normalisation_writes {ω : Type} (u : network_updater_plain) (c : Call)
    (elem_count : Nat) (input_buf : Nat → Nat) (m : Memory ω) :
    (∀ w, w ∈ convert_entries u c input_buf elem_count 0 ↔
      ∃ i f j, i < elem_count ∧ f < c.input_feature_map_count ∧
        j < c.neuron_count_per_input_feature_map ∧
        w = (i * c.input_neuron_count + f * c.neuron_count_per_input_feature_map + j,
          (((input_buf (i * c.input_neuron_count +
              f * c.neuron_count_per_input_feature_map + j) : ℕ) : ℚ) / 255 +
            u.addition_list f) * u.multiplication_list f)) ∧
    (c.input_neuron_count = c.input_feature_map_count * c.neuron_count_per_input_feature_map →
      (convert_entries u c input_buf elem_count 0).map Prod.fst =
        List.range (elem_count * c.input_neuron_count)) ∧
    (c.input_neuron_count = c.input_feature_map_count * c.neuron_count_per_input_feature_map →
      ∀ i f j, i < elem_count → f < c.input_feature_map_count →
        j < c.neuron_count_per_input_feature_map →
        (convert_input u c elem_count input_buf m).floats input_converted_buf
            (i * c.input_neuron_count + f * c.neuron_count_per_input_feature_map + j) =
          (((input_buf (i * c.input_neuron_count +
              f * c.neuron_count_per_input_feature_map + j) : ℕ) : ℚ) / 255 +
            u.addition_list f) * u.multiplication_list f) := by
  have hmem : ∀ w, w ∈ convert_entries u c input_buf elem_count 0 ↔
      ∃ i f j, i < elem_count ∧ f < c.input_feature_map_count ∧
        j < c.neuron_count_per_input_feature_map ∧
        w = (i * c.input_neuron_count + f * c.neuron_count_per_input_feature_map + j,
          (((input_buf (i * c.input_neuron_count +
              f * c.neuron_count_per_input_feature_map + j) : ℕ) : ℚ) / 255 +
            u.addition_list f) * u.multiplication_list f) := by
    intro w
    rw [convert_entries_mem]
    constructor
    · rintro ⟨e, f, j, _, h2, hf, hj, rfl⟩
      exact ⟨e, f, j, by omega, hf, hj, by simp only [Nat.add_assoc, mul_one_div]⟩
    · rintro ⟨e, f, j, h2, hf, hj, rfl⟩
      exact ⟨e, f, j, Nat.zero_le _, by omega, hf, hj, by
        simp only [Nat.add_assoc, mul_one_div]⟩
  have hpos : c.input_neuron_count =
      c.input_feature_map_count * c.neuron_count_per_input_feature_map →
      (convert_entries u c input_buf elem_count 0).map Prod.fst =
        List.range (elem_count * c.input_neuron_count) := by
    intro h
    rw [convert_entries_positions u c input_buf h, List.range_eq_range', Nat.zero_mul]
  refine ⟨hmem, hpos, ?_⟩
  intro h i f j hi hf hj
  have hnd : ((convert_entries u c input_buf elem_count 0).map Prod.fst).Nodup := by
    rw [hpos h]
    exact List.nodup_range _
  have hw := (hmem _).2 ⟨i, f, j, hi, hf, hj, rfl⟩
  exact foldl_set_float_written input_converted_buf _ m hnd _ hw

/-! ## `recalculate_mse` -/

theorem accumulate_entry_spec :
    ∀ (mse a p : List ℚ), mse.length ≤ a.length → mse.length ≤ p.length →
      ∃ r, accumulate_entry mse a p = some r ∧ r.length = mse.length ∧
        ∀ o, o < mse.length →
          r.getD o 0 = mse.getD o 0 + 1 / 2 * (a.getD o 0 - p.getD o 0) ^ 2 := by
  intro mse
  induction mse with
  | nil => intro a p _ _; exact ⟨[], by simp [accumulate_entry], rfl, fun o ho => by simp at ho⟩
  | cons m ms ih =>
    intro a p ha hp
    cases a with
    | nil => simp at ha
    | cons x xs =>
      cases p with
      | nil => simp at hp
      | cons y ys =>
        obtain ⟨r, h1, h2, h3⟩ := ih xs ys (by simpa using ha) (by simpa using hp)
        refine ⟨(m + (x - y) * (x - y) * (1 / 2)) :: r, by simp [accumulate_entry, h1],
          by simp [h2], ?_⟩
        intro o ho
        cases o with
        | zero => simp only [List.getD_cons_zero]; ring
        | succ o =>
          simp only [List.getD_cons_succ]
          exact h3 o (by simpa using ho)

theorem accumulate_entries_spec (k : Nat) :
    ∀ (actual predicted : List (List ℚ)) (mse : List ℚ),
      mse.length = k → actual.length = predicted.length →
      (∀ a, a ∈ actual → a.length = k) → (∀ p, p ∈ predicted → p.length = k) →
      ∃ r, accumulate_entries mse actual predicted = some r ∧ r.length = k ∧
        ∀ o, o < k →
          r.getD o 0 = mse.getD o 0 +
            ((actual.zip predicted).map
              (fun e => 1 / 2 * (e.1.getD o 0 - e.2.getD o 0) ^ 2)).sum := by
  intro actual
  induction actual with
  | nil =>
    intro predicted mse hm _ _ _
    exact ⟨mse, by simp [accumulate_entries], hm, fun o _ => by simp⟩
  | cons a as ih =>
    intro predicted mse hm hlen ha hp
    cases predicted with
    | nil => simp at hlen
    | cons p ps =>
      have hal := ha a (List.mem_cons_self _ _)
      have hpl := hp p (List.mem_cons_self _ _)
      obtain ⟨r1, e1, e2, e3⟩ := accumulate_entry_spec mse a p (by omega) (by omega)
      obtain ⟨r, h1, h2, h3⟩ := ih ps r1 (by omega) (by simpa using hlen)
        (fun x hx => ha x (List.mem_cons_of_mem _ hx))
        (fun x hx => hp x (List.mem_cons_of_mem _ hx))
      refine ⟨r, by simp [accumulate_entries, e1, h1], h2, ?_⟩
      intro o ho
      rw [h3 o ho, e3 o (by omega)]
      simp only [List.zip_cons_cons, List.map_cons, List.sum_cons]
      ring

theorem sum_map_half_mul {α : Type} (l : List α) (f : α → ℚ) :
    (l.map (fun e => 1 / 2 * f e)).sum = 1 / 2 * (l.map f).sum := by
  induction l with
  | nil => simp
  | cons x xs ih => simp only [List.map_cons, List.sum_cons, ih]; ring

/-- C15: for value sets of `E >= 1` entries of `O` neurons each,
`recalculate_mse` completes and leaves a result with `entry_count = E` and
`O` slots, slot `o` holding the sum over the entries of
`0.5 * (actual[e][o] - predicted[e][o])^2`, which is half the sum of the
squared errors; and the one-argument constructor builds a predicted set of
`E` entries of `O` neurons. -/
theorem c15_recalculate_mse (actual predicted : output_neuron_value_set) (E O : Nat)
    (mse0 : Option testing_result) (hE : 1 ≤ E)
    (ha : actual.neuron_value_list.length = E)
    (hp : predicted.neuron_value_list.length = E)
    (hao : ∀ a, a ∈ actual.neuron_value_list → a.length = O)
    (hpo : ∀ p, p ∈ predicted.neuron_value_list → p.length = O) :
    (∃ t r,
      testing_complete_result_set.recalculate_mse
        { actual_output_neuron_value_set := actual
          predicted_output_neuron_value_set := predicted
          mse := mse0 } = some t ∧
      t.actual_output_neuron_value_set.neuron_value_list = actual.neuron_value_list ∧
      t.predicted_output_neuron_value_set.neuron_value_list = predicted.neuron_value_list ∧
      t.mse = some r ∧ r.entry_count = E ∧ r.cumulative_mse_list.length = O ∧
      ∀ o, o < O →
        r.cumulative_mse_list[o]? =
          some ((actual.neuron_value_list.zip predicted.neuron_value_list).map
            (fun e => 1 / 2 * (e.1.getD o 0 - e.2.getD o 0) ^ 2)).sum ∧
        ((actual.neuron_value_list.zip predicted.neuron_value_list).map
            (fun e => 1 / 2 * (e.1.getD o 0 - e.2.getD o 0) ^ 2)).sum =
          1 / 2 * ((actual.neuron_value_list.zip predicted.neuron_value_list).map
            (fun e => (e.1.getD o 0 - e.2.getD o 0) ^ 2)).sum) ∧
    ∃ t, testing_complete_result_set.new actual = some t ∧
      t.actual_output_neuron_value_set.neuron_value_list = actual.neuron_value_list ∧
      t.predicted_output_neuron_value_set.neuron_value_list.length = E ∧
      ∀ p, p ∈ t.predicted_output_neuron_value_set.neuron_value_list → p.length = O := by
  cases hl : actual.neuron_value_list with
  | nil => rw [hl] at ha; simp at ha; omega
  | cons first rest =>
    have hfirst : first.length = O := hao first (by rw [hl]; exact List.mem_cons_self _ _)
    constructor
    · obtain ⟨r, h1, h2, h3⟩ := accumulate_entries_spec O actual.neuron_value_list
        predicted.neuron_value_list (testing_result.new O).cumulative_mse_list
        (by simp [testing_result.new]) (by rw [ha, hp]) hao hpo
      refine ⟨{ actual_output_neuron_value_set := actual
                predicted_output_neuron_value_set := predicted
                mse := some { entry_count := actual.neuron_value_list.length
                              cumulative_mse_list := r } },
        { entry_count := actual.neuron_value_list.length, cumulative_mse_list := r },
        ?_, ?_, ?_, rfl, ha, h2, ?_⟩
      · simp only [testing_complete_result_set.recalculate_mse, hl, hfirst]
        rw [← hl, h1]
      · simp [hl]
      · rfl
      · intro o ho
        refine ⟨?_, sum_map_half_mul _ _⟩
        have hget : r[o]? = some (r.getD o 0) := by
          rw [List.getD_eq_getElem?_getD, List.getElem?_eq_getElem (by omega)]
          simp
        rw [← hl, hget, h3 o ho]
        simp [testing_result.new, List.getD_eq_getElem?_getD, List.getElem?_replicate, ho]
    · refine ⟨{ actual_output_neuron_value_set := actual
                predicted_output_neuron_value_set :=
                  output_neuron_value_set.new actual.neuron_value_list.length first.length
                mse := none }, by simp only [testing_complete_result_set.new, hl], by simp [hl], ?_, ?_⟩
      · simp [output_neuron_value_set.new, ha]
      · intro p hp'
        simp only [output_neuron_value_set.new, List.mem_replicate] at hp'
        rw [hp'.2]
        simp [hfirst]

/-- Witness for C15: two entries of two neurons. -/
theorem c15_recalculate_mse_witness :
    1 ≤ 2 ∧
    sample_actual_values.neuron_value_list.length = 2 ∧
    sample_predicted_values.neuron_value_list.length = 2 ∧
    (∀ a, a ∈ sample_actual_values.neuron_value_list → a.length = 2) ∧
    (∀ p, p ∈ sample_predicted_values.neuron_value_list → p.length = 2) ∧
    ((∃ t r,
      testing_complete_result_set.recalculate_mse
        { actual_output_neuron_value_set := sample_actual_values
          predicted_output_neuron_value_set := sample_predicted_values
          mse := none } = some t ∧
      t.actual_output_neuron_value_set.neuron_value_list =
        sample_actual_values.neuron_value_list ∧
      t.predicted_output_neuron_value_set.neuron_value_list =
        sample_predicted_values.neuron_value_list ∧
      t.mse = some r ∧ r.entry_count = 2 ∧ r.cumulative_mse_list.length = 2 ∧
      ∀ o, o < 2 →
        r.cumulative_mse_list[o]? =
          some ((sample_actual_values.neuron_value_list.zip
              sample_predicted_values.neuron_value_list).map
            (fun e => 1 / 2 * (e.1.getD o 0 - e.2.getD o 0) ^ 2)).sum ∧
        ((sample_actual_values.neuron_value_list.zip
              sample_predicted_values.neuron_value_list).map
            (fun e => 1 / 2 * (e.1.getD o 0 - e.2.getD o 0) ^ 2)).sum =
          1 / 2 * ((sample_actual_values.neuron_value_list.zip
              sample_predicted_values.neuron_value_list).map
            (fun e => (e.1.getD o 0 - e.2.getD o 0) ^ 2)).sum) ∧
    ∃ t, testing_complete_result_set.new sample_actual_values = some t ∧
      t.actual_output_neuron_value_set.neuron_value_list =
        sample_actual_values.neuron_value_list ∧
      t.predicted_output_neuron_value_set.neuron_value_list.length = 2 ∧
      ∀ p, p ∈ t.predicted_output_neuron_value_set.neuron_value_list → p.length = 2) :=
  ⟨by decide, rfl, rfl, by simp [sample_actual_values], by simp [sample_predicted_values],
    c15_recalculate_mse sample_actual_values sample_predicted_values 2 2 none (by decide) rfl rfl
      (by simp [sample_actual_values]) (by simp [sample_predicted_values])⟩

/-! ## The reorganisation is a transposition of the updater layers -/

theorem modify_at_append_cons {α : Type} (f : α → α) (a : α) (post : List α) :
    ∀ (pre : List α), modify_at f (pre ++ a :: post) pre.length = pre ++ f a :: post := by
  intro pre
  induction pre with
  | nil => rfl
  | cons x xs ih => simp [modify_at, ih]

theorem reorganize_push_some {δ : Type} (list : List (List δ)) (k l r : Nat)
    (rows : List (List δ)) (x : δ)
    (hx : (list[r]?).bind (fun replica => replica[l]?) = some x) (hl : l - k < rows.length) :
    reorganize_push list k l (some rows) r =
      some (modify_at (fun row => row ++ [x]) rows (l - k)) := by
  unfold reorganize_push
  cases h1 : list[r]? with
  | none => rw [h1] at hx; simp at hx
  | some replica =>
    rw [h1] at hx
    simp only [Option.some_bind] at hx
    simp [hx, hl]

theorem reorganize_inner {δ : Type} (list : List (List δ)) (k l R : Nat)
    (hread : ∀ r, r < R → ∃ x, (list[r]?).bind (fun replica => replica[l]?) = some x)
    (pre post : List (List δ)) (hpre : pre.length = l - k) :
    ∀ n, n ≤ R → ∀ row,
      (List.range n).foldl (reorganize_push list k l) (some (pre ++ row :: post)) =
        some (pre ++ (row ++ (List.range n).filterMap
          (fun r => (list[r]?).bind (fun replica => replica[l]?))) :: post) := by
  intro n
  induction n with
  | zero => intro _ row; simp
  | succ n ih =>
    intro hn row
    obtain ⟨x, hx⟩ := hread n (by omega)
    rw [List.range_succ, List.foldl_append, ih (by omega) row, List.filterMap_append]
    simp only [List.foldl_cons, List.foldl_nil, List.filterMap_cons, List.filterMap_nil, hx]
    rw [reorganize_push_some list k l n _ x hx (by simp; omega), ← hpre,
      modify_at_append_cons]
    simp

theorem filterMap_range_getElem? {α : Type} (f : Nat → Option α) :
    ∀ n, (∀ r, r < n → ∃ x, f r = some x) →
      ((List.range n).filterMap f).length = n ∧
        ∀ r, r < n → ((List.range n).filterMap f)[r]? = f r := by
  intro n
  induction n with
  | zero => intro _; exact ⟨rfl, fun r hr => by omega⟩
  | succ n ih =>
    intro h
    obtain ⟨h1, h2⟩ := ih (fun r hr => h r (by omega))
    obtain ⟨x, hx⟩ := h n (by omega)
    rw [List.range_succ, List.filterMap_append]
    simp only [List.filterMap_cons, List.filterMap_nil, hx]
    refine ⟨by simp [h1], ?_⟩
    intro r hr
    by_cases hrn : r < n
    · rw [List.getElem?_append_left (by omega)]
      exact h2 r hrn
    · have : r = n := by omega
      subst this
      rw [List.getElem?_append_right (by omega)]
      simp [h1, hx]

theorem reorganize_outer {δ : Type} (list : List (List δ)) (k L R : Nat)
    (hread : ∀ l r, k ≤ l → l < L → r < R →
      ∃ x, (list[r]?).bind (fun replica => replica[l]?) = some x) :
    ∀ n, n ≤ L - k →
      (List.range' k n).foldl
          (fun rows layer_id =>
            (List.range R).foldl (reorganize_push list k layer_id) rows)
          (some (List.replicate (L - k) [])) =
        some ((List.range n).map (fun j => (List.range R).filterMap
            (fun r => (list[r]?).bind (fun replica => replica[k + j]?))) ++
          List.replicate (L - k - n) []) := by
  intro n
  induction n with
  | zero => intro _; simp
  | succ n ih =>
    intro hn
    rw [List.range'_concat, List.foldl_append, ih (by omega)]
    simp only [List.foldl_cons, List.foldl_nil, Nat.one_mul]
    obtain ⟨m, hm⟩ : ∃ m, L - k - n = m + 1 := ⟨L - k - n - 1, by omega⟩
    have hm2 : L - k - (n + 1) = m := by omega
    rw [hm, hm2, List.replicate_succ,
      reorganize_inner list k (k + n) R (fun r hr => hread (k + n) r (by omega) (by omega) hr)
        _ _ (by simp) R (Nat.le_refl _) []]
    simp [List.range_succ]

theorem reorganize_spec {δ : Type} (list : List (List δ)) (k L R : Nat)
    (hR : 1 ≤ R) (hlen : R ≤ list.length) (hrows : ∀ row, row ∈ list → row.length = L)
    (hk : k ≤ L) :
    ∃ rows, reorganize list k R = some rows ∧ rows.length = L - k ∧
      (∀ row, row ∈ rows → row.length = R) ∧
      ∀ l r, k ≤ l → l < L → r < R →
        ∃ replica x row, list[r]? = some replica ∧ replica[l]? = some x ∧
          rows[l - k]? = some row ∧ row[r]? = some x := by
  have hread : ∀ l r, k ≤ l → l < L → r < R →
      ∃ x, (list[r]?).bind (fun replica => replica[l]?) = some x := by
    intro l r _ hl hr
    have hr2 : r < list.length := by omega
    have hrow := hrows list[r] (List.getElem_mem _)
    rw [List.getElem?_eq_getElem hr2]
    simp only [Option.some_bind]
    exact ⟨(list[r])[l], List.getElem?_eq_getElem (by omega)⟩
  cases hlist : list with
  | nil => rw [hlist] at hlen; simp at hlen; omega
  | cons first rest =>
    have hfirst : first.length = L := hrows first (by rw [hlist]; exact List.mem_cons_self _ _)
    refine ⟨(List.range (L - k)).map (fun j => (List.range R).filterMap
        (fun r => (list[r]?).bind (fun replica => replica[k + j]?))), ?_, by simp, ?_, ?_⟩
    · have h := reorganize_outer list k L R hread (L - k) (Nat.le_refl _)
      simp only [Nat.sub_self, List.replicate_zero, List.append_nil] at h
      simp only [reorganize, hfirst, if_neg (show ¬ L < k by omega)]
      rw [← hlist]
      exact h
    · intro row hrow
      simp only [List.mem_map, List.mem_range] at hrow
      obtain ⟨j, hj, rfl⟩ := hrow
      exact (filterMap_range_getElem? _ R
        (fun r hr => hread (k + j) r (by omega) (by omega) hr)).1
    · intro l r hkl hl hr
      obtain ⟨x, hx⟩ := hread l r hkl hl hr
      have hr2 : r < list.length := by omega
      have h1 : list[r]? = some list[r] := List.getElem?_eq_getElem hr2
      rw [h1] at hx
      simp only [Option.some_bind] at hx
      refine ⟨list[r], x, (List.range R).filterMap
          (fun r => (list[r]?).bind (fun replica => replica[k + (l - k)]?)),
        by rw [← hlist]; exact h1, hx, ?_, ?_⟩
      · rw [List.getElem?_map, List.getElem?_range (by omega)]
        rfl
      · have h2 := (filterMap_range_getElem?
          (fun r => (list[r]?).bind (fun replica => replica[k + (l - k)]?)) R
          (fun r hr => hread (k + (l - k)) r (by omega) (by omega) hr)).2 r hr
        rw [h2, h1]
        simp only [Option.some_bind]
        rw [show k + (l - k) = l by omega]
        exact hx

/-- C18: with `k = testing_layer_count <= L`, `R >= 1` replicas of weight data
and `R` training-speed vectors, each of `L` layers, both reorganisations
complete without reading outside a source list, and each result has `L - k`
rows of `R` elements with `reorganized[l - k][r] = list[r][l]` for every
`k <= l < L` and `r < R`. -/
theorem c18_reorganisation_is_restricted_transpose {δ σ : Type}
    (data_list : List (List δ)) (training_speed_vector_list : List (List σ)) (k L R : Nat)
    (hR : 1 ≤ R) (hk : k ≤ L)
    (hd : data_list.length = R) (hs : training_speed_vector_list.length = R)
    (hdl : ∀ row, row ∈ data_list → row.length = L)
    (hsl : ∀ row, row ∈ training_speed_vector_list → row.length = L) :
    (∃ rows, data_list_reorganized data_list k = some rows ∧ rows.length = L - k ∧
      (∀ row, row ∈ rows → row.length = R) ∧
      ∀ l r, k ≤ l → l < L → r < R →
        ∃ replica x row, data_list[r]? = some replica ∧ replica[l]? = some x ∧
          rows[l - k]? = some row ∧ row[r]? = some x) ∧
    ∃ rows, training_speed_vector_list_reorganized data_list training_speed_vector_list k =
        some rows ∧ rows.length = L - k ∧
      (∀ row, row ∈ rows → row.length = R) ∧
      ∀ l r, k ≤ l → l < L → r < R →
        ∃ replica x row, training_speed_vector_list[r]? = some replica ∧
          replica[l]? = some x ∧ rows[l - k]? = some row ∧ row[r]? = some x := by
  constructor
  · simp only [data_list_reorganized, hd]
    exact reorganize_spec data_list k L R hR (by omega) hdl hk
  · simp only [training_speed_vector_list_reorganized, hd]
    exact reorganize_spec training_speed_vector_list k L R hR (by omega) hsl hk

/-- Witness for C18: two replicas of three layers, the first layer a tester. -/
theorem c18_reorganisation_is_restricted_transpose_witness :
    1 ≤ 2 ∧ 1 ≤ 3 ∧ sample_data_list.length = 2 ∧ sample_speed_list.length = 2 ∧
    (∀ row, row ∈ sample_data_list → row.length = 3) ∧
    (∀ row, row ∈ sample_speed_list → row.length = 3) ∧
    data_list_reorganized sample_data_list 1 = some [[11, 21], [12, 22]] ∧
    training_speed_vector_list_reorganized sample_data_list sample_speed_list 1 =
      some [[111, 121], [112, 122]] ∧
    ((∃ rows, data_list_reorganized sample_data_list 1 = some rows ∧ rows.length = 3 - 1 ∧
      (∀ row, row ∈ rows → row.length = 2) ∧
      ∀ l r, 1 ≤ l → l < 3 → r < 2 →
        ∃ replica x row, sample_data_list[r]? = some replica ∧ replica[l]? = some x ∧
          rows[l - 1]? = some row ∧ row[r]? = some x) ∧
    ∃ rows, training_speed_vector_list_reorganized sample_data_list sample_speed_list 1 =
        some rows ∧ rows.length = 3 - 1 ∧
      (∀ row, row ∈ rows → row.length = 2) ∧
      ∀ l r, 1 ≤ l → l < 3 → r < 2 →
        ∃ replica x row, sample_speed_list[r]? = some replica ∧
          replica[l]? = some x ∧ rows[l - 1]? = some row ∧ row[r]? = some x) :=
  ⟨by decide, by decide, rfl, rfl, by decide, by decide, by decide, by decide,
    c18_reorganisation_is_restricted_transpose sample_data_list sample_speed_list 1 3 2
      (by decide) (by decide) rfl rfl (by decide) (by decide)⟩

/-! ## The accumulated errors are non-negative and only grow -/

theorem forall₂_self {α : Type} (R : α → α → Prop) (h : ∀ x, R x x) :
    ∀ l : List α, List.Forall₂ R l l := by
  intro l
  induction l with
  | nil => exact List.Forall₂.nil
  | cons x xs ih => exact List.Forall₂.cons (h x) ih

theorem forall₂_modify_at {α : Type} (R : α → α → Prop) (h : ∀ x, R x x) (f : α → α)
    (hf : ∀ x, R x (f x)) : ∀ (l : List α) (n : Nat), List.Forall₂ R l (modify_at f l n) := by
  intro l
  induction l with
  | nil => intro n; exact List.Forall₂.nil
  | cons x xs ih =>
    intro n
    cases n with
    | zero => exact List.Forall₂.cons (hf x) (forall₂_self R h xs)
    | succ n => exact List.Forall₂.cons (h x) (ih n)

theorem forall₂_map_right {α : Type} (R : α → α → Prop) (f : α → α) (hf : ∀ x, R x (f x)) :
    ∀ l : List α, List.Forall₂ R l (l.map f) := by
  intro l
  induction l with
  | nil => exact List.Forall₂.nil
  | cons x xs ih => exact List.Forall₂.cons (hf x) ih

theorem forall₂_trans {α : Type} (R : α → α → Prop) (h : ∀ x y z, R x y → R y z → R x z) :
    ∀ a b c : List α, List.Forall₂ R a b → List.Forall₂ R b c → List.Forall₂ R a c := by
  intro a b c hab
  induction hab generalizing c with
  | nil => intro hbc; cases hbc; exact List.Forall₂.nil
  | cons hxy _ ih =>
    intro hbc
    cases hbc with
    | cons hyz hrest => exact List.Forall₂.cons (h _ _ _ hxy hyz) (ih _ hrest)

theorem forall₂_getElem? {α : Type} (R : α → α → Prop) :
    ∀ (a b : List α), List.Forall₂ R a b → ∀ (i : Nat) (x : α), a[i]? = some x →
      ∃ y, b[i]? = some y ∧ R x y := by
  intro a b hab
  induction hab with
  | nil => intro i x hx; simp at hx
  | cons hxy _ ih =>
    intro i x hx
    cases i with
    | zero =>
      simp only [List.getElem?_cons_zero, Option.some.injEq] at hx
      subst hx
      exact ⟨_, by simp, hxy⟩
    | succ i =>
      simp only [List.getElem?_cons_succ] at hx
      simpa using ih i x hx

theorem grown_refl (a : List testing_result) : Grown a a :=
  forall₂_self _ (fun _ => ⟨Nat.le_refl _, forall₂_self _ (fun v => le_refl v) _⟩) a

theorem grown_trans {a b c : List testing_result} (h1 : Grown a b) (h2 : Grown b c) :
    Grown a c :=
  forall₂_trans _
    (fun _ _ _ hxy hyz =>
      ⟨Nat.le_trans hxy.1 hyz.1,
        forall₂_trans (fun v w : ℚ => v ≤ w) (fun _ _ _ p q => le_trans p q) _ _ _
          hxy.2 hyz.2⟩) a b c h1 h2

/-- What `Grown` says index by index. -/
theorem grown_at {a b : List testing_result} (h : Grown a b) :
    a.length = b.length ∧
    ∀ (r : Nat) (x : testing_result), a[r]? = some x →
      ∃ y, b[r]? = some y ∧ x.entry_count ≤ y.entry_count ∧
      x.cumulative_mse_list.length = y.cumulative_mse_list.length ∧
      ∀ (o : Nat) (v : ℚ), x.cumulative_mse_list[o]? = some v →
        ∃ w, y.cumulative_mse_list[o]? = some w ∧ v ≤ w := by
  refine ⟨List.Forall₂.length_eq h, ?_⟩
  intro r x hx
  obtain ⟨y, hy, h1, h2⟩ := forall₂_getElem? _ a b h r x hx
  exact ⟨y, hy, h1, List.Forall₂.length_eq h2, forall₂_getElem? _ _ _ h2⟩

theorem initial_error_step_nonneg {ω : Type} (c : Call) (b : Buffers) (id : Nat)
    (s : State ω) (i : Nat) (hs : NonNegative s) :
    NonNegative (initial_error_step c b id s i) ∧ (initial_error_step c b id s i).res = s.res := by
  refine ⟨⟨?_, hs.2⟩, rfl⟩
  intro j
  simp only [initial_error_step, write_at]
  split
  · exact add_nonneg (hs.1 i) (mul_self_nonneg _)
  · exact hs.1 j

theorem flush_step_grows {ω : Type} (c : Call) (s : State ω) (i : Nat) (hs : NonNegative s) :
    NonNegative (flush_step c s i) ∧ Grown s.res (flush_step c s i).res := by
  have ht : 0 ≤ s.temp_mse_buf i * (1 / 2) := mul_nonneg (hs.1 i) (by norm_num)
  refine ⟨⟨?_, ?_⟩, ?_⟩
  · intro j
    simp only [flush_step, write_at]
    split
    · exact le_refl _
    · exact hs.1 j
  · simp only [flush_step]
    exact forall_mem_modify_at _
      (fun x : testing_result => ∀ v, v ∈ x.cumulative_mse_list → 0 ≤ v) _ _ hs.2
      (fun x hx => forall_mem_modify_at _ (fun v : ℚ => 0 ≤ v) _ _ hx
        (fun v hv => add_nonneg hv ht))
  · simp only [flush_step]
    exact forall₂_modify_at _
      (fun _ => ⟨Nat.le_refl _, forall₂_self _ (fun v => le_refl v) _⟩) _
      (fun x => ⟨Nat.le_refl _,
        forall₂_modify_at _ (fun v => le_refl v) _ (fun v => le_add_of_nonneg_right ht) _ _⟩)
      _ _

theorem flush_statistics_grows {ω : Type} (c : Call) (s : State ω) (hs : NonNegative s) :
    NonNegative (flush_statistics c s) ∧ Grown s.res (flush_statistics c s).res :=
  foldl_invariant (flush_step c) (fun t => NonNegative t ∧ Grown s.res t.res)
    (fun a i h => ⟨(flush_step_grows c a i h.1).1, grown_trans h.2 (flush_step_grows c a i h.1).2⟩)
    _ s ⟨hs, grown_refl _⟩

theorem process_entries_temp_nonneg {ω : Type} (K : Kernels ω) (u : network_updater_plain)
    (c : Call) (first_read : Nat) :
    ∀ (n id : Nat) (s t : State ω),
      process_entries K u c (allocate_buffers K u c) first_read n id s = some t →
      (∀ i, 0 ≤ s.temp_mse_buf i) → ∀ i, 0 ≤ t.temp_mse_buf i := by
  intro n
  induction n with
  | zero =>
    intro id s t h hs
    simp only [process_entries, Option.some.injEq] at h
    subst h
    exact hs
  | succ n ih =>
    intro id s t h hs
    obtain ⟨w, P, h1, _, _, h4⟩ := process_entry_spec K u c first_read id s
    simp only [process_entries, h1] at h
    refine ih (id + 1) w t h ?_
    intro i
    rw [h4 i]
    split
    · exact add_nonneg (hs i) (sq_nonneg _)
    · exact hs i

theorem process_batch_grows {ω : Type} (K : Kernels ω) (u : network_updater_plain) (c : Call)
    (first_read n : Nat) (flag0 flag : Bool) (s t : State ω)
    (h : process_batch K u c (allocate_buffers K u c) first_read n flag0 s = some (flag, t))
    (hs : NonNegative s) : NonNegative t ∧ Grown s.res t.res := by
  obtain ⟨w, g1, g2, _⟩ := process_entries_spec K u c first_read n 0
    { s with
      batch_log := s.batch_log ++ [n]
      machine := run_testers K n u.tester_list (allocate_buffers K u c).testing_pack 0
        { s.machine with mem := convert_input u c n s.input_buf s.machine.mem } }
  have hw : NonNegative w :=
    ⟨process_entries_temp_nonneg K u c first_read n 0 _ w g1 hs.1, by rw [g2.res]; exact hs.2⟩
  obtain ⟨f1, f2⟩ := flush_statistics_grows c w hw
  have hres : w.res = s.res := g2.res
  have hfinal : NonNegative
        ({ (flush_statistics c w) with
            res := (flush_statistics c w).res.map
              (fun r => { r with entry_count := r.entry_count + n }) } : State ω) ∧
      Grown s.res ((flush_statistics c w).res.map
        (fun r => { r with entry_count := r.entry_count + n })) := by
    refine ⟨⟨f1.1, ?_⟩, ?_⟩
    · intro x hx
      simp only [List.mem_map] at hx
      obtain ⟨y, hy, rfl⟩ := hx
      exact f1.2 y hy
    · rw [← hres]
      exact grown_trans f2 (forall₂_map_right _ _
        (fun x => ⟨Nat.le_add_right _ _, forall₂_self _ (fun v => le_refl v) _⟩) _)
  simp only [process_batch, g1] at h
  split at h
  · simp only [Option.some.injEq, Prod.mk.injEq] at h
    rw [← h.2]
    exact ⟨⟨hfinal.1.1, hfinal.1.2⟩, hfinal.2⟩
  · simp only [Option.some.injEq, Prod.mk.injEq] at h
    rw [← h.2]
    exact hfinal

theorem macro_batch_grows {ω : Type} (K : Kernels ω) (u : network_updater_plain) (c : Call)
    (s : State ω) (flag : Bool) (t : State ω)
    (h : macro_batch K u c (allocate_buffers K u c) s = some (flag, t))
    (hs : NonNegative s) : NonNegative t ∧ Grown s.res t.res := by
  obtain ⟨_, l2, l3, _⟩ := load_entries_frame c (allocate_buffers K u c).max_entry_count 0 s
  have hl : NonNegative (load_entries c (allocate_buffers K u c).max_entry_count 0 s).2.2 :=
    ⟨fun i => by rw [l2]; exact hs.1 i, by rw [l3]; exact hs.2⟩
  simp only [macro_batch] at h
  split at h
  · simp only [Option.some.injEq, Prod.mk.injEq] at h
    rw [← h.2]
    exact ⟨hl, by rw [l3]; exact grown_refl _⟩
  · have := process_batch_grows K u c _ _ _ _ _ _ h hl
    rw [l3] at this
    exact this

/-- The main loop, from a state with non-negative accumulators, reaches only
states with non-negative accumulators and grown results. -/
theorem update_loop_grows {ω : Type} (K : Kernels ω) (u : network_updater_plain) (c : Call) :
    ∀ (fuel : Nat) (s : State ω), NonNegative s →
      ∀ t, (update_loop K u c (allocate_buffers K u c) fuel s).last_state = some t →
        NonNegative t ∧ Grown s.res t.res := by
  intro fuel
  induction fuel with
  | zero =>
    intro s hs t ht
    simp only [update_loop, Outcome.last_state, Option.some.injEq] at ht
    subst ht
    exact ⟨hs, grown_refl _⟩
  | succ fuel ih =>
    intro s hs t ht
    simp only [update_loop] at ht
    cases hm : macro_batch K u c (allocate_buffers K u c) s with
    | none => simp [hm, Outcome.last_state] at ht
    | some r =>
      obtain ⟨flag, w⟩ := r
      obtain ⟨w1, w2⟩ := macro_batch_grows K u c s flag w hm hs
      cases flag with
      | false =>
        simp only [hm, Outcome.last_state, Option.some.injEq] at ht
        subst ht
        exact ⟨w1, w2⟩
      | true =>
        simp only [hm] at ht
        obtain ⟨t1, t2⟩ := ih w w1 t ht
        exact ⟨t1, grown_trans w2 t2⟩

/-- A run cut off after `f` macro-batches and resumed goes on as the uncut
run does. -/
theorem update_loop_resume {ω : Type} (K : Kernels ω) (u : network_updater_plain) (c : Call)
    (b : Buffers) (g : Nat) :
    ∀ (f : Nat) (s0 s : State ω), update_loop K u c b f s0 = .out_of_fuel s →
      update_loop K u c b (f + g) s0 = update_loop K u c b g s := by
  intro f
  induction f with
  | zero =>
    intro s0 s h
    simp only [update_loop, Outcome.out_of_fuel.injEq] at h
    subst h
    simp
  | succ f ih =>
    intro s0 s h
    rw [show f + 1 + g = (f + g) + 1 by omega]
    simp only [update_loop] at h ⊢
    cases hm : macro_batch K u c b s0 with
    | none => simp [hm] at h
    | some r =>
      obtain ⟨flag, w⟩ := r
      cases flag with
      | false => simp [hm] at h
      | true =>
        simp only [hm] at h ⊢
        exact ih w s h

theorem loop_entry_nonneg {ω : Type} (c : Call) (mem : Memory ω) (ecu : Nat) :
    NonNegative (State.at_loop_entry c mem ecu) := by
  refine ⟨fun i => le_refl _, ?_⟩
  intro x hx v hv
  simp only [State.at_loop_entry, State.initial, List.mem_replicate] at hx
  rw [hx.2] at hv
  simp only [testing_result.new, List.mem_replicate] at hv
  rw [hv.2]

/-- C13: in a run of `actual_update`, at every macro-batch boundary and at
the end, every element of `temp_mse_buf` and of every result's
`cumulative_mse_list` is non-negative; the two steps that write them, the
error step and the flush step, keep them so from any such state; and from the
state reached after `f` macro-batches to any later state of the same run,
there are as many results with as many slots, and `entry_count` and every
slot of `cumulative_mse_list` have not decreased. -/
theorem c13_cumulative_mse_nonnegative_and_monotone {ω : Type} (K : Kernels ω)
    (u : network_updater_plain) (c : Call) (mem : Memory ω) (ecu : Nat) :
    (∀ fuel t, (actual_update K u c fuel mem ecu).last_state = some t → NonNegative t) ∧
    (∀ (s : State ω) (b : Buffers) (id i : Nat), NonNegative s →
      NonNegative (initial_error_step c b id s i) ∧
      (initial_error_step c b id s i).res = s.res ∧
      NonNegative (flush_step c s i)) ∧
    ∀ f g s t, actual_update K u c f mem ecu = .out_of_fuel s →
      (actual_update K u c (f + g) mem ecu).last_state = some t →
      t.res.length = s.res.length ∧
      ∀ (r : Nat) (x : testing_result), s.res[r]? = some x →
        ∃ y, t.res[r]? = some y ∧ x.entry_count ≤ y.entry_count ∧
          x.cumulative_mse_list.length = y.cumulative_mse_list.length ∧
          ∀ (o : Nat) (v : ℚ), x.cumulative_mse_list[o]? = some v →
            ∃ w, y.cumulative_mse_list[o]? = some w ∧ v ≤ w := by
  refine ⟨?_, ?_, ?_⟩
  · intro fuel t ht
    cases hd : dropout_check u.testing_layer_count c.layer_to_dropout_rate_map with
    | some layer_id =>
      simp only [actual_update, hd, Outcome.last_state, Option.some.injEq] at ht
      subst ht
      exact ⟨fun i => le_refl _, fun x hx => by simp [State.initial] at hx⟩
    | none =>
      by_cases hc : c.updater_entry_count = 0
      · simp only [actual_update, hd, hc, if_true, Outcome.last_state,
          Option.some.injEq] at ht
        subst ht
        exact ⟨fun i => le_refl _, fun x hx => by simp [State.initial] at hx⟩
      · rcases actual_update_loop_or_undefined K u c mem ecu hd hc with hu | hl
        · rw [hu fuel] at ht
          simp [Outcome.last_state] at ht
        · rw [hl fuel] at ht
          exact (update_loop_grows K u c fuel _ (loop_entry_nonneg c mem ecu) t ht).1
  · intro s b id i hs
    exact ⟨(initial_error_step_nonneg c b id s i hs).1, (initial_error_step_nonneg c b id s i hs).2,
      (flush_step_grows c s i hs).1⟩
  · intro f g s t hf ht
    cases hd : dropout_check u.testing_layer_count c.layer_to_dropout_rate_map with
    | some layer_id => simp [actual_update, hd] at hf
    | none =>
      by_cases hc : c.updater_entry_count = 0
      · simp [actual_update, hd, hc] at hf
      · rcases actual_update_loop_or_undefined K u c mem ecu hd hc with hu | hl
        · rw [hu f] at hf
          simp at hf
        · rw [hl f] at hf
          rw [hl (f + g), update_loop_resume K u c _ g f _ s hf] at ht
          have hs := (update_loop_grows K u c f _ (loop_entry_nonneg c mem ecu) s
            (by rw [hf]; rfl)).1
          have hg := grown_at (update_loop_grows K u c g s hs t ht).2
          exact ⟨hg.1.symm, hg.2⟩

/-! ## The backward pass against the forward pass -/

theorem test_uses_append (a b : List Event) : test_uses (a ++ b) = test_uses a ++ test_uses b := by
  induction a with
  | nil => rfl
  | cons e rest ih => cases e <;> simp [test_uses, ih]

theorem update_weights_uses_append (a b : List Event) :
    update_weights_uses (a ++ b) = update_weights_uses a ++ update_weights_uses b := by
  induction a with
  | nil => rfl
  | cons e rest ih => cases e <;> simp [update_weights_uses, ih]

theorem backprop_uses_append (a b : List Event) :
    backprop_uses (a ++ b) = backprop_uses a ++ backprop_uses b := by
  induction a with
  | nil => rfl
  | cons e rest ih => cases e <;> simp [backprop_uses, ih]

/-- The forward pass calls `test` on every unit in order, with the layer,
data and configurations at the running positions, and neither `backprop` nor
`update_weights`. -/
theorem forward_updater_uses {ω : Type} (K : Kernels ω) (c : Call) (b : Buffers) (id : Nat) :
    ∀ (xs : List layer_updater_plain) (ps : List (Buf × updater_additional_buffer_set))
      (j layer_id : Nat) (st : List Nat) (m : Machine ω),
      ∃ evs, (forward_updater K c b id xs ps j layer_id st m).2.trace = m.trace ++ evs ∧
        test_uses evs = forward_uses xs ps j layer_id ∧
        update_weights_uses evs = [] ∧ backprop_uses evs = [] := by
  intro xs
  induction xs with
  | nil => intro ps j l st m; exact ⟨[], by simp [forward_updater], by simp [test_uses, forward_uses], rfl, rfl⟩
  | cons x xs ih =>
    intro ps j l st m
    cases ps with
    | nil => exact ⟨[], by simp [forward_updater], by simp [test_uses, forward_uses], rfl, rfl⟩
    | cons p ps =>
      simp only [forward_updater]
      by_cases hj : j = 0
      · obtain ⟨evs, h1, h2, h3, h4⟩ := ih ps (j + 1) (l + 1) st
          (call K (updater_test_call c x p j l id) m)
        refine ⟨updater_test_call c x p j l id :: evs, ?_, ?_, ?_, ?_⟩
        · simp only [hj, ne_eq, not_true_eq_false, if_false] at h1 ⊢
          rw [h1]; simp [call]
        · simp [test_uses, forward_uses, updater_test_call, h2]
        · simpa [update_weights_uses, updater_test_call] using h3
        · simpa [backprop_uses, updater_test_call] using h4
      · cases hr : find_rate c.layer_to_dropout_rate_map l with
        | none =>
          obtain ⟨evs, h1, h2, h3, h4⟩ := ih ps (j + 1) (l + 1) st
            (call K (updater_test_call c x p j l id) m)
          refine ⟨updater_test_call c x p j l id :: evs, ?_, ?_, ?_, ?_⟩
          · simp only [hj, ne_eq, not_false_eq_true, if_true]
            rw [h1]; simp [call]
          · simp [test_uses, forward_uses, updater_test_call, h2]
          · simpa [update_weights_uses, updater_test_call] using h3
          · simpa [backprop_uses, updater_test_call] using h4
        | some rate =>
          obtain ⟨evs, h1, h2, h3, h4⟩ := ih ps (j + 1) (l + 1)
            (c.gen_random_offset m.draws :: st)
            (call K (updater_test_call c x p j l id)
              (call K (forward_dropout_call c b x p l rate (c.gen_random_offset m.draws))
                { m with draws := m.draws + 1 }))
          refine ⟨forward_dropout_call c b x p l rate (c.gen_random_offset m.draws) ::
            updater_test_call c x p j l id :: evs, ?_, ?_, ?_, ?_⟩
          · simp only [hj, ne_eq, not_false_eq_true, if_true]
            rw [h1]; simp [call]
          · simp [test_uses, forward_uses, updater_test_call, forward_dropout_call, h2]
          · simpa [update_weights_uses, updater_test_call, forward_dropout_call] using h3
          · simpa [backprop_uses, updater_test_call, forward_dropout_call] using h4

/-- The backward pass calls `update_weights` on every unit it walks over,
with the layer, data, training speeds and configurations at the reverse
positions, `backprop` on every unit but the last it walks over, and never
`test`. -/
theorem backward_updater_uses {ω : Type} (K : Kernels ω) (u : network_updater_plain)
    (c : Call) (b : Buffers) (id : Nat) :
    ∀ (xs : List layer_updater_plain) (ps : List (Buf × updater_additional_buffer_set))
      (k oe rid : Nat) (st : List Nat) (m : Machine ω) (r : List Nat × Machine ω),
      xs.length = ps.length →
      backward_updater K u c b id xs ps k oe rid st m = some r →
      ∃ evs, r.2.trace = m.trace ++ evs ∧
        update_weights_uses evs = backward_uses u c xs ps k ∧
        backprop_uses evs = ((backward_uses u c xs ps k).map Prod.fst).dropLast ∧
        test_uses evs = [] := by
  intro xs
  induction xs with
  | nil =>
    intro ps k oe rid st m r _ h
    simp only [backward_updater, Option.some.injEq] at h
    subst h
    exact ⟨[], by simp, by simp [update_weights_uses, backward_uses],
      by simp [backprop_uses, backward_uses], rfl⟩
  | cons x xs ih =>
    intro ps k oe rid st m r hlen h
    cases ps with
    | nil => simp at hlen
    | cons p ps =>
      have hlen2 : xs.length = ps.length := by simpa using hlen
      cases hx : xs.isEmpty with
      | true =>
        have hxs : xs = [] := List.isEmpty_iff.1 hx
        simp only [backward_updater, hx, Bool.not_true, Bool.false_eq_true, if_false] at h
        obtain ⟨evs, h1, h2, h3, h4⟩ := ih ps _ _ _ _ _ r hlen2 h
        refine ⟨update_weights_call c x p (reverse_positions u c k) oe true id :: evs,
          ?_, ?_, ?_, ?_⟩
        · rw [h1]; simp [call]
        · simp [update_weights_uses, backward_uses, update_weights_call, h2]
        · subst hxs
          simp only [backprop_uses, update_weights_call, h3]
          simp [backward_uses]
        · simpa [test_uses, update_weights_call] using h4
      | false =>
        have hne : backward_uses u c xs ps (k + 1) ≠ [] := by
          cases xs with
          | nil => simp at hx
          | cons y ys =>
            cases ps with
            | nil => simp at hlen2
            | cons q qs => simp [backward_uses]
        cases hr : find_rate c.layer_to_dropout_rate_map rid with
        | none =>
          simp only [backward_updater, hx, Bool.not_false, if_true, hr] at h
          obtain ⟨evs, h1, h2, h3, h4⟩ := ih ps _ _ _ _ _ r hlen2 h
          refine ⟨backprop_call c x p (reverse_positions u c k) oe ::
            update_weights_call c x p (reverse_positions u c k) oe false id :: evs,
            ?_, ?_, ?_, ?_⟩
          · rw [h1]; simp [call]
          · simp [update_weights_uses, backward_uses, update_weights_call, backprop_call, h2]
          · simp only [backprop_uses, update_weights_call, backprop_call, h3, backward_uses,
              List.map_cons]
            rw [List.dropLast_cons_of_ne_nil (by simpa using hne)]
          · simpa [test_uses, update_weights_call, backprop_call] using h4
        | some rate =>
          cases st with
          | nil => simp [backward_updater, hx, hr] at h
          | cons offset rest =>
            simp only [backward_updater, hx, Bool.not_false, if_true, hr] at h
            obtain ⟨evs, h1, h2, h3, h4⟩ := ih ps _ _ _ _ _ r hlen2 h
            refine ⟨backprop_call c x p (reverse_positions u c k) oe ::
              backward_dropout_call c b x p (reverse_positions u c k) rid rate offset ::
              update_weights_call c x p (reverse_positions u c k) oe false id :: evs,
              ?_, ?_, ?_, ?_⟩
            · rw [h1]; simp [call]
            · simp [update_weights_uses, backward_uses, update_weights_call, backprop_call,
                backward_dropout_call, h2]
            · simp only [backprop_uses, update_weights_call, backprop_call,
                backward_dropout_call, h3, backward_uses, List.map_cons]
              rw [List.dropLast_cons_of_ne_nil (by simpa using hne)]
            · simpa [test_uses, update_weights_call, backprop_call,
                backward_dropout_call] using h4

theorem backward_uses_snoc (u : network_updater_plain) (c : Call) :
    ∀ (xs : List layer_updater_plain) (ps : List (Buf × updater_additional_buffer_set))
      (x : layer_updater_plain) (p : Buf × updater_additional_buffer_set) (k : Nat),
      xs.length = ps.length →
      backward_uses u c (xs ++ [x]) (ps ++ [p]) k =
        backward_uses u c xs ps k ++ backward_uses u c [x] [p] (k + xs.length) := by
  intro xs
  induction xs with
  | nil =>
    intro ps x p k h
    cases ps with
    | nil => simp [backward_uses]
    | cons q qs => simp at h
  | cons y ys ih =>
    intro ps x p k h
    cases ps with
    | nil => simp at h
    | cons q qs =>
      have e := ih qs x p (k + 1) (by simpa using h)
      have hk : k + 1 + ys.length = k + (ys.length + 1) := by omega
      rw [hk] at e
      show backward_uses u c (y :: (ys ++ [x])) (q :: (qs ++ [p])) k = _
      simp only [backward_uses, List.length_cons, List.cons_append] at e ⊢
      rw [e]

/-- When the topology, the configurations, the weight data and the training
speeds all have the layers the units stand for, the reverse iterators of the
backward pass meet each unit at the positions the forward pass used for
it. -/
theorem backward_uses_mirror (u : network_updater_plain) (c : Call) (k : Nat) :
    ∀ (xs : List layer_updater_plain) (ps : List (Buf × updater_additional_buffer_set))
      (j layer_id : Nat),
      xs.length = ps.length →
      u.layer_list.length = layer_id + xs.length + k →
      u.layer_config_count = u.layer_list.length + 1 →
      c.data_layer_count - u.testing_layer_count = j + xs.length + k →
      c.training_speed_layer_count - u.testing_layer_count = j + xs.length + k →
      backward_uses u c xs.reverse ps.reverse k =
        ((forward_uses xs ps j layer_id).map (fun x => (x, x.data_pos))).reverse := by
  intro xs
  induction xs with
  | nil => intro ps j l _ _ _ _ _; simp [backward_uses, forward_uses]
  | cons x xs ih =>
    intro ps j l hlen hL hC hD hS
    cases ps with
    | nil => simp at hlen
    | cons p ps =>
      have hlen2 : xs.length = ps.length := by simpa using hlen
      simp only [List.length_cons] at hL hD hS
      rw [List.reverse_cons, List.reverse_cons,
        backward_uses_snoc u c _ _ x p k (by simpa using hlen2),
        ih ps (j + 1) (l + 1) hlen2 (by omega) hC (by omega) (by omega)]
      simp only [forward_uses, List.map_cons, List.reverse_cons, backward_uses,
        reverse_positions, List.length_reverse, List.append_cancel_left_eq, List.cons.injEq,
        and_true, Prod.mk.injEq, LayerUse.mk.injEq, true_and]
      omega

/-- One iteration of the per-entry loop when the constructor's split agrees
with `testing_layer_count` and the configurations, the weight data and the
training speeds have one element per topology layer (one more for the
configurations): `update_weights` is called on the units in the reverse of
the order of `test`, `backprop` on all but the first unit, each with the
layer descriptor, weight data, training speeds, configurations and pack
entry that `test` was called with for that unit. -/
theorem entry_iteration_mirrors {ω : Type} (K : Kernels ω) (u : network_updater_plain)
    (c : Call) (first_read input_entry_id : Nat) (s : State ω)
    (hsplit : u.testing_layer_count + u.updater_list.length = u.layer_list.length)
    (hcfg : u.layer_config_count = u.layer_list.length + 1)
    (hdata : c.data_layer_count = u.layer_list.length)
    (hspeed : c.training_speed_layer_count = u.layer_list.length) :
    ∃ (final : State ω) (evs : List Event),
      process_entry_stack K u c (allocate_buffers K u c) first_read input_entry_id s =
        some ([], final) ∧
      final.machine.trace = s.machine.trace ++ evs ∧
      test_uses evs = forward_uses u.updater_list (allocate_buffers K u c).updater_pack 0
        u.testing_layer_count ∧
      (test_uses evs).map (fun x => x.unit) = u.updater_list ∧
      update_weights_uses evs = ((test_uses evs).map (fun x => (x, x.data_pos))).reverse ∧
      backprop_uses evs = ((test_uses evs).reverse).dropLast := by
  have hlen := (allocate_buffers_updater_pack_length K u c).symm
  obtain ⟨final, _, hpe, _⟩ := entry_iteration_replays_offsets K u c first_read input_entry_id s
  obtain ⟨evsF, f1, f2, f3, f4⟩ := forward_updater_uses K c (allocate_buffers K u c)
    input_entry_id u.updater_list (allocate_buffers K u c).updater_pack 0
    u.testing_layer_count [] s.machine
  have htrace : (forward_and_error K u c (allocate_buffers K u c) first_read input_entry_id
      s).2.machine.trace = s.machine.trace ++ evsF := by
    simp only [forward_and_error]
    rw [set_initial_error_machine_trace]
    exact f1
  have hpe2 := hpe
  simp only [process_entry_stack] at hpe2
  cases hb : backward_updater K u c (allocate_buffers K u c) input_entry_id
      u.updater_list.reverse (allocate_buffers K u c).updater_pack.reverse 0 initial_error_buf
      (u.updater_list.length + u.testing_layer_count - 1)
      (forward_and_error K u c (allocate_buffers K u c) first_read input_entry_id s).1
      (forward_and_error K u c (allocate_buffers K u c) first_read input_entry_id s).2.machine with
  | none => simp [hb] at hpe2
  | some r =>
    simp only [hb, Option.some.injEq, Prod.mk.injEq] at hpe2
    obtain ⟨evsB, b1, b2, b3, b4⟩ := backward_updater_uses K u c (allocate_buffers K u c)
      input_entry_id _ _ _ _ _ _ _ r (by simp [hlen]) hb
    have hmirror := backward_uses_mirror u c 0 u.updater_list
      (allocate_buffers K u c).updater_pack 0 u.testing_layer_count hlen (by omega) hcfg
      (by omega) (by omega)
    have hunits : ∀ (xs : List layer_updater_plain)
        (ps : List (Buf × updater_additional_buffer_set)) (j l : Nat),
        xs.length = ps.length → (forward_uses xs ps j l).map (fun x => x.unit) = xs := by
      intro xs
      induction xs with
      | nil => intro ps j l _; simp [forward_uses]
      | cons x xs ih =>
        intro ps j l h
        cases ps with
        | nil => simp at h
        | cons p ps => simp [forward_uses, ih ps (j + 1) (l + 1) (by simpa using h)]
    refine ⟨final, evsF ++ evsB, hpe, ?_, ?_, ?_, ?_, ?_⟩
    · rw [← hpe2.2]
      simp only []
      rw [b1, htrace, List.append_assoc]
    · rw [test_uses_append, b4, f2, List.append_nil]
    · rw [test_uses_append, b4, f2, List.append_nil]
      exact hunits _ _ _ _ hlen
    · rw [update_weights_uses_append, test_uses_append, f3, b2, b4, f2, hmirror]
      simp
    · rw [backprop_uses_append, test_uses_append, f4, b3, b4, f2, hmirror]
      simp [List.map_reverse, Function.comp_def]

/-- C17, at the failing input: for the topology whose single layer owns no
weight data, with one replica and a stream of one entry, the forward pass
calls `test` on the layer's unit with the layer descriptor at position 1 and
the configurations at positions 1 and 2, all past the last layer, while the
backward pass calls `update_weights` on the same unit with the layer
descriptor at position 0 and the configurations at positions 0 and 1. -/
theorem c17_backward_pass_meets_another_layer :
    weightless_updater.layer_list.length = 1 ∧
    (actual_update idle_kernels weightless_updater weightless_call 3
      zero_memory 0).returned_state.map (fun s =>
        (test_uses s.machine.trace, update_weights_uses s.machine.trace,
          backprop_uses s.machine.trace)) =
      some
        ([{ unit := get_updater_plain_layer 0, layer_pos := 1, data_pos := 0,
            input_config_pos := 1, output_config_pos := 2, input_neurons := 1,
            additional_buffers := [] }],
          [({ unit := get_updater_plain_layer 0, layer_pos := 0, data_pos := 0,
              input_config_pos := 0, output_config_pos := 1, input_neurons := 1,
              additional_buffers := [] }, 0)],
          []) := by
  decide

/-! ## `softmax_layer_hessian_plain::backprop` in place -/

theorem foldl_add_eq_sum (h : Nat → ℚ) (k : Nat) :
    (List.range k).foldl (fun s g => s + h g) 0 = ((List.range k).map h).sum := by
  induction k with
  | zero => rfl
  | succ k ih => simp [List.range_succ, List.foldl_append, ih]

theorem backprop_sum_eq (cfg : softmax_configuration) (floats : Buf → Nat → ℚ)
    (oe nb : Buf) (base : Nat) :
    backprop_sum cfg floats oe nb base =
      ((List.range cfg.feature_map_count).map (fun g =>
        floats nb (base + g * cfg.input_neuron_count_per_feature_map) *
          floats nb (base + g * cfg.input_neuron_count_per_feature_map) *
          floats oe (base + g * cfg.input_neuron_count_per_feature_map))).sum :=
  foldl_add_eq_sum _ _

theorem backprop_sum_congr (cfg : softmax_configuration) (fl1 fl2 : Buf → Nat → ℚ)
    (oe nb : Buf) (base : Nat)
    (h : ∀ g, g < cfg.feature_map_count →
      fl1 nb (base + g * cfg.input_neuron_count_per_feature_map) =
        fl2 nb (base + g * cfg.input_neuron_count_per_feature_map) ∧
      fl1 oe (base + g * cfg.input_neuron_count_per_feature_map) =
        fl2 oe (base + g * cfg.input_neuron_count_per_feature_map)) :
    backprop_sum cfg fl1 oe nb base = backprop_sum cfg fl2 oe nb base := by
  rw [backprop_sum_eq, backprop_sum_eq]
  congr 1
  apply List.map_congr_left
  intro g hg
  rw [(h g (List.mem_range.1 hg)).1, (h g (List.mem_range.1 hg)).2]

/-- The second inner loop, after `k` iterations: the elements written hold
the formula nb the values the loop started from, everything else is as it
was. -/
theorem backprop_write_prefix (cfg : softmax_configuration) (ie oe nb : Buf) (base : Nat)
    (sum : ℚ) (fl : Buf → Nat → ℚ) (hP : 0 < cfg.input_neuron_count_per_feature_map)
    (hon : nb ≠ ie) (k : Nat) :
    (∀ f, f < k →
      (List.range k).foldl (backprop_write_step cfg ie oe nb base sum) fl ie
          (base + f * cfg.input_neuron_count_per_feature_map) =
        fl nb (base + f * cfg.input_neuron_count_per_feature_map) *
          fl nb (base + f * cfg.input_neuron_count_per_feature_map) *
          (fl oe (base + f * cfg.input_neuron_count_per_feature_map) *
            (2 * (fl nb (base + f * cfg.input_neuron_count_per_feature_map) *
              fl nb (base + f * cfg.input_neuron_count_per_feature_map) -
              fl nb (base + f * cfg.input_neuron_count_per_feature_map)) + 1) - sum)) ∧
    ∀ b p, (b ≠ ie ∨ ∀ f, f < k → p ≠ base + f * cfg.input_neuron_count_per_feature_map) →
      (List.range k).foldl (backprop_write_step cfg ie oe nb base sum) fl b p = fl b p := by
  induction k with
  | zero => exact ⟨fun f hf => by omega, fun b p _ => rfl⟩
  | succ k ih =>
    obtain ⟨h1, h2⟩ := ih
    have hne : ∀ f, f < k → base + k * cfg.input_neuron_count_per_feature_map ≠
        base + f * cfg.input_neuron_count_per_feature_map := by
      intro f hf he
      have := Nat.eq_of_mul_eq_mul_right hP (Nat.add_left_cancel he)
      omega
    rw [List.range_succ, List.foldl_append]
    simp only [List.foldl_cons, List.foldl_nil]
    refine ⟨?_, ?_⟩
    · intro f hf
      by_cases hfk : f = k
      · subst hfk
        simp only [backprop_write_step, write_at, if_true]
        rw [h2 nb _ (Or.inl hon), h2 oe _ (Or.inr (fun g hg => hne g hg))]
      · have hlt : f < k := by omega
        have hpos : base + f * cfg.input_neuron_count_per_feature_map ≠
            base + k * cfg.input_neuron_count_per_feature_map := fun he => hne f hlt he.symm
        simp only [backprop_write_step, write_at, if_true, hpos, if_false]
        exact h1 f hlt
    · intro b p hbp
      by_cases hb : b = ie
      · subst hb
        have hp : ∀ f, f < k + 1 → p ≠ base + f * cfg.input_neuron_count_per_feature_map := by
          rcases hbp with hbp | hbp
          · exact absurd rfl hbp
          · exact hbp
        simp only [backprop_write_step, write_at, if_true, hp k (by omega), if_false]
        exact h2 b p (Or.inr (fun f hf => hp f (by omega)))
      · simp only [backprop_write_step, hb, if_false]
        exact h2 b p (Or.inl hb)

/-- Two footprints `base + f * P` of different workloads are apart as soon
as `F * P <= N`. -/
theorem footprints_apart (N P F : Nat) (hFP : F * P ≤ N) (w w' f f' : Nat) (hf : f < F)
    (hf' : f' < F) (hP : 0 < P)
    (h : w / P * N + (w - w / P * P) + f * P = w' / P * N + (w' - w' / P * P) + f' * P) :
    w = w' := by
  rw [← mod_eq_sub_div_mul, ← mod_eq_sub_div_mul] at h
  have hn := Nat.mod_lt w hP
  have hn' := Nat.mod_lt w' hP
  have hb : f * P + P ≤ F * P := by
    have := Nat.mul_le_mul_right P (Nat.succ_le_of_lt hf)
    rwa [Nat.succ_mul] at this
  have hb' : f' * P + P ≤ F * P := by
    have := Nat.mul_le_mul_right P (Nat.succ_le_of_lt hf')
    rwa [Nat.succ_mul] at this
  have hN : 0 < N := by omega
  have hlt : w % P + f * P < N := by omega
  have hlt' : w' % P + f' * P < N := by omega
  have e1 : (w / P * N + (w % P + f * P)) / N = w / P := by
    rw [Nat.mul_comm (w / P) N, Nat.mul_add_div hN, Nat.div_eq_of_lt hlt]
    rfl
  have e2 : (w' / P * N + (w' % P + f' * P)) / N = w' / P := by
    rw [Nat.mul_comm (w' / P) N, Nat.mul_add_div hN, Nat.div_eq_of_lt hlt']
    rfl
  have hdiv : w / P = w' / P := by
    rw [← e1, ← e2, ← Nat.add_assoc, ← Nat.add_assoc, h]
  rw [hdiv] at h
  have hr : w % P + f * P = w' % P + f' * P := by omega
  have hmod : w % P = w' % P := by
    have := congrArg (fun x => x % P) hr
    simpa [Nat.add_mul_mod_self_right, Nat.mod_mod] using this
  exact div_mod_inj P w w' hdiv hmod

/-- One workload: its footprint in `input_errors` holds the formula on the
values the workload started from, everything else is as it was. -/
theorem backprop_workload_spec (cfg : softmax_configuration) (ie oe nb : Buf)
    (fl : Buf → Nat → ℚ) (w : Nat) (hP : 0 < cfg.input_neuron_count_per_feature_map)
    (hnb : nb ≠ ie) :
    (∀ f, f < cfg.feature_map_count →
      backprop_workload cfg ie oe nb fl w ie
          (workload_base cfg w + f * cfg.input_neuron_count_per_feature_map) =
        fl nb (workload_base cfg w + f * cfg.input_neuron_count_per_feature_map) *
          fl nb (workload_base cfg w + f * cfg.input_neuron_count_per_feature_map) *
          (fl oe (workload_base cfg w + f * cfg.input_neuron_count_per_feature_map) *
            (2 * (fl nb (workload_base cfg w + f * cfg.input_neuron_count_per_feature_map) *
              fl nb (workload_base cfg w + f * cfg.input_neuron_count_per_feature_map) -
              fl nb (workload_base cfg w + f * cfg.input_neuron_count_per_feature_map)) + 1) -
            backprop_sum cfg fl oe nb (workload_base cfg w))) ∧
    ∀ b p, (b ≠ ie ∨ ∀ f, f < cfg.feature_map_count →
        p ≠ workload_base cfg w + f * cfg.input_neuron_count_per_feature_map) →
      backprop_workload cfg ie oe nb fl w b p = fl b p :=
  backprop_write_prefix cfg ie oe nb _ _ fl hP hnb cfg.feature_map_count

/-- Any schedule that takes no workload twice: the footprint of every
workload taken holds the formula on the values `backprop` started from,
whether or not `input_errors` is `output_errors`; everything else is as it
was. -/
theorem backprop_schedule_spec (cfg : softmax_configuration) (ie oe nb : Buf)
    (hP : 0 < cfg.input_neuron_count_per_feature_map)
    (hFP : cfg.feature_map_count * cfg.input_neuron_count_per_feature_map ≤
      cfg.input_neuron_count) (hnb : nb ≠ ie) :
    ∀ (ws : List Nat) (fl : Buf → Nat → ℚ), ws.Nodup →
      (∀ w, w ∈ ws → ∀ f, f < cfg.feature_map_count →
        backprop_schedule cfg ie oe nb ws fl ie
            (workload_base cfg w + f * cfg.input_neuron_count_per_feature_map) =
          fl nb (workload_base cfg w + f * cfg.input_neuron_count_per_feature_map) *
            fl nb (workload_base cfg w + f * cfg.input_neuron_count_per_feature_map) *
            (fl oe (workload_base cfg w + f * cfg.input_neuron_count_per_feature_map) *
              (2 * (fl nb (workload_base cfg w + f * cfg.input_neuron_count_per_feature_map) *
                fl nb (workload_base cfg w + f * cfg.input_neuron_count_per_feature_map) -
                fl nb (workload_base cfg w + f * cfg.input_neuron_count_per_feature_map)) + 1) -
              backprop_sum cfg fl oe nb (workload_base cfg w))) ∧
      ∀ b p, (b ≠ ie ∨ ∀ w, w ∈ ws → ∀ f, f < cfg.feature_map_count →
          p ≠ workload_base cfg w + f * cfg.input_neuron_count_per_feature_map) →
        backprop_schedule cfg ie oe nb ws fl b p = fl b p := by
  intro ws
  induction ws with
  | nil => intro fl _; exact ⟨fun w hw => by simp at hw, fun b p _ => rfl⟩
  | cons w ws ih =>
    intro fl hnd
    obtain ⟨hw, hnd'⟩ := List.nodup_cons.1 hnd
    obtain ⟨a1, a2⟩ := backprop_workload_spec cfg ie oe nb fl w hP hnb
    obtain ⟨i1, i2⟩ := ih (backprop_workload cfg ie oe nb fl w) hnd'
    have happart : ∀ w1 w2 f1 f2, w1 ≠ w2 → f1 < cfg.feature_map_count →
        f2 < cfg.feature_map_count →
        workload_base cfg w1 + f1 * cfg.input_neuron_count_per_feature_map ≠
          workload_base cfg w2 + f2 * cfg.input_neuron_count_per_feature_map := by
      intro w1 w2 f1 f2 hne h1 h2 he
      exact hne (footprints_apart _ _ _ hFP w1 w2 f1 f2 h1 h2 hP he)
    have hsame : ∀ w', w' ≠ w → ∀ g, g < cfg.feature_map_count → ∀ b,
        backprop_workload cfg ie oe nb fl w b
            (workload_base cfg w' + g * cfg.input_neuron_count_per_feature_map) =
          fl b (workload_base cfg w' + g * cfg.input_neuron_count_per_feature_map) := by
      intro w' hne g hg b
      exact a2 b _ (Or.inr (fun f hf => happart w' w g f hne hg hf))
    show (∀ w', w' ∈ w :: ws → ∀ f, f < cfg.feature_map_count →
        backprop_schedule cfg ie oe nb ws (backprop_workload cfg ie oe nb fl w) ie _ = _) ∧
      ∀ b p, _ → backprop_schedule cfg ie oe nb ws (backprop_workload cfg ie oe nb fl w) b p = _
    refine ⟨?_, ?_⟩
    · intro w' hw' f hf
      rcases List.mem_cons.1 hw' with rfl | hmem
      · rw [i2 ie _ (Or.inr (fun w2 hw2 f2 hf2 =>
          happart w' w2 f f2 (fun he => hw (he ▸ hw2)) hf hf2))]
        exact a1 f hf
      · have hne : w' ≠ w := fun he => hw (he ▸ hmem)
        rw [i1 w' hmem f hf, hsame w' hne f hf nb, hsame w' hne f hf oe,
          backprop_sum_congr cfg (backprop_workload cfg ie oe nb fl w) fl oe nb
            (workload_base cfg w')
            (fun g hg => ⟨hsame w' hne g hg nb, hsame w' hne g hg oe⟩)]
    · intro b p hbp
      rw [i2 b p (by
        rcases hbp with hb | hp
        · exact Or.inl hb
        · exact Or.inr (fun w2 hw2 f2 hf2 => hp w2 (List.mem_cons_of_mem _ hw2) f2 hf2))]
      exact a2 b p (by
        rcases hbp with hb | hp
        · exact Or.inl hb
        · exact Or.inr (fun f2 hf2 => hp w (List.mem_cons_self _ _) f2 hf2))

theorem workload_base_of (cfg : softmax_configuration) (e n : Nat)
    (hn : n < cfg.input_neuron_count_per_feature_map) :
    workload_base cfg (e * cfg.input_neuron_count_per_feature_map + n) =
      e * cfg.input_neuron_count + n := by
  have hP : 0 < cfg.input_neuron_count_per_feature_map := by omega
  have hdiv : (e * cfg.input_neuron_count_per_feature_map + n) /
      cfg.input_neuron_count_per_feature_map = e := by
    rw [Nat.mul_comm, Nat.mul_add_div hP, Nat.div_eq_of_lt hn]
    rfl
  simp only [workload_base, hdiv]
  omega

/-- The formula on the values before the call, for any schedule of the
workloads `0 .. entry_count * P - 1`. -/
theorem backprop_schedule_formula (cfg : softmax_configuration) (ie oe nb : Buf)
    (entry_count : Nat) (fl : Buf → Nat → ℚ) (ws : List Nat)
    (hFP : cfg.feature_map_count * cfg.input_neuron_count_per_feature_map ≤
      cfg.input_neuron_count)
    (hnb : nb ≠ ie)
    (hws : ws.Perm (List.range (entry_count * cfg.input_neuron_count_per_feature_map)))
    (e n f : Nat) (he : e < entry_count) (hn : n < cfg.input_neuron_count_per_feature_map)
    (hf : f < cfg.feature_map_count) :
    backprop_schedule cfg ie oe nb ws fl ie
        (e * cfg.input_neuron_count + n + f * cfg.input_neuron_count_per_feature_map) =
      fl nb (e * cfg.input_neuron_count + n + f * cfg.input_neuron_count_per_feature_map) ^ 2 *
        (fl oe (e * cfg.input_neuron_count + n +
            f * cfg.input_neuron_count_per_feature_map) *
          (2 * (fl nb (e * cfg.input_neuron_count + n +
              f * cfg.input_neuron_count_per_feature_map) ^ 2 -
            fl nb (e * cfg.input_neuron_count + n +
              f * cfg.input_neuron_count_per_feature_map)) + 1) -
          ((List.range cfg.feature_map_count).map (fun g =>
            fl nb (e * cfg.input_neuron_count + n +
                g * cfg.input_neuron_count_per_feature_map) ^ 2 *
              fl oe (e * cfg.input_neuron_count + n +
                g * cfg.input_neuron_count_per_feature_map))).sum) := by
  have hP : 0 < cfg.input_neuron_count_per_feature_map := by omega
  have hmem : e * cfg.input_neuron_count_per_feature_map + n ∈ ws := by
    rw [hws.mem_iff, List.mem_range]
    have := Nat.mul_le_mul_right cfg.input_neuron_count_per_feature_map (Nat.succ_le_of_lt he)
    rw [Nat.succ_mul] at this
    omega
  have hnd : ws.Nodup := hws.nodup_iff.2 (List.nodup_range _)
  have h := (backprop_schedule_spec cfg ie oe nb hP hFP hnb ws fl hnd).1 _ hmem f hf
  rw [workload_base_of cfg e n hn] at h
  rw [h, backprop_sum_eq]
  simp only [pow_two]

/-- C19: `is_in_place_backprop()` is `true`, and for a configuration whose
neuron count `N` is the feature map count times the neuron count `P` per
feature map (`feature_map_count * P <= N` is what is used), with the output
neurons in a buffer of their own, for every entry, neuron position and
feature map `f` the input error `backprop` leaves is
`y_f^2 * (out_err_f * (2*(y_f^2 - y_f) + 1) - sum over g of y_g^2 * out_err_g)`
on the values before the call, whether `input_errors` is `output_errors` or
not, and whatever the order in which the workloads are taken. -/
theorem c19_backprop_in_place (cfg : softmax_configuration) (ie oe nb : Buf)
    (entry_count : Nat) (fl : Buf → Nat → ℚ) (ws : List Nat)
    (hFP : cfg.feature_map_count * cfg.input_neuron_count_per_feature_map ≤
      cfg.input_neuron_count)
    (hnb : nb ≠ ie)
    (hws : ws.Perm (List.range (entry_count * cfg.input_neuron_count_per_feature_map))) :
    softmax_layer_hessian_plain.is_in_place_backprop = true ∧
    ∀ e n f, e < entry_count → n < cfg.input_neuron_count_per_feature_map →
      f < cfg.feature_map_count →
      softmax_layer_hessian_plain.backprop cfg ie oe nb entry_count fl ie
          (e * cfg.input_neuron_count + n + f * cfg.input_neuron_count_per_feature_map) =
        fl nb (e * cfg.input_neuron_count + n +
            f * cfg.input_neuron_count_per_feature_map) ^ 2 *
          (fl oe (e * cfg.input_neuron_count + n +
              f * cfg.input_neuron_count_per_feature_map) *
            (2 * (fl nb (e * cfg.input_neuron_count + n +
                f * cfg.input_neuron_count_per_feature_map) ^ 2 -
              fl nb (e * cfg.input_neuron_count + n +
                f * cfg.input_neuron_count_per_feature_map)) + 1) -
            ((List.range cfg.feature_map_count).map (fun g =>
              fl nb (e * cfg.input_neuron_count + n +
                  g * cfg.input_neuron_count_per_feature_map) ^ 2 *
                fl oe (e * cfg.input_neuron_count + n +
                  g * cfg.input_neuron_count_per_feature_map))).sum) ∧
      backprop_schedule cfg ie oe nb ws fl ie
          (e * cfg.input_neuron_count + n + f * cfg.input_neuron_count_per_feature_map) =
        softmax_layer_hessian_plain.backprop cfg ie oe nb entry_count fl ie
          (e * cfg.input_neuron_count + n + f * cfg.input_neuron_count_per_feature_map) := by
  refine ⟨rfl, ?_⟩
  intro e n f he hn hf
  have h1 := backprop_schedule_formula cfg ie oe nb entry_count fl _ hFP hnb
    (List.Perm.refl _) e n f he hn hf
  have h2 := backprop_schedule_formula cfg ie oe nb entry_count fl ws hFP hnb hws e n f he hn hf
  refine ⟨h1, ?_⟩
  rw [h2]
  exact h1.symm

/-- Witness for C19: two entries of two feature maps of one neuron, in place
(buffer 2 holds both errors), the workloads taken in decreasing order. -/
theorem c19_backprop_in_place_witness :
    (⟨2, 1, 2⟩ : softmax_configuration).feature_map_count *
        (⟨2, 1, 2⟩ : softmax_configuration).input_neuron_count_per_feature_map ≤
      (⟨2, 1, 2⟩ : softmax_configuration).input_neuron_count ∧
    (3 : Buf) ≠ 2 ∧
    [1, 0].Perm (List.range
      (2 * (⟨2, 1, 2⟩ : softmax_configuration).input_neuron_count_per_feature_map)) ∧
    softmax_layer_hessian_plain.backprop ⟨2, 1, 2⟩ 2 2 3 2 softmax_sample_floats 2 3 = -3 ∧
    (softmax_layer_hessian_plain.is_in_place_backprop = true ∧
    ∀ e n f, e < 2 → n < (⟨2, 1, 2⟩ : softmax_configuration).input_neuron_count_per_feature_map →
      f < (⟨2, 1, 2⟩ : softmax_configuration).feature_map_count →
      softmax_layer_hessian_plain.backprop ⟨2, 1, 2⟩ 2 2 3 2 softmax_sample_floats 2
          (e * (⟨2, 1, 2⟩ : softmax_configuration).input_neuron_count + n +
            f * (⟨2, 1, 2⟩ : softmax_configuration).input_neuron_count_per_feature_map) =
        softmax_sample_floats 3 (e * (⟨2, 1, 2⟩ : softmax_configuration).input_neuron_count + n +
            f * (⟨2, 1, 2⟩ : softmax_configuration).input_neuron_count_per_feature_map) ^ 2 *
          (softmax_sample_floats 2
              (e * (⟨2, 1, 2⟩ : softmax_configuration).input_neuron_count + n +
              f * (⟨2, 1, 2⟩ : softmax_configuration).input_neuron_count_per_feature_map) *
            (2 * (softmax_sample_floats 3
                (e * (⟨2, 1, 2⟩ : softmax_configuration).input_neuron_count + n +
                f * (⟨2, 1, 2⟩ : softmax_configuration).input_neuron_count_per_feature_map) ^ 2 -
              softmax_sample_floats 3
                (e * (⟨2, 1, 2⟩ : softmax_configuration).input_neuron_count + n +
                f * (⟨2, 1, 2⟩ : softmax_configuration).input_neuron_count_per_feature_map)) +
              1) -
            ((List.range (⟨2, 1, 2⟩ : softmax_configuration).feature_map_count).map (fun g =>
              softmax_sample_floats 3
                  (e * (⟨2, 1, 2⟩ : softmax_configuration).input_neuron_count + n +
                  g * (⟨2, 1, 2⟩ : softmax_configuration).input_neuron_count_per_feature_map) ^
                  2 *
                softmax_sample_floats 2
                  (e * (⟨2, 1, 2⟩ : softmax_configuration).input_neuron_count + n +
                  g * (⟨2, 1, 2⟩ : softmax_configuration).input_neuron_count_per_feature_map))).sum) ∧
      backprop_schedule ⟨2, 1, 2⟩ 2 2 3 [1, 0] softmax_sample_floats 2
          (e * (⟨2, 1, 2⟩ : softmax_configuration).input_neuron_count + n +
            f * (⟨2, 1, 2⟩ : softmax_configuration).input_neuron_count_per_feature_map) =
        softmax_layer_hessian_plain.backprop ⟨2, 1, 2⟩ 2 2 3 2 softmax_sample_floats 2
          (e * (⟨2, 1, 2⟩ : softmax_configuration).input_neuron_count + n +
            f * (⟨2, 1, 2⟩ : softmax_configuration).input_neuron_count_per_feature_map)) :=
  ⟨by decide, by decide, List.Perm.swap 0 1 [],
    by
      have hr : List.range 2 = [0, 1] := rfl
      simp [softmax_layer_hessian_plain.backprop, backprop_schedule, backprop_workload,
        workload_base, backprop_write_step, backprop_sum, softmax_sample_floats, write_at, hr]
      norm_num,
    c19_backprop_in_place ⟨2, 1, 2⟩ 2 2 3 2 softmax_sample_floats [1, 0] (by decide)
      (by decide) (List.Perm.swap 0 1 [])⟩

/-! ## Dropout at rate 0 against no dropout -/

theorem machine_eq_of_mem {ω : Type} {m m' : Machine ω} (h : m'.mem = m.mem) :
    m' = { m with draws := m'.draws, trace := m'.trace } := by
  cases m; cases m'
  simp only at h
  subst h
  rfl

theorem foldl_commute {α β : Type} (f : α → β → α) (g : α → α)
    (h : ∀ a x, f (g a) x = g (f a x)) : ∀ (l : List β) (a : α), l.foldl f (g a) = g (l.foldl f a) := by
  intro l
  induction l with
  | nil => intro a; rfl
  | cons x rest ih => intro a; simp only [List.foldl_cons, h, ih]

theorem set_initial_error_with_history {ω : Type} (c : Call) (b : Buffers) (id : Nat)
    (s : State ω) (d : Nat) (t : List Event) :
    set_initial_error (without_dropout c) b id (s.with_history d t) =
      (set_initial_error c b id s).with_history d t :=
  foldl_commute (initial_error_step c b id) (fun s => s.with_history d t)
    (fun _ _ => rfl) _ s

theorem flush_statistics_with_history {ω : Type} (c : Call) (s : State ω) (d : Nat)
    (t : List Event) :
    flush_statistics (without_dropout c) (s.with_history d t) =
      (flush_statistics c s).with_history d t :=
  foldl_commute (flush_step c) (fun s => s.with_history d t) (fun _ _ => rfl) _ s

theorem load_entries_with_history {ω : Type} (c : Call) :
    ∀ (budget count : Nat) (s : State ω) (d : Nat) (t : List Event),
      load_entries (without_dropout c) budget count (s.with_history d t) =
        ((load_entries c budget count s).1, (load_entries c budget count s).2.1,
          (load_entries c budget count s).2.2.with_history d t) := by
  intro budget
  induction budget with
  | zero => intro count s d t; rfl
  | succ n ih =>
    intro count s d t
    have hr : (without_dropout c).reader (s.with_history d t).reads = c.reader s.reads := rfl
    unfold load_entries
    rw [hr]
    cases c.reader s.reads with
    | none => rfl
    | some e =>
      exact ih (count + 1)
        { s with
          reads := s.reads + 1
          input_buf := write_slice s.input_buf (c.input_neuron_count * count)
            c.input_neuron_count e.input
          actual_output_buf := write_slice s.actual_output_buf
            (c.output_neuron_count * count) c.output_neuron_count e.target } d t

theorem run_testers_mem {ω : Type} (K : Kernels ω) (n : Nat) :
    ∀ (ts : List layer_tester_plain) (ps : List (Buf × List Buf)) (pos : Nat)
      (m m' : Machine ω), m'.mem = m.mem →
      (run_testers K n ts ps pos m').mem = (run_testers K n ts ps pos m).mem := by
  intro ts
  induction ts with
  | nil => intro ps pos m m' h; simpa [run_testers] using h
  | cons x xs ih =>
    intro ps pos m m' h
    cases ps with
    | nil => simpa [run_testers] using h
    | cons p ps =>
      simp only [run_testers]
      exact ih ps _ _ _ (by simp [call, h])

/-- The forward pass leaves the same memory with a map of rates 0 as with no
map, when `forward_dropout` at rate 0 leaves memory as it is. -/
theorem forward_updater_without_dropout {ω : Type} (K : Kernels ω) (c : Call) (b : Buffers)
    (id : Nat)
    (h0 : ∀ l rate, find_rate c.layer_to_dropout_rate_map l = some rate → rate = 0)
    (hf : ∀ a mem, a.rate = 0 → K.run (.forward_dropout a) mem = mem) :
    ∀ (xs : List layer_updater_plain) (ps : List (Buf × updater_additional_buffer_set))
      (j l : Nat) (st st' : List Nat) (m m' : Machine ω), m'.mem = m.mem →
      (forward_updater K (without_dropout c) b id xs ps j l st' m').2.mem =
        (forward_updater K c b id xs ps j l st m).2.mem := by
  intro xs
  induction xs with
  | nil => intro ps j l st st' m m' h; simpa [forward_updater] using h
  | cons x xs ih =>
    intro ps j l st st' m m' h
    cases ps with
    | nil => simpa [forward_updater] using h
    | cons p ps =>
      have hnone : find_rate (without_dropout c).layer_to_dropout_rate_map l = none := rfl
      have hcall : updater_test_call (without_dropout c) x p j l id =
          updater_test_call c x p j l id := rfl
      simp only [forward_updater, hnone, ite_self, hcall]
      by_cases hj : j = 0
      · simp only [hj, ne_eq, not_true_eq_false, if_false]
        exact ih ps _ _ _ _ _ _ (by simp [call, h])
      · cases hr : find_rate c.layer_to_dropout_rate_map l with
        | none =>
          simp only [hj, ne_eq, not_false_eq_true, if_true]
          exact ih ps _ _ _ _ _ _ (by simp [call, h])
        | some rate =>
          have hz := h0 l rate hr
          simp only [hj, ne_eq, not_false_eq_true, if_true]
          exact ih ps _ _ _ _ _ _ (by
            simp only [call, forward_dropout_call]
            rw [hf _ _ hz, h])

/-- The backward pass leaves the same memory with a map of rates 0 as with
no map, when `backward_dropout` at rate 0 leaves memory as it is. -/
theorem backward_updater_without_dropout {ω : Type} (K : Kernels ω)
    (u : network_updater_plain) (c : Call) (b : Buffers) (id : Nat)
    (h0 : ∀ l rate, find_rate c.layer_to_dropout_rate_map l = some rate → rate = 0)
    (hb : ∀ a mem, a.rate = 0 → K.run (.backward_dropout a) mem = mem) :
    ∀ (xs : List layer_updater_plain) (ps : List (Buf × updater_additional_buffer_set))
      (k oe rid : Nat) (st st' : List Nat) (m m' : Machine ω) (r : List Nat × Machine ω),
      m'.mem = m.mem →
      backward_updater K u c b id xs ps k oe rid st m = some r →
      ∃ r', backward_updater K u (without_dropout c) b id xs ps k oe rid st' m' = some r' ∧
        r'.2.mem = r.2.mem := by
  intro xs
  induction xs with
  | nil =>
    intro ps k oe rid st st' m m' r h hr
    simp only [backward_updater, Option.some.injEq] at hr
    subst hr
    exact ⟨(st', m'), by simp [backward_updater], h⟩
  | cons x xs ih =>
    intro ps k oe rid st st' m m' r h hr
    cases ps with
    | nil =>
      simp only [backward_updater, Option.some.injEq] at hr
      subst hr
      exact ⟨(st', m'), by simp [backward_updater], h⟩
    | cons p ps =>
      have hnone : find_rate (without_dropout c).layer_to_dropout_rate_map rid = none := rfl
      have hbp : backprop_call (without_dropout c) x p (reverse_positions u (without_dropout c) k)
          oe = backprop_call c x p (reverse_positions u c k) oe := rfl
      have huw : ∀ last, update_weights_call (without_dropout c) x p
          (reverse_positions u (without_dropout c) k) oe last id =
            update_weights_call c x p (reverse_positions u c k) oe last id := fun _ => rfl
      cases hx : xs.isEmpty with
      | true =>
        simp only [backward_updater, hx, Bool.not_true, Bool.false_eq_true, if_false] at hr ⊢
        rw [huw]
        exact ih ps _ _ _ _ _ _ _ r (by simp [call, h]) hr
      | false =>
        cases hrate : find_rate c.layer_to_dropout_rate_map rid with
        | none =>
          simp only [backward_updater, hx, Bool.not_false, if_true, hrate, hnone] at hr ⊢
          rw [huw, hbp]
          exact ih ps _ _ _ _ _ _ _ r (by simp [call, h]) hr
        | some rate =>
          have hz := h0 rid rate hrate
          cases st with
          | nil => simp [backward_updater, hx, hrate] at hr
          | cons offset rest =>
            simp only [backward_updater, hx, Bool.not_false, if_true, hrate, hnone] at hr ⊢
            rw [huw, hbp]
            exact ih ps _ _ _ _ _ _ _ r (by
              simp only [call, backward_dropout_call]
              rw [hb _ _ hz, h]) hr

theorem state_with_machine {ω : Type} (s : State ω) (d : Nat) (t : List Event)
    (m m' : Machine ω) (hm : m'.mem = m.mem) :
    ({ s.with_history d t with machine := m' } : State ω) =
      ({ s with machine := m } : State ω).with_history m'.draws m'.trace := by
  cases m; cases m'
  simp only at hm
  subst hm
  rfl

theorem entry_state_with_history {ω : Type} (c : Call) (b : Buffers) (first id : Nat)
    (s : State ω) (d : Nat) (t : List Event) (m m' : Machine ω) (hm : m'.mem = m.mem) :
    set_initial_error (without_dropout c) b id
        { s.with_history d t with
          machine := m'
          entry_log := (s.with_history d t).entry_log ++
            [{ stream_index := first + id, predicted := m'.mem.floats b.output_buffer }] } =
      (set_initial_error c b id
        { s with
          machine := m
          entry_log := s.entry_log ++
            [{ stream_index := first + id,
               predicted := m.mem.floats b.output_buffer }] }).with_history m'.draws m'.trace := by
  obtain ⟨mm, dm, tm⟩ := m
  obtain ⟨mm', dm', tm'⟩ := m'
  simp only at hm
  subst hm
  exact set_initial_error_with_history c b id
    { s with
      machine := ⟨_, dm, tm⟩
      entry_log := s.entry_log ++
        [{ stream_index := first + id, predicted := _ }] } dm' tm'

/-- One iteration of the per-entry loop with a map of rates 0 and with no
map: the same state up to the offsets drawn and the trace. -/
theorem process_entry_without_dropout {ω : Type} (K : Kernels ω) (u : network_updater_plain)
    (c : Call) (b : Buffers) (first id : Nat)
    (h0 : ∀ l rate, find_rate c.layer_to_dropout_rate_map l = some rate → rate = 0)
    (hf : ∀ a mem, a.rate = 0 → K.run (.forward_dropout a) mem = mem)
    (hb : ∀ a mem, a.rate = 0 → K.run (.backward_dropout a) mem = mem)
    (s : State ω) (d : Nat) (t : List Event) (r : State ω)
    (h : process_entry K u c b first id s = some r) :
    ∃ d' t', process_entry K u (without_dropout c) b first id (s.with_history d t) =
      some (r.with_history d' t') := by
  have hF := forward_updater_without_dropout K c b id h0 hf u.updater_list b.updater_pack 0
    u.testing_layer_count [] [] s.machine (s.with_history d t).machine rfl
  have hfe : (forward_and_error K u (without_dropout c) b first id (s.with_history d t)).2 =
      (forward_and_error K u c b first id s).2.with_history
        (forward_updater K (without_dropout c) b id u.updater_list b.updater_pack 0
          u.testing_layer_count [] (s.with_history d t).machine).2.draws
        (forward_updater K (without_dropout c) b id u.updater_list b.updater_pack 0
          u.testing_layer_count [] (s.with_history d t).machine).2.trace := by
    simp only [forward_and_error]
    exact entry_state_with_history c b first id s d t _ _ hF
  simp only [process_entry, process_entry_stack, Option.map_eq_some'] at h
  obtain ⟨pr, hpr, rfl⟩ := h
  cases hbk : backward_updater K u c b id u.updater_list.reverse b.updater_pack.reverse 0
      initial_error_buf (u.updater_list.length + u.testing_layer_count - 1)
      (forward_and_error K u c b first id s).1
      (forward_and_error K u c b first id s).2.machine with
  | none => simp [hbk] at hpr
  | some rb =>
    simp only [hbk, Option.some.injEq] at hpr
    subst hpr
    obtain ⟨rb', hb1, hb2⟩ := backward_updater_without_dropout K u c b id h0 hb
      u.updater_list.reverse b.updater_pack.reverse 0 initial_error_buf
      (u.updater_list.length + u.testing_layer_count - 1)
      (forward_and_error K u c b first id s).1
      (forward_and_error K u (without_dropout c) b first id (s.with_history d t)).1
      (forward_and_error K u c b first id s).2.machine
      (forward_and_error K u (without_dropout c) b first id (s.with_history d t)).2.machine rb
      (by rw [hfe]; rfl) hbk
    refine ⟨rb'.2.draws, rb'.2.trace, ?_⟩
    simp only [process_entry, process_entry_stack, hb1, Option.map_some']
    rw [hfe]
    exact congrArg some (state_with_machine (forward_and_error K u c b first id s).2 _ _
      rb.2 rb'.2 hb2)

theorem process_entries_without_dropout {ω : Type} (K : Kernels ω)
    (u : network_updater_plain) (c : Call) (b : Buffers) (first : Nat)
    (h0 : ∀ l rate, find_rate c.layer_to_dropout_rate_map l = some rate → rate = 0)
    (hf : ∀ a mem, a.rate = 0 → K.run (.forward_dropout a) mem = mem)
    (hb : ∀ a mem, a.rate = 0 → K.run (.backward_dropout a) mem = mem) :
    ∀ (n id : Nat) (s : State ω) (d : Nat) (t : List Event) (r : State ω),
      process_entries K u c b first n id s = some r →
      ∃ d' t', process_entries K u (without_dropout c) b first n id (s.with_history d t) =
        some (r.with_history d' t') := by
  intro n
  induction n with
  | zero =>
    intro id s d t r h
    simp only [process_entries, Option.some.injEq] at h
    subst h
    exact ⟨d, t, rfl⟩
  | succ n ih =>
    intro id s d t r h
    simp only [process_entries] at h
    cases hp : process_entry K u c b first id s with
    | none => simp [hp] at h
    | some s1 =>
      simp only [hp] at h
      obtain ⟨d1, t1, h1⟩ := process_entry_without_dropout K u c b first id h0 hf hb s d t s1 hp
      obtain ⟨d2, t2, h2⟩ := ih (id + 1) s1 d1 t1 r h
      exact ⟨d2, t2, by simp only [process_entries, h1, h2]⟩

theorem convert_feature_maps_without_dropout (u : network_updater_plain) (c : Call)
    (ib : Nat → Nat) :
    ∀ (remaining feature_map_id out_it in_it : Nat),
      convert_feature_maps u (without_dropout c) ib remaining feature_map_id out_it in_it =
        convert_feature_maps u c ib remaining feature_map_id out_it in_it := by
  intro remaining
  induction remaining with
  | zero => intro _ _ _; rfl
  | succ n ih =>
    intro f o i
    simp only [convert_feature_maps, ih]
    rfl

theorem convert_entries_without_dropout (u : network_updater_plain) (c : Call)
    (ib : Nat → Nat) :
    ∀ (remaining i : Nat),
      convert_entries u (without_dropout c) ib remaining i =
        convert_entries u c ib remaining i := by
  intro remaining
  induction remaining with
  | zero => intro _; rfl
  | succ n ih =>
    intro i
    simp only [convert_entries, ih, convert_feature_maps_without_dropout]
    rfl

theorem process_batch_without_dropout {ω : Type} (K : Kernels ω) (u : network_updater_plain)
    (c : Call) (b : Buffers) (first n : Nat) (flag0 flag : Bool)
    (h0 : ∀ l rate, find_rate c.layer_to_dropout_rate_map l = some rate → rate = 0)
    (hf : ∀ a mem, a.rate = 0 → K.run (.forward_dropout a) mem = mem)
    (hb : ∀ a mem, a.rate = 0 → K.run (.backward_dropout a) mem = mem)
    (s : State ω) (d : Nat) (t : List Event) (r : State ω)
    (h : process_batch K u c b first n flag0 s = some (flag, r)) :
    ∃ d' t', process_batch K u (without_dropout c) b first n flag0 (s.with_history d t) =
      some (flag, r.with_history d' t') := by
  have hm3 := run_testers_mem K n u.tester_list b.testing_pack 0
    { s.machine with mem := convert_input u c n s.input_buf s.machine.mem }
    { (s.with_history d t).machine with
      mem := convert_input u (without_dropout c) n (s.with_history d t).input_buf
        (s.with_history d t).machine.mem }
    (by simp only [convert_input, convert_entries_without_dropout]; rfl)
  have hstart := state_with_machine ({ s with batch_log := s.batch_log ++ [n] } : State ω) d t
    _ _ hm3
  simp only [process_batch] at h
  cases hp : process_entries K u c b first n 0
      { s with
        batch_log := s.batch_log ++ [n]
        machine := run_testers K n u.tester_list b.testing_pack 0
          { s.machine with mem := convert_input u c n s.input_buf s.machine.mem } } with
  | none => simp [hp] at h
  | some s4 =>
    obtain ⟨d4, t4, h4⟩ := process_entries_without_dropout K u c b first h0 hf hb n 0 _ _ _ s4 hp
    have h4' : process_entries K u (without_dropout c) b first n 0
        { (s.with_history d t) with
          batch_log := (s.with_history d t).batch_log ++ [n]
          machine := run_testers K n u.tester_list b.testing_pack 0
            { (s.with_history d t).machine with
              mem := convert_input u (without_dropout c) n (s.with_history d t).input_buf
                (s.with_history d t).machine.mem } } = some (s4.with_history d4 t4) := by
      rw [← h4]
      exact congrArg _ hstart
    refine ⟨d4, t4, ?_⟩
    simp only [hp] at h
    simp only [process_batch, h4', flush_statistics_with_history]
    by_cases hpm : u.profile_mode = true
    · simp only [hpm, if_true, Option.some.injEq, Prod.mk.injEq] at h ⊢
      obtain ⟨h1, h2⟩ := h
      subst h2
      exact ⟨h1, rfl⟩
    · simp only [hpm, Bool.false_eq_true, if_false, Option.some.injEq, Prod.mk.injEq] at h ⊢
      obtain ⟨h1, h2⟩ := h
      subst h2
      exact ⟨h1, rfl⟩

theorem macro_batch_without_dropout {ω : Type} (K : Kernels ω) (u : network_updater_plain)
    (c : Call) (b : Buffers) (flag : Bool)
    (h0 : ∀ l rate, find_rate c.layer_to_dropout_rate_map l = some rate → rate = 0)
    (hf : ∀ a mem, a.rate = 0 → K.run (.forward_dropout a) mem = mem)
    (hb : ∀ a mem, a.rate = 0 → K.run (.backward_dropout a) mem = mem)
    (s : State ω) (d : Nat) (t : List Event) (r : State ω)
    (h : macro_batch K u c b s = some (flag, r)) :
    ∃ d' t', macro_batch K u (without_dropout c) b (s.with_history d t) =
      some (flag, r.with_history d' t') := by
  simp only [macro_batch] at h ⊢
  rw [load_entries_with_history]
  simp only []
  by_cases hz : (load_entries c b.max_entry_count 0 s).2.1 = 0
  · simp only [hz, if_true, Option.some.injEq, Prod.mk.injEq] at h ⊢
    obtain ⟨h1, h2⟩ := h
    subst h2
    exact ⟨d, t, h1, rfl⟩
  · simp only [hz, if_false] at h ⊢
    exact process_batch_without_dropout K u c b _ _ _ _ h0 hf hb _ d t r h

/-- The main loop with a map of rates 0 and with no map: the same outcome up
to the offsets drawn and the trace. -/
theorem update_loop_without_dropout {ω : Type} (K : Kernels ω) (u : network_updater_plain)
    (c : Call)
    (h0 : ∀ l rate, find_rate c.layer_to_dropout_rate_map l = some rate → rate = 0)
    (hf : ∀ a mem, a.rate = 0 → K.run (.forward_dropout a) mem = mem)
    (hb : ∀ a mem, a.rate = 0 → K.run (.backward_dropout a) mem = mem) :
    ∀ (fuel : Nat) (s : State ω) (d : Nat) (t : List Event),
      SameUpToHistory (update_loop K u c (allocate_buffers K u c) fuel s)
        (update_loop K u (without_dropout c) (allocate_buffers K u c) fuel
          (s.with_history d t)) := by
  intro fuel
  induction fuel with
  | zero => intro s d t; exact ⟨d, t, rfl⟩
  | succ fuel ih =>
    intro s d t
    obtain ⟨k, hk, hsome, hnone⟩ := exists_load_count c s.reads (max_entry_count c)
    obtain ⟨w, m1, _⟩ := macro_batch_spec K u c s k hk hsome hnone
    obtain ⟨d1, t1, m2⟩ := macro_batch_without_dropout K u c (allocate_buffers K u c) _ h0 hf hb
      s d t w m1
    cases hflag : (if k = 0 then false else if u.profile_mode = true then false
        else decide (k = max_entry_count c)) with
    | false =>
      rw [hflag] at m1 m2
      simp only [update_loop, m1, m2]
      exact ⟨d1, t1, rfl⟩
    | true =>
      rw [hflag] at m1 m2
      simp only [update_loop, m1, m2]
      exact ih w d1 t1

theorem find_rate_zero_of_all_zero (m : List (Nat × ℚ)) (h : ∀ p, p ∈ m → p.2 = 0) :
    ∀ l rate, find_rate m l = some rate → rate = 0 := by
  induction m with
  | nil => intro l rate hr; simp [find_rate] at hr
  | cons p rest ih =>
    intro l rate hr
    simp only [find_rate] at hr
    split at hr
    · simp only [Option.some.injEq] at hr
      rw [← hr]
      exact h p (List.mem_cons_self _ _)
    · exact ih (fun q hq => h q (List.mem_cons_of_mem _ hq)) l rate hr

theorem actual_update_without_dropout {ω : Type} (K : Kernels ω) (u : network_updater_plain)
    (c : Call) (fuel : Nat) (mem : Memory ω) (ecu : Nat)
    (hcheck : dropout_check u.testing_layer_count c.layer_to_dropout_rate_map = none)
    (hzero : ∀ p, p ∈ c.layer_to_dropout_rate_map → p.2 = 0)
    (hf : ∀ a mem, a.rate = 0 → K.run (.forward_dropout a) mem = mem)
    (hb : ∀ a mem, a.rate = 0 → K.run (.backward_dropout a) mem = mem) :
    SameUpToHistory (actual_update K u c fuel mem ecu)
      (actual_update K u (without_dropout c) fuel mem ecu) := by
  have hcheck' : dropout_check u.testing_layer_count
      (without_dropout c).layer_to_dropout_rate_map = none := rfl
  simp only [actual_update, hcheck, hcheck']
  by_cases hc : c.updater_entry_count = 0
  · have hc' : (without_dropout c).updater_entry_count = 0 := hc
    simp only [hc, hc', if_true]
    exact ⟨0, [], rfl⟩
  · have hc' : ¬ (without_dropout c).updater_entry_count = 0 := hc
    have e1 : (without_dropout c).data_list = c.data_list := rfl
    have e2 : (without_dropout c).training_speed_vector_list = c.training_speed_vector_list :=
      rfl
    simp only [hc, hc', if_false]
    rw [e1, e2]
    cases data_list_reorganized c.data_list u.testing_layer_count with
    | none => exact rfl
    | some rows =>
      cases training_speed_vector_list_reorganized c.data_list c.training_speed_vector_list
          u.testing_layer_count with
      | none => exact rfl
      | some speeds =>
        by_cases he : u.updater_list.isEmpty = true
        · simp only [he, if_true]
          exact rfl
        · simp only [he, if_false, Bool.false_eq_true]
          exact update_loop_without_dropout K u c (find_rate_zero_of_all_zero _ hzero) hf hb
            fuel (State.at_loop_entry c mem ecu) 0 []

/-- C12 fails as stated: on the topology of `sample_updater`, whose first
layer owns no weight data, the map that gives rate 0 to each of the four
layers makes `actual_update` throw at layer 0, while with an empty map the
same call returns; the units of `idle_kernels` leave memory alone in every
call. -/
theorem c12_rate_zero_on_every_layer_throws :
    (∀ ev mem, idle_kernels.run ev mem = mem) ∧
    actual_update idle_kernels (sample_updater false)
        (sample_call 3 1 1 2 [(0, 0), (1, 0), (2, 0), (3, 0)]) 4 zero_memory 0 =
      .threw (dropout_error 0) (State.initial zero_memory 0) ∧
    (actual_update idle_kernels (sample_updater false) (sample_call 3 1 1 2 []) 4
      zero_memory 0).results.isSome = true := by
  refine ⟨fun _ _ => rfl, ?_, ?_⟩
  · simp [actual_update, sample_call, sample_updater, network_updater_plain.new, find_start,
      dropout_check]
  · decide

/-- C12 as amended: for a dropout map that holds only rates 0 and only
layers above `testing_layer_count` (so that the check of lines 74-77 lets it
pass), and units whose `forward_dropout` and `backward_dropout` at rate 0
leave memory as it is, a run of `actual_update` returns exactly when the run
with an empty map does, with the same returned results and the same final
memory, weight data included; a run cut off earlier has the same results
and memory so far. -/
theorem c12_rate_zero_map_equals_empty_map {ω : Type} (K : Kernels ω)
    (u : network_updater_plain) (c : Call) (fuel : Nat) (mem : Memory ω) (ecu : Nat)
    (hcheck : dropout_check u.testing_layer_count c.layer_to_dropout_rate_map = none)
    (hzero : ∀ p, p ∈ c.layer_to_dropout_rate_map → p.2 = 0)
    (hf : ∀ a mem, a.rate = 0 → K.run (.forward_dropout a) mem = mem)
    (hb : ∀ a mem, a.rate = 0 → K.run (.backward_dropout a) mem = mem) :
    (actual_update K u c fuel mem ecu).results =
      (actual_update K u (without_dropout c) fuel mem ecu).results ∧
    (actual_update K u c fuel mem ecu).last_state.map (fun s => (s.res, s.machine.mem)) =
      (actual_update K u (without_dropout c) fuel mem ecu).last_state.map
        (fun s => (s.res, s.machine.mem)) := by
  have h := actual_update_without_dropout K u c fuel mem ecu hcheck hzero hf hb
  cases ho : actual_update K u c fuel mem ecu with
  | returned res final =>
    rw [ho] at h
    obtain ⟨d, t, h'⟩ := h
    rw [h']
    exact ⟨rfl, rfl⟩
  | threw e final =>
    rw [ho] at h
    obtain ⟨d, t, h'⟩ := h
    rw [h']
    exact ⟨rfl, rfl⟩
  | undefined_behaviour =>
    rw [ho] at h
    have h' : actual_update K u (without_dropout c) fuel mem ecu = .undefined_behaviour := h
    rw [h']
    exact ⟨rfl, rfl⟩
  | out_of_fuel last =>
    rw [ho] at h
    obtain ⟨d, t, h'⟩ := h
    rw [h']
    exact ⟨rfl, rfl⟩

/-- Witness for C12: rate 0 at layers 2 and 3 of the topology of
`sample_updater`, on a stream of three entries; the run returns. -/
theorem c12_rate_zero_map_equals_empty_map_witness :
    dropout_check (sample_updater false).testing_layer_count
      (sample_call 3 1 1 2 [(2, 0), (3, 0)]).layer_to_dropout_rate_map = none ∧
    (∀ p, p ∈ (sample_call 3 1 1 2 [(2, 0), (3, 0)]).layer_to_dropout_rate_map → p.2 = 0) ∧
    (∀ (a : dropout_args) (mem : Memory Unit),
      a.rate = 0 → idle_kernels.run (.forward_dropout a) mem = mem) ∧
    (∀ (a : dropout_args) (mem : Memory Unit),
      a.rate = 0 → idle_kernels.run (.backward_dropout a) mem = mem) ∧
    (actual_update idle_kernels (sample_updater false) (sample_call 3 1 1 2 [(2, 0), (3, 0)]) 4
      zero_memory 0).results.isSome = true ∧
    ((actual_update idle_kernels (sample_updater false) (sample_call 3 1 1 2 [(2, 0), (3, 0)]) 4
        zero_memory 0).results =
      (actual_update idle_kernels (sample_updater false)
        (without_dropout (sample_call 3 1 1 2 [(2, 0), (3, 0)])) 4 zero_memory 0).results ∧
    (actual_update idle_kernels (sample_updater false) (sample_call 3 1 1 2 [(2, 0), (3, 0)]) 4
        zero_memory 0).last_state.map (fun s => (s.res, s.machine.mem)) =
      (actual_update idle_kernels (sample_updater false)
        (without_dropout (sample_call 3 1 1 2 [(2, 0), (3, 0)])) 4 zero_memory 0).last_state.map
        (fun s => (s.res, s.machine.mem))) :=
  ⟨by decide, by simp [sample_call], fun _ _ _ => rfl, fun _ _ _ => rfl, by decide,
    c12_rate_zero_map_equals_empty_map idle_kernels (sample_updater false)
      (sample_call 3 1 1 2 [(2, 0), (3, 0)]) 4 zero_memory 0 (by decide)
      (by simp [sample_call]) (fun _ _ _ => rfl) (fun _ _ _ => rfl)⟩

/-! ## The configuration handed to the dropout calls -/

/-- On the four-layer topology of `sample_updater` with dropout at layer 2
and a stream of one entry, `forward_dropout` is handed the configuration at
position 2, the input configuration of layer 2, and `backward_dropout` for
the same layer the configuration at position 3, its output configuration:
in the backward loop `*input_config_it` is the output configuration of the
layer (lines 325-326 pass `*(input_config_it + 1)` as the input one). -/
theorem backward_dropout_handed_output_configuration :
    (actual_update idle_kernels (sample_updater false) (sample_call 1 1 1 2 [(2, 1 / 2)]) 3
      zero_memory 0).returned_state.map (fun s =>
        (forward_dropout_configs s.machine.trace, backward_dropout_configs s.machine.trace)) =
      some ([(2, 2)], [(2, 3)]) := by
  decide

/-! ## The layers handed to `update_buffer_configuration` -/

theorem updater_configuration_uses_append (a b : List ConfigurationCall) :
    updater_configuration_uses (a ++ b) =
      updater_configuration_uses a ++ updater_configuration_uses b := by
  induction a with
  | nil => rfl
  | cons e rest ih => cases e <;> simp [updater_configuration_uses, ih]

theorem updater_configuration_uses_tester (ts : List layer_tester_plain) :
    ∀ pos, updater_configuration_uses (tester_configuration_calls ts pos) = [] := by
  induction ts with
  | nil => intro _; rfl
  | cons t ts ih => intro pos; simp [tester_configuration_calls, updater_configuration_uses, ih]

/-- The loop over the updater units hands unit `j` the layer and the
configurations at `pos + j`, whatever the entry-count argument. -/
theorem updater_configuration_uses_at (n : Option Nat) :
    ∀ (xs : List layer_updater_plain) (pos : Nat) (first : Bool) (j : Nat)
      (x : layer_updater_plain), xs[j]? = some x →
      (updater_configuration_uses (updater_configuration_calls n xs pos first))[j]? =
        some (x, pos + j, pos + j, pos + j + 1, if j = 0 then !first else true) := by
  intro xs
  induction xs with
  | nil => intro pos first j x h; simp at h
  | cons y ys ih =>
    intro pos first j x h
    cases j with
    | zero =>
      simp only [List.getElem?_cons_zero, Option.some.injEq] at h
      subst h
      simp [updater_configuration_calls, updater_configuration_uses]
    | succ j =>
      simp only [List.getElem?_cons_succ] at h
      simp only [updater_configuration_calls, updater_configuration_uses,
        List.getElem?_cons_succ]
      rw [ih (pos + 1) false j x h]
      simp only [Option.some.injEq, Prod.mk.injEq, true_and]
      refine ⟨by omega, by omega, by omega, ?_⟩
      cases j <;> simp

/-- Unit `j` of `updater_list` is handed layer `j` by `get_max_batch_size`
and layer `tester_list.size() + j` by `update_buffers_configuration`; the
two agree exactly when there is no tester unit. -/
theorem configuration_positions (u : network_updater_plain) (entry_count j : Nat)
    (x : layer_updater_plain) (h : u.updater_list[j]? = some x) :
    (updater_configuration_uses u.get_max_batch_size_calls)[j]? =
      some (x, j, j, j + 1, decide (j ≠ 0)) ∧
    (updater_configuration_uses (u.update_buffers_configuration entry_count))[j]? =
      some (x, u.tester_list.length + j, u.tester_list.length + j,
        u.tester_list.length + j + 1, decide (j ≠ 0)) := by
  constructor
  · rw [network_updater_plain.get_max_batch_size_calls,
      updater_configuration_uses_at none u.updater_list 0 true j x h]
    cases j <;> simp
  · rw [network_updater_plain.update_buffers_configuration, updater_configuration_uses_append,
      updater_configuration_uses_tester, List.nil_append,
      updater_configuration_uses_at _ u.updater_list _ true j x h]
    cases j <;> simp

/-- C21, at the failing input: for the topology of `sample_updater`, one
weightless layer followed by three updater layers
(`testing_layer_count = 1`), `get_max_batch_size` hands the three updater
units the layers 0, 1, 2 with the configurations (0, 1), (1, 2), (2, 3),
while `update_buffers_configuration` hands them their own layers 1, 2, 3
with the configurations (1, 2), (2, 3), (3, 4). -/
theorem c21_get_max_batch_size_starts_at_first_layer :
    (sample_updater false).testing_layer_count = 1 ∧
    updater_configuration_uses (sample_updater false).get_max_batch_size_calls =
      [(get_updater_plain_layer 1, 0, 0, 1, false),
       (get_updater_plain_layer 2, 1, 1, 2, true),
       (get_updater_plain_layer 3, 2, 2, 3, true)] ∧
    updater_configuration_uses ((sample_updater false).update_buffers_configuration 1) =
      [(get_updater_plain_layer 1, 1, 1, 2, false),
       (get_updater_plain_layer 2, 2, 2, 3, true),
       (get_updater_plain_layer 3, 3, 3, 4, true)] := by
  decide

/-! ## The chaining pass of lines 160-169 and the errors handed backwards -/

theorem nearest_errors_append (a b : List (Buf × updater_additional_buffer_set)) (fb : Buf) :
    nearest_errors (a ++ b) fb = nearest_errors a (nearest_errors b fb) := by
  induction a with
  | nil => rfl
  | cons q rest ih =>
    show nearest_errors (q :: (rest ++ b)) fb = _
    simp only [nearest_errors, ih]

theorem nearest_errors_ne_zero (a : List (Buf × updater_additional_buffer_set)) (fb : Buf)
    (h : fb ≠ 0) : nearest_errors a fb ≠ 0 := by
  induction a with
  | nil => exact h
  | cons q rest ih =>
    simp only [nearest_errors]
    split
    · assumption
    · exact ih

/-- The chaining pass on the pack in reverse order: every entry but the last
(the one of the first updater unit) keeps its own input-errors buffer if it
has one and otherwise gets the nearest one among the entries before it, or
the starting `output_errors`; nothing else changes. -/
theorem chain_input_errors_spec :
    ∀ (l : List (Buf × updater_additional_buffer_set)) (oe : Buf) (i : Nat)
      (p : Buf × updater_additional_buffer_set), l[i]? = some p →
      (chain_input_errors l oe)[i]? =
        some (if i + 1 < l.length then
          (p.1, { p.2 with
            input_errors_buffer :=
              if p.2.input_errors_buffer ≠ 0 then p.2.input_errors_buffer
              else nearest_errors (l.take i).reverse oe })
          else p) := by
  intro l
  induction l with
  | nil => intro oe i p h; simp at h
  | cons a rest ih =>
    intro oe i p h
    cases rest with
    | nil =>
      cases i with
      | zero =>
        simp only [List.getElem?_cons_zero, Option.some.injEq] at h
        subst h
        simp [chain_input_errors]
      | succ i => simp at h
    | cons q rest =>
      cases i with
      | zero =>
        simp only [List.getElem?_cons_zero, Option.some.injEq] at h
        subst h
        simp only [chain_input_errors]
        split <;> simp_all [nearest_errors]
      | succ i =>
        simp only [List.getElem?_cons_succ] at h
        have hnear : nearest_errors ((a :: q :: rest).take (i + 1)).reverse oe =
            nearest_errors ((q :: rest).take i).reverse
              (if a.2.input_errors_buffer ≠ 0 then a.2.input_errors_buffer else oe) := by
          rw [List.take_succ_cons, List.reverse_cons, nearest_errors_append]
          simp only [nearest_errors]
        simp only [chain_input_errors]
        split
        · rename_i ha
          simp only [List.getElem?_cons_succ]
          rw [ih _ i p h, hnear]
          simp [ha]
        · rename_i ha
          simp only [List.getElem?_cons_succ]
          rw [ih _ i p h, hnear]
          simp [ha]

theorem lt_length_of_getElem? {α : Type} {l : List α} {i : Nat} {a : α} (h : l[i]? = some a) :
    i < l.length := by
  obtain ⟨h1, _⟩ := List.getElem?_eq_some.1 h
  exact h1

/-- The chaining pass in the order of the updater units: the entry of every
unit but the first keeps its own input-errors buffer if it has one and
otherwise gets that of the nearest following entry that has one, or the
starting `output_errors`. -/
theorem chained_pack_at (raw : List (Buf × updater_additional_buffer_set)) (oe : Buf)
    (j : Nat) (p : Buf × updater_additional_buffer_set) (h : raw[j]? = some p) :
    ((chain_input_errors raw.reverse oe).reverse)[j]? =
      some (if 1 ≤ j then
        (p.1, { p.2 with
          input_errors_buffer :=
            if p.2.input_errors_buffer ≠ 0 then p.2.input_errors_buffer
            else nearest_errors (raw.drop (j + 1)) oe })
        else p) := by
  have hj := lt_length_of_getElem? h
  have hlen : (chain_input_errors raw.reverse oe).length = raw.length := by
    rw [chain_input_errors_length, List.length_reverse]
  have hrev : raw.reverse[raw.length - 1 - j]? = some p := by
    rw [List.getElem?_reverse (by omega)]
    rw [show raw.length - 1 - (raw.length - 1 - j) = j by omega]
    exact h
  rw [List.getElem?_reverse (by omega), hlen,
    chain_input_errors_spec raw.reverse oe (raw.length - 1 - j) p hrev, List.reverse_take,
    List.reverse_reverse, List.length_reverse]
  rw [show raw.length - (raw.length - 1 - j) = j + 1 by omega]
  by_cases h1 : 1 ≤ j
  · have h2 : raw.length - 1 - j + 1 < raw.length := by omega
    simp only [h1, h2, if_true]
  · have h2 : ¬ raw.length - 1 - j + 1 < raw.length := by omega
    simp only [h1, h2, if_false]

theorem update_weights_errors_append (a b : List Event) :
    update_weights_errors (a ++ b) = update_weights_errors a ++ update_weights_errors b := by
  induction a with
  | nil => rfl
  | cons e rest ih => cases e <;> simp [update_weights_errors, ih]

theorem backprop_errors_append (a b : List Event) :
    backprop_errors (a ++ b) = backprop_errors a ++ backprop_errors b := by
  induction a with
  | nil => rfl
  | cons e rest ih => cases e <;> simp [backprop_errors, ih]

/-- The forward pass calls neither `backprop` nor `update_weights`. -/
theorem forward_updater_errors {ω : Type} (K : Kernels ω) (c : Call) (b : Buffers) (id : Nat) :
    ∀ (xs : List layer_updater_plain) (ps : List (Buf × updater_additional_buffer_set))
      (j layer_id : Nat) (st : List Nat) (m : Machine ω),
      ∃ evs, (forward_updater K c b id xs ps j layer_id st m).2.trace = m.trace ++ evs ∧
        update_weights_errors evs = [] ∧ backprop_errors evs = [] := by
  intro xs
  induction xs with
  | nil => intro ps j l st m; exact ⟨[], by simp [forward_updater], rfl, rfl⟩
  | cons x xs ih =>
    intro ps j l st m
    cases ps with
    | nil => exact ⟨[], by simp [forward_updater], rfl, rfl⟩
    | cons p ps =>
      simp only [forward_updater]
      by_cases hj : j = 0
      · obtain ⟨evs, h1, h3, h4⟩ := ih ps (j + 1) (l + 1) st
          (call K (updater_test_call c x p j l id) m)
        refine ⟨updater_test_call c x p j l id :: evs, ?_, ?_, ?_⟩
        · simp only [hj, ne_eq, not_true_eq_false, if_false] at h1 ⊢
          rw [h1]; simp [call]
        · simpa [update_weights_errors, updater_test_call] using h3
        · simpa [backprop_errors, updater_test_call] using h4
      · cases hr : find_rate c.layer_to_dropout_rate_map l with
        | none =>
          obtain ⟨evs, h1, h3, h4⟩ := ih ps (j + 1) (l + 1) st
            (call K (updater_test_call c x p j l id) m)
          refine ⟨updater_test_call c x p j l id :: evs, ?_, ?_, ?_⟩
          · simp only [hj, ne_eq, not_false_eq_true, if_true]
            rw [h1]; simp [call]
          · simpa [update_weights_errors, updater_test_call] using h3
          · simpa [backprop_errors, updater_test_call] using h4
        | some rate =>
          obtain ⟨evs, h1, h3, h4⟩ := ih ps (j + 1) (l + 1)
            (c.gen_random_offset m.draws :: st)
            (call K (updater_test_call c x p j l id)
              (call K (forward_dropout_call c b x p l rate (c.gen_random_offset m.draws))
                { m with draws := m.draws + 1 }))
          refine ⟨forward_dropout_call c b x p l rate (c.gen_random_offset m.draws) ::
            updater_test_call c x p j l id :: evs, ?_, ?_, ?_⟩
          · simp only [hj, ne_eq, not_false_eq_true, if_true]
            rw [h1]; simp [call]
          · simpa [update_weights_errors, updater_test_call, forward_dropout_call] using h3
          · simpa [backprop_errors, updater_test_call, forward_dropout_call] using h4

/-- The backward pass hands every unit the input-errors buffer of the pack
entry it met before, and `output_errors` to the first unit it meets. -/
theorem backward_updater_errors {ω : Type} (K : Kernels ω) (u : network_updater_plain)
    (c : Call) (b : Buffers) (id : Nat) :
    ∀ (xs : List layer_updater_plain) (ps : List (Buf × updater_additional_buffer_set))
      (k oe rid : Nat) (st : List Nat) (m : Machine ω) (r : List Nat × Machine ω),
      xs.length = ps.length →
      backward_updater K u c b id xs ps k oe rid st m = some r →
      ∃ evs, r.2.trace = m.trace ++ evs ∧
        update_weights_errors evs = (errors_chain oe ps).map Prod.snd ∧
        backprop_errors evs = (errors_chain oe ps).dropLast := by
  intro xs
  induction xs with
  | nil =>
    intro ps k oe rid st m r hlen h
    cases ps with
    | nil =>
      simp only [backward_updater, Option.some.injEq] at h
      subst h
      exact ⟨[], by simp, rfl, rfl⟩
    | cons p ps => simp at hlen
  | cons x xs ih =>
    intro ps k oe rid st m r hlen h
    cases ps with
    | nil => simp at hlen
    | cons p ps =>
      have hlen2 : xs.length = ps.length := by simpa using hlen
      cases hx : xs.isEmpty with
      | true =>
        have hxs : xs = [] := List.isEmpty_iff.1 hx
        have hps : ps = [] := by
          subst hxs
          exact List.length_eq_zero.1 hlen2.symm
        simp only [backward_updater, hx, Bool.not_true, Bool.false_eq_true, if_false] at h
        obtain ⟨evs, h1, h2, h3⟩ := ih ps _ _ _ _ _ r hlen2 h
        refine ⟨update_weights_call c x p (reverse_positions u c k) oe true id :: evs,
          ?_, ?_, ?_⟩
        · rw [h1]; simp [call]
        · simp [update_weights_errors, update_weights_call, errors_chain, h2]
        · subst hps
          simp only [backprop_errors, update_weights_call, h3]
          simp [errors_chain]
      | false =>
        have hne : errors_chain p.2.input_errors_buffer ps ≠ [] := by
          cases xs with
          | nil => simp at hx
          | cons y ys =>
            cases ps with
            | nil => simp at hlen2
            | cons q qs => simp [errors_chain]
        cases hr : find_rate c.layer_to_dropout_rate_map rid with
        | none =>
          simp only [backward_updater, hx, Bool.not_false, if_true, hr] at h
          obtain ⟨evs, h1, h2, h3⟩ := ih ps _ _ _ _ _ r hlen2 h
          refine ⟨backprop_call c x p (reverse_positions u c k) oe ::
            update_weights_call c x p (reverse_positions u c k) oe false id :: evs,
            ?_, ?_, ?_⟩
          · rw [h1]; simp [call]
          · simp [update_weights_errors, update_weights_call, backprop_call, errors_chain, h2]
          · simp only [backprop_errors, update_weights_call, backprop_call, h3, errors_chain]
            rw [List.dropLast_cons_of_ne_nil hne]
        | some rate =>
          cases st with
          | nil => simp [backward_updater, hx, hr] at h
          | cons offset rest =>
            simp only [backward_updater, hx, Bool.not_false, if_true, hr] at h
            obtain ⟨evs, h1, h2, h3⟩ := ih ps _ _ _ _ _ r hlen2 h
            refine ⟨backprop_call c x p (reverse_positions u c k) oe ::
              backward_dropout_call c b x p (reverse_positions u c k) rid rate offset ::
              update_weights_call c x p (reverse_positions u c k) oe false id :: evs,
              ?_, ?_, ?_⟩
            · rw [h1]; simp [call]
            · simp [update_weights_errors, update_weights_call, backprop_call,
                backward_dropout_call, errors_chain, h2]
            · simp only [backprop_errors, update_weights_call, backprop_call,
                backward_dropout_call, h3, errors_chain]
              rw [List.dropLast_cons_of_ne_nil hne]

theorem errors_chain_length :
    ∀ (ps : List (Buf × updater_additional_buffer_set)) (oe : Buf),
      (errors_chain oe ps).length = ps.length := by
  intro ps
  induction ps with
  | nil => intro _; rfl
  | cons p ps ih => intro oe; simp [errors_chain, ih]

/-- Step `k` of the backward loop is handed `output_errors` when `k = 0` and
otherwise the input-errors buffer of the entry met at step `k - 1`. -/
theorem errors_chain_at :
    ∀ (ps : List (Buf × updater_additional_buffer_set)) (oe : Buf) (k : Nat)
      (p : Buf × updater_additional_buffer_set), ps[k]? = some p →
      (errors_chain oe ps)[k]? =
        some (p.2.input_errors_buffer,
          match k with
          | 0 => oe
          | k1 + 1 =>
            match ps[k1]? with
            | some q => q.2.input_errors_buffer
            | none => oe) := by
  intro ps
  induction ps with
  | nil => intro oe k p h; simp at h
  | cons a rest ih =>
    intro oe k p h
    cases k with
    | zero =>
      simp only [List.getElem?_cons_zero, Option.some.injEq] at h
      subst h
      simp [errors_chain]
    | succ k =>
      simp only [List.getElem?_cons_succ] at h
      simp only [errors_chain, List.getElem?_cons_succ]
      rw [ih _ k p h]
      cases k with
      | zero => simp
      | succ k1 =>
        have hlt := lt_length_of_getElem? h
        simp [List.getElem?_eq_getElem (show k1 < rest.length by omega)]

theorem allocated_updater_pack_length {ω : Type} (K : Kernels ω) (u : network_updater_plain)
    (c : Call) : (allocated_updater_pack K u c).length = u.updater_list.length := by
  simp [allocated_updater_pack, build_updater_pack_length]

/-- The errors handed to unit `j` by the backward loop over the reversed
pack, in terms of the pack in the order of the units. -/
theorem errors_chain_reverse_at (pack : List (Buf × updater_additional_buffer_set)) (oe : Buf)
    (j : Nat) (q : Buf × updater_additional_buffer_set) (h : pack[j]? = some q) :
    (errors_chain oe pack.reverse)[pack.length - 1 - j]? =
      some (q.2.input_errors_buffer,
        match pack[j + 1]? with
        | some q1 => q1.2.input_errors_buffer
        | none => oe) := by
  have hj := lt_length_of_getElem? h
  have hrev : pack.reverse[pack.length - 1 - j]? = some q := by
    rw [List.getElem?_reverse (by omega)]
    rw [show pack.length - 1 - (pack.length - 1 - j) = j by omega]
    exact h
  rw [errors_chain_at pack.reverse oe _ q hrev]
  cases hk : pack.length - 1 - j with
  | zero =>
    have hnone : pack[j + 1]? = none := List.getElem?_eq_none (by omega)
    simp [hnone]
  | succ k1 =>
    have h1 : pack.reverse[k1]? = pack[j + 1]? := by
      rw [List.getElem?_reverse (by omega)]
      rw [show pack.length - 1 - k1 = j + 1 by omega]
    simp only [h1]

/-- C22: after the chaining pass of lines 160-169 the pack has one entry per
updater unit; the entry of the first unit is as allocated, and the entry of
every other unit `j` has its buffers as allocated and a non-null
`input_errors_buffer`: its own if it allocated one, otherwise that of the
nearest following entry that allocated one, or `initial_error_buf` if none
did. In every iteration of the per-entry loop the backward pass then hands
`update_weights` of unit `j`, and `backprop` of every unit `j >= 1`, as
`output_errors` the `input_errors_buffer` of entry `j + 1`, and
`initial_error_buf` for the last unit; `backprop` of unit `j` writes into
the `input_errors_buffer` of entry `j`. -/
theorem c22_error_buffers_chained {ω : Type} (K : Kernels ω) (u : network_updater_plain)
    (c : Call) (first_read input_entry_id : Nat) (s : State ω) :
    (allocated_updater_pack K u c).length = u.updater_list.length ∧
    (allocate_buffers K u c).updater_pack.length = u.updater_list.length ∧
    initial_error_buf ≠ 0 ∧
    (∀ j p, (allocated_updater_pack K u c)[j]? = some p →
      ∃ q, (allocate_buffers K u c).updater_pack[j]? = some q ∧
        q.1 = p.1 ∧ q.2.output_neurons_buffer = p.2.output_neurons_buffer ∧
        q.2.additional_buffers = p.2.additional_buffers ∧
        (j = 0 → q = p) ∧
        (1 ≤ j →
          q.2.input_errors_buffer ≠ 0 ∧
          (p.2.input_errors_buffer ≠ 0 → q.2.input_errors_buffer = p.2.input_errors_buffer) ∧
          (p.2.input_errors_buffer = 0 →
            q.2.input_errors_buffer =
              nearest_errors ((allocated_updater_pack K u c).drop (j + 1))
                initial_error_buf))) ∧
    ∃ (final : State ω) (evs : List Event),
      process_entry_stack K u c (allocate_buffers K u c) first_read input_entry_id s =
        some ([], final) ∧
      final.machine.trace = s.machine.trace ++ evs ∧
      (update_weights_errors evs).length = u.updater_list.length ∧
      (backprop_errors evs).length = u.updater_list.length - 1 ∧
      ∀ j q, (allocate_buffers K u c).updater_pack[j]? = some q →
        (update_weights_errors evs)[u.updater_list.length - 1 - j]? =
          some (match (allocate_buffers K u c).updater_pack[j + 1]? with
            | some q1 => q1.2.input_errors_buffer
            | none => initial_error_buf) ∧
        (1 ≤ j →
          (backprop_errors evs)[u.updater_list.length - 1 - j]? =
            some (q.2.input_errors_buffer,
              match (allocate_buffers K u c).updater_pack[j + 1]? with
              | some q1 => q1.2.input_errors_buffer
              | none => initial_error_buf)) := by
  have hlen := allocate_buffers_updater_pack_length K u c
  have hpack : (allocate_buffers K u c).updater_pack =
      (chain_input_errors (allocated_updater_pack K u c).reverse initial_error_buf).reverse :=
    rfl
  have hieb : initial_error_buf ≠ 0 := by decide
  refine ⟨allocated_updater_pack_length K u c, hlen, hieb, ?_, ?_⟩
  · intro j p hp
    have hq := chained_pack_at (allocated_updater_pack K u c) initial_error_buf j p hp
    rw [← hpack] at hq
    by_cases hj : 1 ≤ j
    · simp only [hj, if_true] at hq
      refine ⟨_, hq, rfl, rfl, rfl, fun h0 => by omega, fun _ => ⟨?_, ?_, ?_⟩⟩
      · simp only []
        split
        · assumption
        · exact nearest_errors_ne_zero _ _ hieb
      · intro hne
        simp only [hne, ne_eq, not_false_eq_true, if_true]
      · intro h0
        simp [h0]
    · simp only [hj, if_false] at hq
      exact ⟨p, hq, rfl, rfl, rfl, fun _ => rfl, fun h1 => absurd h1 hj⟩
  · obtain ⟨final, _, hpe, _⟩ :=
      entry_iteration_replays_offsets K u c first_read input_entry_id s
    obtain ⟨evsF, f1, f3, f4⟩ := forward_updater_errors K c (allocate_buffers K u c)
      input_entry_id u.updater_list (allocate_buffers K u c).updater_pack 0
      u.testing_layer_count [] s.machine
    have htrace : (forward_and_error K u c (allocate_buffers K u c) first_read input_entry_id
        s).2.machine.trace = s.machine.trace ++ evsF := by
      simp only [forward_and_error]
      rw [set_initial_error_machine_trace]
      exact f1
    have hpe2 := hpe
    simp only [process_entry_stack] at hpe2
    cases hb : backward_updater K u c (allocate_buffers K u c) input_entry_id
        u.updater_list.reverse (allocate_buffers K u c).updater_pack.reverse 0
        initial_error_buf (u.updater_list.length + u.testing_layer_count - 1)
        (forward_and_error K u c (allocate_buffers K u c) first_read input_entry_id s).1
        (forward_and_error K u c (allocate_buffers K u c) first_read input_entry_id
          s).2.machine with
    | none => simp [hb] at hpe2
    | some r =>
      simp only [hb, Option.some.injEq, Prod.mk.injEq] at hpe2
      obtain ⟨evsB, b1, b2, b3⟩ := backward_updater_errors K u c (allocate_buffers K u c)
        input_entry_id _ _ _ _ _ _ _ r (by simp [hlen]) hb
      have huw : update_weights_errors (evsF ++ evsB) =
          (errors_chain initial_error_buf (allocate_buffers K u c).updater_pack.reverse).map
            Prod.snd := by
        rw [update_weights_errors_append, f3, b2, List.nil_append]
      have hbp : backprop_errors (evsF ++ evsB) =
          (errors_chain initial_error_buf
            (allocate_buffers K u c).updater_pack.reverse).dropLast := by
        rw [backprop_errors_append, f4, b3, List.nil_append]
      refine ⟨final, evsF ++ evsB, hpe, ?_, ?_, ?_, ?_⟩
      · rw [← hpe2.2]
        simp only []
        rw [b1, htrace, List.append_assoc]
      · rw [huw, List.length_map, errors_chain_length, List.length_reverse, hlen]
      · rw [hbp, List.length_dropLast, errors_chain_length, List.length_reverse, hlen]
      · intro j q hq
        have hj := lt_length_of_getElem? hq
        have hat := errors_chain_reverse_at (allocate_buffers K u c).updater_pack
          initial_error_buf j q hq
        rw [hlen] at hat hj
        refine ⟨?_, ?_⟩
        · rw [huw, List.getElem?_map, hat]
          rfl
        · intro h1
          rw [hbp, List.getElem?_dropLast, errors_chain_length, List.length_reverse, hlen,
            if_pos (by omega), hat]

/-! ## `softmax_layer_hessian_plain::test` -/

theorem get_elem_count_eq_replicate (cfg : softmax_configuration) (threads : Nat) :
    softmax_layer_hessian_plain.get_elem_count_and_per_entry_flag_additional_buffers cfg
        threads =
      List.replicate threads (cfg.feature_map_count, false) := by
  simp only [softmax_layer_hessian_plain.get_elem_count_and_per_entry_flag_additional_buffers]
  induction threads with
  | zero => rfl
  | succ n ih =>
    rw [List.range_succ, List.foldl_append, ih, List.replicate_succ']
    rfl

/-- The first inner loop after `k` iterations: the buffers are as they were,
the first `k` scratch elements hold `expf` of the inputs of the workload and
`sum` is their sum; no scratch access is outside the vector as long as it has
`k` elements. -/
theorem test_exp_prefix {α : Type} [Field α] (expf : α → α) (cfg : softmax_configuration)
    (ib : Buf) (base : Nat) (st : softmax_test_state α) :
    ∀ k, k ≤ st.local_additional_buffer.length →
      ∃ scratch : List α,
        (List.range k).foldl (test_exp_step expf cfg ib base) (some (st, 0)) =
          some ({ st with local_additional_buffer := scratch },
            ((List.range k).map (fun g =>
              expf (st.floats ib (base + g * cfg.input_neuron_count_per_feature_map)))).sum) ∧
        scratch.length = st.local_additional_buffer.length ∧
        ∀ f, f < k →
          scratch[f]? =
            some (expf (st.floats ib (base + f * cfg.input_neuron_count_per_feature_map))) := by
  intro k
  induction k with
  | zero => intro _; exact ⟨st.local_additional_buffer, by simp, rfl, fun f hf => by omega⟩
  | succ k ih =>
    intro hk
    obtain ⟨scratch, h1, h2, h3⟩ := ih (by omega)
    refine ⟨scratch.set k
      (expf (st.floats ib (base + k * cfg.input_neuron_count_per_feature_map))), ?_, ?_, ?_⟩
    · rw [List.range_succ, List.foldl_append, h1]
      simp only [List.foldl_cons, List.foldl_nil, test_exp_step, h2,
        if_pos (show k < st.local_additional_buffer.length by omega), List.map_append,
        List.map_cons, List.map_nil, List.sum_append, List.sum_cons, List.sum_nil, add_zero]
    · simp [h2]
    · intro f hf
      rw [List.getElem?_set]
      by_cases hfk : k = f
      · subst hfk
        simp [h2, show k < st.local_additional_buffer.length by omega]
      · simp only [hfk, if_false]
        exact h3 f (by omega)

/-- The second inner loop after `k` iterations: the scratch vector is as it
was, the `k` writes are logged in order, the elements written hold
`scratch[f] * mult`, everything else is as it was. -/
theorem test_write_prefix {α : Type} [Field α] (cfg : softmax_configuration) (ob : Buf)
    (base : Nat) (mult : α) (st1 : softmax_test_state α) (v : Nat → α) :
    ∀ k, (∀ f, f < k → st1.local_additional_buffer[f]? = some (v f)) →
      ∃ fl : Buf → Nat → α,
        (List.range k).foldl (test_write_step cfg ob base mult) (some st1) =
          some { st1 with
            floats := fl
            written := st1.written ++ (List.range k).map (fun f =>
              (base + f * cfg.input_neuron_count_per_feature_map, v f * mult)) } ∧
        (0 < cfg.input_neuron_count_per_feature_map → ∀ f, f < k →
          fl ob (base + f * cfg.input_neuron_count_per_feature_map) = v f * mult) ∧
        ∀ b p, (b ≠ ob ∨ ∀ f, f < k →
            p ≠ base + f * cfg.input_neuron_count_per_feature_map) →
          fl b p = st1.floats b p := by
  intro k
  induction k with
  | zero =>
    intro _
    exact ⟨st1.floats, by simp, fun _ f hf => by omega, fun _ _ _ => rfl⟩
  | succ k ih =>
    intro hv
    obtain ⟨fl, h1, h2, h3⟩ := ih (fun f hf => hv f (by omega))
    refine ⟨fun b => if b = ob then
        write_at (fl b) (base + k * cfg.input_neuron_count_per_feature_map) (v k * mult)
      else fl b, ?_, ?_, ?_⟩
    · rw [List.range_succ, List.foldl_append, h1]
      simp only [List.foldl_cons, List.foldl_nil, test_write_step, hv k (by omega),
        List.map_append, List.map_cons, List.map_nil, List.append_assoc]
    · intro hP f hf
      by_cases hfk : f = k
      · subst hfk
        simp [write_at]
      · have hne : base + f * cfg.input_neuron_count_per_feature_map ≠
            base + k * cfg.input_neuron_count_per_feature_map := by
          intro he
          exact hfk (Nat.eq_of_mul_eq_mul_right hP (Nat.add_left_cancel he))
        simp only [write_at, if_true, hne, if_false]
        exact h2 hP f (by omega)
    · intro b p hbp
      by_cases hb : b = ob
      · subst hb
        have hp : ∀ f, f < k + 1 → p ≠ base + f * cfg.input_neuron_count_per_feature_map := by
          rcases hbp with hbp | hbp
          · exact absurd rfl hbp
          · exact hbp
        simp only [write_at, if_true, hp k (by omega), if_false]
        exact h3 b p (Or.inr (fun f hf => hp f (by omega)))
      · simp only [hb, if_false]
        exact h3 b p (Or.inl hb)

/-- One workload, from any state whose scratch vector has
`feature_map_count` elements: it completes, logs its `feature_map_count`
writes in order, leaves `expf(x_f) * (1 / sum of the expf(x_g))` in its
footprint on the inputs `x` it started from, and everything else as it
was. -/
theorem test_workload_spec {α : Type} [Field α] (expf : α → α) (cfg : softmax_configuration)
    (ib ob : Buf) (st : softmax_test_state α) (w : Nat)
    (hlen : st.local_additional_buffer.length = cfg.feature_map_count) :
    ∃ st' : softmax_test_state α,
      test_workload expf cfg ib ob (some st) w = some st' ∧
      st'.local_additional_buffer.length = cfg.feature_map_count ∧
      st'.written = st.written ++ (List.range cfg.feature_map_count).map (fun f =>
        (workload_base cfg w + f * cfg.input_neuron_count_per_feature_map,
          expf (st.floats ib
              (workload_base cfg w + f * cfg.input_neuron_count_per_feature_map)) *
            (1 / ((List.range cfg.feature_map_count).map (fun g =>
              expf (st.floats ib (workload_base cfg w +
                g * cfg.input_neuron_count_per_feature_map)))).sum))) ∧
      (0 < cfg.input_neuron_count_per_feature_map → ∀ f, f < cfg.feature_map_count →
        st'.floats ob (workload_base cfg w + f * cfg.input_neuron_count_per_feature_map) =
          expf (st.floats ib
              (workload_base cfg w + f * cfg.input_neuron_count_per_feature_map)) *
            (1 / ((List.range cfg.feature_map_count).map (fun g =>
              expf (st.floats ib (workload_base cfg w +
                g * cfg.input_neuron_count_per_feature_map)))).sum)) ∧
      ∀ b p, (b ≠ ob ∨ ∀ f, f < cfg.feature_map_count →
          p ≠ workload_base cfg w + f * cfg.input_neuron_count_per_feature_map) →
        st'.floats b p = st.floats b p := by
  obtain ⟨scratch, e1, e2, e3⟩ := test_exp_prefix expf cfg ib (workload_base cfg w) st
    cfg.feature_map_count (by omega)
  obtain ⟨fl, w1, w2, w3⟩ := test_write_prefix cfg ob (workload_base cfg w)
    (1 / ((List.range cfg.feature_map_count).map (fun g =>
      expf (st.floats ib (workload_base cfg w +
        g * cfg.input_neuron_count_per_feature_map)))).sum)
    ({ st with local_additional_buffer := scratch } : softmax_test_state α)
    (fun f => expf (st.floats ib
      (workload_base cfg w + f * cfg.input_neuron_count_per_feature_map)))
    cfg.feature_map_count e3
  refine ⟨{ floats := fl
            local_additional_buffer := scratch
            written := st.written ++ (List.range cfg.feature_map_count).map (fun f =>
              (workload_base cfg w + f * cfg.input_neuron_count_per_feature_map,
                expf (st.floats ib
                    (workload_base cfg w + f * cfg.input_neuron_count_per_feature_map)) *
                  (1 / ((List.range cfg.feature_map_count).map (fun g =>
                    expf (st.floats ib (workload_base cfg w +
                      g * cfg.input_neuron_count_per_feature_map)))).sum))) },
    ?_, ?_, rfl, w2, w3⟩
  · simp only [test_workload, e1]
    exact w1
  · simp only []
    rw [e2, hlen]

theorem test_schedule_cons {α : Type} [Field α] (expf : α → α) (cfg : softmax_configuration)
    (ib ob : Buf) (w : Nat) (ws : List Nat) (st st1 : softmax_test_state α)
    (h : test_workload expf cfg ib ob (some st) w = some st1) :
    test_schedule expf cfg ib ob (w :: ws) st = test_schedule expf cfg ib ob ws st1 := by
  simp only [test_schedule, List.foldl_cons, h]

/-- Any schedule, from a state whose scratch vector has `feature_map_count`
elements: the call completes with no scratch access outside the vector, the
positions written are those of the workloads in the order taken, and
everything outside the footprints of the workloads is as it was. -/
theorem test_schedule_runs {α : Type} [Field α] (expf : α → α) (cfg : softmax_configuration)
    (ib ob : Buf) :
    ∀ (ws : List Nat) (st : softmax_test_state α),
      st.local_additional_buffer.length = cfg.feature_map_count →
      ∃ st' : softmax_test_state α,
        test_schedule expf cfg ib ob ws st = some st' ∧
        st'.local_additional_buffer.length = cfg.feature_map_count ∧
        st'.written.map Prod.fst = st.written.map Prod.fst ++ test_positions cfg ws ∧
        ∀ b p, (b ≠ ob ∨ ∀ w, w ∈ ws → ∀ f, f < cfg.feature_map_count →
            p ≠ workload_base cfg w + f * cfg.input_neuron_count_per_feature_map) →
          st'.floats b p = st.floats b p := by
  intro ws
  induction ws with
  | nil =>
    intro st hlen
    exact ⟨st, rfl, hlen, by simp [test_positions], fun _ _ _ => rfl⟩
  | cons w ws ih =>
    intro st hlen
    obtain ⟨st1, a1, a2, a3, _, a5⟩ := test_workload_spec expf cfg ib ob st w hlen
    obtain ⟨st', i1, i2, i3, i4⟩ := ih st1 a2
    refine ⟨st', ?_, i2, ?_, ?_⟩
    · rw [test_schedule_cons expf cfg ib ob w ws st st1 a1]
      exact i1
    · rw [i3, a3]
      simp [test_positions, Function.comp_def]
    · intro b p hbp
      rw [i4 b p (by
        rcases hbp with hb | hp
        · exact Or.inl hb
        · exact Or.inr (fun w2 hw2 f2 hf2 => hp w2 (List.mem_cons_of_mem _ hw2) f2 hf2))]
      exact a5 b p (by
        rcases hbp with hb | hp
        · exact Or.inl hb
        · exact Or.inr (fun f2 hf2 => hp w (List.mem_cons_self _ _) f2 hf2))

/-- Any schedule that takes no workload twice, when `F * P <= N`: the
footprint of every workload taken holds `expf(x_f) * (1 / sum of expf(x_g))`
on the inputs `x` as they were before the call, whether or not the input
buffer is the output buffer. -/
theorem test_schedule_contents {α : Type} [Field α] (expf : α → α)
    (cfg : softmax_configuration) (ib ob : Buf)
    (hP : 0 < cfg.input_neuron_count_per_feature_map)
    (hFP : cfg.feature_map_count * cfg.input_neuron_count_per_feature_map ≤
      cfg.input_neuron_count) :
    ∀ (ws : List Nat) (st st' : softmax_test_state α),
      st.local_additional_buffer.length = cfg.feature_map_count → ws.Nodup →
      test_schedule expf cfg ib ob ws st = some st' →
      ∀ w, w ∈ ws → ∀ f, f < cfg.feature_map_count →
        st'.floats ob (workload_base cfg w + f * cfg.input_neuron_count_per_feature_map) =
          expf (st.floats ib
              (workload_base cfg w + f * cfg.input_neuron_count_per_feature_map)) *
            (1 / ((List.range cfg.feature_map_count).map (fun g =>
              expf (st.floats ib (workload_base cfg w +
                g * cfg.input_neuron_count_per_feature_map)))).sum) := by
  intro ws
  induction ws with
  | nil => intro st st' _ _ _ w hw; simp at hw
  | cons w ws ih =>
    intro st st' hlen hnd hrun w' hw' f hf
    obtain ⟨hw, hnd'⟩ := List.nodup_cons.1 hnd
    obtain ⟨st1, a1, a2, _, a4, a5⟩ := test_workload_spec expf cfg ib ob st w hlen
    rw [test_schedule_cons expf cfg ib ob w ws st st1 a1] at hrun
    have happart : ∀ w1 w2 f1 f2, w1 ≠ w2 → f1 < cfg.feature_map_count →
        f2 < cfg.feature_map_count →
        workload_base cfg w1 + f1 * cfg.input_neuron_count_per_feature_map ≠
          workload_base cfg w2 + f2 * cfg.input_neuron_count_per_feature_map := by
      intro w1 w2 f1 f2 hne h1 h2 he
      exact hne (footprints_apart _ _ _ hFP w1 w2 f1 f2 h1 h2 hP he)
    rcases List.mem_cons.1 hw' with rfl | hmem
    · obtain ⟨st2, r1, _, _, r4⟩ := test_schedule_runs expf cfg ib ob ws st1 a2
      rw [r1, Option.some.injEq] at hrun
      subst hrun
      rw [r4 ob _ (Or.inr (fun w2 hw2 f2 hf2 =>
        happart w' w2 f f2 (fun he => hw (he ▸ hw2)) hf hf2))]
      exact a4 hP f hf
    · have hne : w' ≠ w := fun he => hw (he ▸ hmem)
      have hsame : ∀ g, g < cfg.feature_map_count →
          st1.floats ib (workload_base cfg w' + g * cfg.input_neuron_count_per_feature_map) =
            st.floats ib
              (workload_base cfg w' + g * cfg.input_neuron_count_per_feature_map) :=
        fun g hg => a5 ib _ (Or.inr (fun f2 hf2 => happart w' w g f2 hne hg hf2))
      rw [ih st1 st' a2 hnd' hrun w' hmem f hf, hsame f hf]
      congr 3
      apply List.map_congr_left
      intro g hg
      rw [hsame g (List.mem_range.1 hg)]

/-- The values of one position: positive, and summing to 1 over the
feature maps, for any positive `expf` and at least one feature map. -/
theorem softmax_values {α : Type} [LinearOrderedField α] (expf : α → α)
    (hexp : ∀ x, 0 < expf x) (x : Nat → α) (F : Nat) (hF : 1 ≤ F) :
    0 < ((List.range F).map (fun g => expf (x g))).sum ∧
    (∀ f, 0 < expf (x f) * (1 / ((List.range F).map (fun g => expf (x g))).sum)) ∧
    ((List.range F).map (fun f =>
      expf (x f) * (1 / ((List.range F).map (fun g => expf (x g))).sum))).sum = 1 := by
  have hpos : 0 < ((List.range F).map (fun g => expf (x g))).sum := by
    apply List.sum_pos
    · intro y hy
      simp only [List.mem_map] at hy
      obtain ⟨g, _, rfl⟩ := hy
      exact hexp _
    · intro hnil
      have := congrArg List.length hnil
      simp at this
      omega
  refine ⟨hpos, fun f => mul_pos (hexp _) (one_div_pos.2 hpos), ?_⟩
  rw [List.sum_map_mul_right]
  exact mul_one_div_cancel (ne_of_gt hpos)

/-- Every position a workload `w < E * P` writes to lies below `E * N` when
`F * P <= N`. -/
theorem workload_position_lt (cfg : softmax_configuration) (E w f : Nat)
    (hFP : cfg.feature_map_count * cfg.input_neuron_count_per_feature_map ≤
      cfg.input_neuron_count)
    (hw : w < E * cfg.input_neuron_count_per_feature_map) (hf : f < cfg.feature_map_count) :
    workload_base cfg w + f * cfg.input_neuron_count_per_feature_map <
      E * cfg.input_neuron_count := by
  have hP : 0 < cfg.input_neuron_count_per_feature_map := by
    rcases Nat.eq_zero_or_pos cfg.input_neuron_count_per_feature_map with h0 | h0
    · rw [h0] at hw; simp at hw
    · exact h0
  have he : w / cfg.input_neuron_count_per_feature_map < E :=
    Nat.div_lt_of_lt_mul (by rwa [Nat.mul_comm] at hw)
  have hn := Nat.mod_lt w hP
  have hb : f * cfg.input_neuron_count_per_feature_map +
      cfg.input_neuron_count_per_feature_map ≤
        cfg.feature_map_count * cfg.input_neuron_count_per_feature_map := by
    have := Nat.mul_le_mul_right cfg.input_neuron_count_per_feature_map (Nat.succ_le_of_lt hf)
    rwa [Nat.succ_mul] at this
  have hE : w / cfg.input_neuron_count_per_feature_map * cfg.input_neuron_count +
      cfg.input_neuron_count ≤ E * cfg.input_neuron_count := by
    have := Nat.mul_le_mul_right cfg.input_neuron_count (Nat.succ_le_of_lt he)
    rwa [Nat.succ_mul] at this
  simp only [workload_base]
  rw [← mod_eq_sub_div_mul]
  omega

/-- When `N = F * P` the positions written by `test` are the positions
`0 .. E * N - 1`, each once. -/
theorem test_positions_perm (cfg : softmax_configuration) (E : Nat)
    (hN : cfg.input_neuron_count =
      cfg.feature_map_count * cfg.input_neuron_count_per_feature_map) :
    (test_positions cfg (List.range (E * cfg.input_neuron_count_per_feature_map))).Perm
      (List.range (E * cfg.input_neuron_count)) := by
  rcases Nat.eq_zero_or_pos cfg.input_neuron_count_per_feature_map with h0 | hP
  · rw [hN, h0]
    simp [test_positions]
  · have hFP : cfg.feature_map_count * cfg.input_neuron_count_per_feature_map ≤
        cfg.input_neuron_count := by omega
    have hnd : (test_positions cfg
        (List.range (E * cfg.input_neuron_count_per_feature_map))).Nodup := by
      simp only [test_positions]
      rw [List.nodup_flatMap]
      constructor
      · intro w _
        apply List.Nodup.map _ (List.nodup_range _)
        intro f1 f2 he
        exact Nat.eq_of_mul_eq_mul_right hP (Nat.add_left_cancel he)
      · apply List.Nodup.pairwise_of_forall_ne (List.nodup_range _)
        intro a _ b _ hab x hxa hxb
        simp only [List.mem_map, List.mem_range] at hxa hxb
        obtain ⟨f1, hf1, rfl⟩ := hxa
        obtain ⟨f2, hf2, he⟩ := hxb
        exact hab (footprints_apart _ _ _ hFP a b f1 f2 hf1 hf2 hP he.symm)
    have hsub : test_positions cfg (List.range (E * cfg.input_neuron_count_per_feature_map)) ⊆
        List.range (E * cfg.input_neuron_count) := by
      intro x hx
      simp only [test_positions, List.mem_flatMap, List.mem_map, List.mem_range] at hx
      obtain ⟨w, hw, f, hf, rfl⟩ := hx
      exact List.mem_range.2 (workload_position_lt cfg E w f hFP hw hf)
    apply (List.subperm_of_subset hnd hsub).perm_of_length_le
    simp only [test_positions, List.length_flatMap, Function.comp_def, List.length_map,
      List.length_range, List.map_const', List.sum_replicate, smul_eq_mul]
    rw [hN]
    apply Nat.le_of_eq
    ring

theorem sample_expf_pos (x : ℚ) : 0 < sample_expf x :=
  add_pos_of_nonneg_of_pos (mul_self_nonneg x) one_pos

/-- C23: in exact arithmetic (numbers in any ordered field, `expf` any
positive function on it, as the exponential on the reals is), with a scratch
vector of the `feature_map_count` elements that
`get_elem_count_and_per_entry_flag_additional_buffers` declares for every
thread: the workload of entry `e` and neuron position `n < P` completes with
every `local_additional_buffer[f]` inside the vector and writes
`output[e*N + f*P + n] = expf(input[e*N + f*P + n]) /
(sum over g of expf(input[e*N + g*P + n]))` for every feature map `f`, on the
input as the workload finds it, values that are positive and sum to 1 when
there is a feature map; the whole call completes, writes the positions of
the workloads `0 .. entry_count * P - 1` in order and leaves an input buffer
that is not the output buffer untouched; when `F * P <= N` the output holds
these values on the input as it was before the call; and when `N = F * P`
the positions written are `0 .. entry_count * N - 1`, each exactly once. -/
theorem c23_softmax_test_writes {α : Type} [LinearOrderedField α] (expf : α → α)
    (hexp : ∀ x, 0 < expf x) (cfg : softmax_configuration) (ib ob : Buf)
    (entry_count threads : Nat) (st : softmax_test_state α)
    (hlen : st.local_additional_buffer.length = cfg.feature_map_count) :
    softmax_layer_hessian_plain.get_elem_count_and_per_entry_flag_additional_buffers cfg
        threads = List.replicate threads (cfg.feature_map_count, false) ∧
    (∀ (s : softmax_test_state α) (e n : Nat),
      s.local_additional_buffer.length = cfg.feature_map_count →
      n < cfg.input_neuron_count_per_feature_map →
      ∃ s' : softmax_test_state α,
        test_workload expf cfg ib ob (some s)
          (e * cfg.input_neuron_count_per_feature_map + n) = some s' ∧
        s'.local_additional_buffer.length = cfg.feature_map_count ∧
        s'.written = s.written ++ (List.range cfg.feature_map_count).map (fun f =>
          (e * cfg.input_neuron_count + n + f * cfg.input_neuron_count_per_feature_map,
            expf (s.floats ib (e * cfg.input_neuron_count + n +
                f * cfg.input_neuron_count_per_feature_map)) /
              ((List.range cfg.feature_map_count).map (fun g =>
                expf (s.floats ib (e * cfg.input_neuron_count + n +
                  g * cfg.input_neuron_count_per_feature_map)))).sum)) ∧
        (∀ f, f < cfg.feature_map_count →
          s'.floats ob (e * cfg.input_neuron_count + n +
              f * cfg.input_neuron_count_per_feature_map) =
            expf (s.floats ib (e * cfg.input_neuron_count + n +
                f * cfg.input_neuron_count_per_feature_map)) /
              ((List.range cfg.feature_map_count).map (fun g =>
                expf (s.floats ib (e * cfg.input_neuron_count + n +
                  g * cfg.input_neuron_count_per_feature_map)))).sum ∧
          0 < expf (s.floats ib (e * cfg.input_neuron_count + n +
                f * cfg.input_neuron_count_per_feature_map)) /
              ((List.range cfg.feature_map_count).map (fun g =>
                expf (s.floats ib (e * cfg.input_neuron_count + n +
                  g * cfg.input_neuron_count_per_feature_map)))).sum) ∧
        (1 ≤ cfg.feature_map_count →
          ((List.range cfg.feature_map_count).map (fun f =>
            expf (s.floats ib (e * cfg.input_neuron_count + n +
                f * cfg.input_neuron_count_per_feature_map)) /
              ((List.range cfg.feature_map_count).map (fun g =>
                expf (s.floats ib (e * cfg.input_neuron_count + n +
                  g * cfg.input_neuron_count_per_feature_map)))).sum)).sum = 1)) ∧
    (∃ final : softmax_test_state α,
      softmax_layer_hessian_plain.test expf cfg ib ob entry_count st = some final ∧
      final.local_additional_buffer.length = cfg.feature_map_count ∧
      final.written.map Prod.fst = st.written.map Prod.fst ++
        test_positions cfg
          (List.range (entry_count * cfg.input_neuron_count_per_feature_map)) ∧
      (ib ≠ ob → final.floats ib = st.floats ib) ∧
      (cfg.feature_map_count * cfg.input_neuron_count_per_feature_map ≤
          cfg.input_neuron_count →
        ∀ e n f, e < entry_count → n < cfg.input_neuron_count_per_feature_map →
          f < cfg.feature_map_count →
          final.floats ob (e * cfg.input_neuron_count + n +
              f * cfg.input_neuron_count_per_feature_map) =
            expf (st.floats ib (e * cfg.input_neuron_count + n +
                f * cfg.input_neuron_count_per_feature_map)) /
              ((List.range cfg.feature_map_count).map (fun g =>
                expf (st.floats ib (e * cfg.input_neuron_count + n +
                  g * cfg.input_neuron_count_per_feature_map)))).sum)) ∧
    (cfg.input_neuron_count =
        cfg.feature_map_count * cfg.input_neuron_count_per_feature_map →
      (test_positions cfg
        (List.range (entry_count * cfg.input_neuron_count_per_feature_map))).Perm
        (List.range (entry_count * cfg.input_neuron_count))) := by
  refine ⟨get_elem_count_eq_replicate cfg threads, ?_, ?_, test_positions_perm cfg entry_count⟩
  · intro s e n hs hn
    have hP : 0 < cfg.input_neuron_count_per_feature_map := by omega
    obtain ⟨s', a1, a2, a3, a4, _⟩ := test_workload_spec expf cfg ib ob s
      (e * cfg.input_neuron_count_per_feature_map + n) hs
    rw [workload_base_of cfg e n hn] at a3 a4
    simp only [mul_one_div] at a3 a4
    refine ⟨s', a1, a2, a3, ?_, ?_⟩
    · intro f hf
      refine ⟨a4 hP f hf, ?_⟩
      have h := (softmax_values expf hexp
        (fun g => s.floats ib (e * cfg.input_neuron_count + n +
          g * cfg.input_neuron_count_per_feature_map)) cfg.feature_map_count (by omega)).2.1 f
      simpa only [mul_one_div] using h
    · intro hF
      have h := (softmax_values expf hexp
        (fun g => s.floats ib (e * cfg.input_neuron_count + n +
          g * cfg.input_neuron_count_per_feature_map)) cfg.feature_map_count hF).2.2
      simpa only [mul_one_div] using h
  · obtain ⟨final, r1, r2, r3, r4⟩ := test_schedule_runs expf cfg ib ob
      (List.range (entry_count * cfg.input_neuron_count_per_feature_map)) st hlen
    refine ⟨final, r1, r2, r3, ?_, ?_⟩
    · intro hne
      funext p
      exact r4 ib p (Or.inl hne)
    · intro hFP e n f he hn hf
      have hP : 0 < cfg.input_neuron_count_per_feature_map := by omega
      have hmem : e * cfg.input_neuron_count_per_feature_map + n ∈
          List.range (entry_count * cfg.input_neuron_count_per_feature_map) := by
        rw [List.mem_range]
        have := Nat.mul_le_mul_right cfg.input_neuron_count_per_feature_map
          (Nat.succ_le_of_lt he)
        rw [Nat.succ_mul] at this
        omega
      have h := test_schedule_contents expf cfg ib ob hP hFP _ st final hlen
        (List.nodup_range _) r1 _ hmem f hf
      rw [workload_base_of cfg e n hn] at h
      simpa only [mul_one_div] using h


/-- Witness for C23: two entries of two feature maps of one neuron, the
positive function `x * x + 1` on the rationals in the place of `expf`; the
call writes 1/3 and 2/3 for each entry. -/
theorem c23_softmax_test_writes_witness :
    (∀ x, 0 < sample_expf x) ∧
    softmax_test_sample.local_additional_buffer.length =
      two_maps.feature_map_count ∧
    (softmax_layer_hessian_plain.test sample_expf two_maps 1 2 2
        softmax_test_sample).map (fun s => s.written) =
      some [(0, 1 / 3), (1, 2 / 3), (2, 1 / 3), (3, 2 / 3)] ∧
    (softmax_layer_hessian_plain.get_elem_count_and_per_entry_flag_additional_buffers two_maps
        1 = List.replicate 1 (two_maps.feature_map_count, false) ∧
    (∀ (s : softmax_test_state ℚ) (e n : Nat),
      s.local_additional_buffer.length = two_maps.feature_map_count →
      n < two_maps.input_neuron_count_per_feature_map →
      ∃ s' : softmax_test_state ℚ,
        test_workload sample_expf two_maps 1 2 (some s)
          (e * two_maps.input_neuron_count_per_feature_map + n) = some s' ∧
        s'.local_additional_buffer.length = two_maps.feature_map_count ∧
        s'.written = s.written ++ (List.range two_maps.feature_map_count).map (fun f =>
          (e * two_maps.input_neuron_count + n + f * two_maps.input_neuron_count_per_feature_map,
            sample_expf (s.floats 1 (e * two_maps.input_neuron_count + n +
                f * two_maps.input_neuron_count_per_feature_map)) /
              ((List.range two_maps.feature_map_count).map (fun g =>
                sample_expf (s.floats 1 (e * two_maps.input_neuron_count + n +
                  g * two_maps.input_neuron_count_per_feature_map)))).sum)) ∧
        (∀ f, f < two_maps.feature_map_count →
          s'.floats 2 (e * two_maps.input_neuron_count + n +
              f * two_maps.input_neuron_count_per_feature_map) =
            sample_expf (s.floats 1 (e * two_maps.input_neuron_count + n +
                f * two_maps.input_neuron_count_per_feature_map)) /
              ((List.range two_maps.feature_map_count).map (fun g =>
                sample_expf (s.floats 1 (e * two_maps.input_neuron_count + n +
                  g * two_maps.input_neuron_count_per_feature_map)))).sum ∧
          0 < sample_expf (s.floats 1 (e * two_maps.input_neuron_count + n +
                f * two_maps.input_neuron_count_per_feature_map)) /
              ((List.range two_maps.feature_map_count).map (fun g =>
                sample_expf (s.floats 1 (e * two_maps.input_neuron_count + n +
                  g * two_maps.input_neuron_count_per_feature_map)))).sum) ∧
        (1 ≤ two_maps.feature_map_count →
          ((List.range two_maps.feature_map_count).map (fun f =>
            sample_expf (s.floats 1 (e * two_maps.input_neuron_count + n +
                f * two_maps.input_neuron_count_per_feature_map)) /
              ((List.range two_maps.feature_map_count).map (fun g =>
                sample_expf (s.floats 1 (e * two_maps.input_neuron_count + n +
                  g * two_maps.input_neuron_count_per_feature_map)))).sum)).sum = 1)) ∧
    (∃ final : softmax_test_state ℚ,
      softmax_layer_hessian_plain.test sample_expf two_maps 1 2 2 softmax_test_sample = some final ∧
      final.local_additional_buffer.length = two_maps.feature_map_count ∧
      final.written.map Prod.fst = softmax_test_sample.written.map Prod.fst ++
        test_positions two_maps
          (List.range (2 * two_maps.input_neuron_count_per_feature_map)) ∧
      ((1 : Buf) ≠ 2 → final.floats 1 = softmax_test_sample.floats 1) ∧
      (two_maps.feature_map_count * two_maps.input_neuron_count_per_feature_map ≤
          two_maps.input_neuron_count →
        ∀ e n f, e < 2 → n < two_maps.input_neuron_count_per_feature_map →
          f < two_maps.feature_map_count →
          final.floats 2 (e * two_maps.input_neuron_count + n +
              f * two_maps.input_neuron_count_per_feature_map) =
            sample_expf (softmax_test_sample.floats 1 (e * two_maps.input_neuron_count + n +
                f * two_maps.input_neuron_count_per_feature_map)) /
              ((List.range two_maps.feature_map_count).map (fun g =>
                sample_expf (softmax_test_sample.floats 1 (e * two_maps.input_neuron_count + n +
                  g * two_maps.input_neuron_count_per_feature_map)))).sum)) ∧
    (two_maps.input_neuron_count =
        two_maps.feature_map_count * two_maps.input_neuron_count_per_feature_map →
      (test_positions two_maps
        (List.range (2 * two_maps.input_neuron_count_per_feature_map))).Perm
        (List.range (2 * two_maps.input_neuron_count)))) :=
  ⟨sample_expf_pos, rfl,
    by
      have hr : List.range 2 = [0, 1] := rfl
      simp [softmax_layer_hessian_plain.test, test_schedule, test_workload, test_exp_step,
        test_write_step, workload_base, two_maps, softmax_test_sample,
        sample_expf, hr]
      norm_num,
    c23_softmax_test_writes sample_expf sample_expf_pos
      two_maps 1 2 2 1 softmax_test_sample rfl⟩

/-- The same for the real exponential: from a state whose scratch vector
has `feature_map_count` elements `test` completes, and when
`F * P <= N` every output element of every entry, neuron position and
feature map is `exp(input) / (sum over the feature maps of exp(input))`. -/
theorem softmax_test_real_exp (cfg : softmax_configuration) (ib ob : Buf)
    (entry_count : Nat) (st : softmax_test_state ℝ)
    (hlen : st.local_additional_buffer.length = cfg.feature_map_count)
    (hFP : cfg.feature_map_count * cfg.input_neuron_count_per_feature_map ≤
      cfg.input_neuron_count) :
    ∃ final : softmax_test_state ℝ,
      softmax_layer_hessian_plain.test Real.exp cfg ib ob entry_count st = some final ∧
      ∀ e n f, e < entry_count → n < cfg.input_neuron_count_per_feature_map →
        f < cfg.feature_map_count →
        final.floats ob (e * cfg.input_neuron_count + n +
            f * cfg.input_neuron_count_per_feature_map) =
          Real.exp (st.floats ib (e * cfg.input_neuron_count + n +
              f * cfg.input_neuron_count_per_feature_map)) /
            ((List.range cfg.feature_map_count).map (fun g =>
              Real.exp (st.floats ib (e * cfg.input_neuron_count + n +
                g * cfg.input_neuron_count_per_feature_map)))).sum := by
  obtain ⟨final, r1, _⟩ := test_schedule_runs Real.exp cfg ib ob
    (List.range (entry_count * cfg.input_neuron_count_per_feature_map)) st hlen
  refine ⟨final, r1, ?_⟩
  intro e n f he hn hf
  have hP : 0 < cfg.input_neuron_count_per_feature_map := by omega
  have hmem : e * cfg.input_neuron_count_per_feature_map + n ∈
      List.range (entry_count * cfg.input_neuron_count_per_feature_map) := by
    rw [List.mem_range]
    have := Nat.mul_le_mul_right cfg.input_neuron_count_per_feature_map
      (Nat.succ_le_of_lt he)
    rw [Nat.succ_mul] at this
    omega
  have h := test_schedule_contents Real.exp cfg ib ob hP hFP _ st final hlen
    (List.nodup_range _) r1 _ hmem f hf
  rw [workload_base_of cfg e n hn] at h
  simpa only [mul_one_div] using h
/-! ## Runs of `actual_update` that stay inside their containers -/

/-- On a call that is in bounds the two reorganisations of lines 111-119
complete. -/
theorem reorganisation_defined (u : network_updater_plain) (c : Call)
    (hrep : 0 < c.updater_entry_count) (hb : InBounds u c) :
    (∃ rows, data_list_reorganized c.data_list u.testing_layer_count = some rows) ∧
    ∃ rows, training_speed_vector_list_reorganized c.data_list c.training_speed_vector_list
      u.testing_layer_count = some rows := by
  have hlen : c.data_list.length = c.updater_entry_count := by simp [Call.data_list]
  have hk : u.testing_layer_count ≤ u.layer_list.length := by
    have := hb.split
    omega
  constructor
  · obtain ⟨rows, h, _⟩ := reorganize_spec c.data_list u.testing_layer_count
      c.data_layer_count c.updater_entry_count hrep (by omega)
      (fun row hrow => by
        simp only [Call.data_list, List.mem_replicate] at hrow
        rw [hrow.2, List.length_range])
      (by rw [hb.data]; exact hk)
    exact ⟨rows, by simp only [data_list_reorganized, hlen]; exact h⟩
  · obtain ⟨rows, h, _⟩ := reorganize_spec c.training_speed_vector_list u.testing_layer_count
      c.training_speed_layer_count c.updater_entry_count hrep
      (by simp only [Call.training_speed_vector_list, List.length_replicate]; exact hb.replicas)
      (fun row hrow => by
        simp only [Call.training_speed_vector_list, List.mem_replicate] at hrow
        rw [hrow.2, List.length_range])
      (by rw [hb.speeds]; exact hk)
    exact ⟨rows, by simp only [training_speed_vector_list_reorganized, hlen]; exact h⟩

theorem actual_update_eq_loop {ω : Type} (K : Kernels ω) (u : network_updater_plain)
    (c : Call) (fuel : Nat) (mem : Memory ω) (ecu : Nat)
    (hmap : dropout_check u.testing_layer_count c.layer_to_dropout_rate_map = none)
    (hrep : 0 < c.updater_entry_count) (hb : InBounds u c) :
    actual_update K u c fuel mem ecu =
      update_loop K u c (allocate_buffers K u c) fuel (State.at_loop_entry c mem ecu) := by
  have hz : ¬ c.updater_entry_count = 0 := by omega
  obtain ⟨⟨rows, h1⟩, speeds, h2⟩ := reorganisation_defined u c hrep hb
  have he : u.updater_list.isEmpty = false := by
    cases hl : u.updater_list with
    | nil => exact absurd hl hb.updaters
    | cons x xs => rfl
  simp only [actual_update, hmap, hz, if_false, h1, h2, he, Bool.false_eq_true]

/-- The run of `actual_update` on a stream of `n` entries with profile mode
off, at least one replica, capacity at least one and a dropout map that
passes the check, on a call that is in bounds. -/
theorem actual_update_finishes {ω : Type} (K : Kernels ω) (u : network_updater_plain)
    (c : Call) (n fuel : Nat) (mem : Memory ω) (ecu : Nat)
    (hprofile : u.profile_mode = false) (hrep : 0 < c.updater_entry_count)
    (hcap : 0 < max_entry_count c)
    (hmap : ∀ p, p ∈ c.layer_to_dropout_rate_map → u.testing_layer_count + 1 ≤ p.1)
    (hb : InBounds u c)
    (hsome : ∀ i, i < n → (c.reader i).isSome) (hnone : c.reader n = none)
    (hfuel : n < fuel) :
    ∃ final : State ω,
      actual_update K u c fuel mem ecu = .returned final.res final ∧
      Finished c n (State.at_loop_entry c mem ecu) final ∧
      (n = 0 → final.res =
        List.replicate c.training_speed_count (testing_result.new c.output_neuron_count)) := by
  have hd := (dropout_check_none_iff u.testing_layer_count _).2 hmap
  rw [actual_update_eq_loop K u c fuel mem ecu hd hrep hb]
  obtain ⟨t, h1, h2, h3⟩ := update_loop_exhausts K u c hprofile hcap fuel 0 n
    (State.at_loop_entry c mem ecu) (loop_entry_inv c mem ecu)
    (fun i hi => by simpa using hsome i hi) (by simpa using hnone) hfuel
  simp only [Nat.zero_mul, Nat.zero_add] at h2
  exact ⟨t, h1, h2, fun h0 => by rw [h3 h0]; rfl⟩

/-- The sample updater and the sample calls with at least as many
training-speed vectors as replicas are in bounds. -/
theorem sample_in_bounds (profile_mode : Bool) (n replicas training_speeds cap : Nat)
    (dropout : List (Nat × ℚ)) (h : replicas ≤ training_speeds) :
    InBounds (sample_updater profile_mode) (sample_call n replicas training_speeds cap dropout) :=
  { configs := rfl
    data := rfl
    speeds := rfl
    replicas := h
    input_shape := rfl
    inputs := Nat.one_pos
    testers := rfl
    split := rfl
    updaters := by simp [sample_updater, network_updater_plain.new, find_start]
    targets := by simp [actual_output_buf_size, sample_call] }

/-- C6 fails as stated: profile mode is off, there is one replica, the
capacity is two and the reader holds exactly three entries, but the dropout
map names layer 1, the first layer with weights, and `actual_update` throws
before it has read or processed any entry. -/
theorem c6_rejected_dropout_map_reads_nothing :
    (sample_updater false).profile_mode = false ∧
    0 < (sample_call 3 1 1 2 [(1, 1 / 2)]).updater_entry_count ∧
    1 ≤ max_entry_count (sample_call 3 1 1 2 [(1, 1 / 2)]) ∧
    (∀ i, i < 3 → ((sample_call 3 1 1 2 [(1, 1 / 2)]).reader i).isSome) ∧
    (sample_call 3 1 1 2 [(1, 1 / 2)]).reader 3 = none ∧
    ∀ fuel, ∃ final : State Unit,
      actual_update idle_kernels (sample_updater false) (sample_call 3 1 1 2 [(1, 1 / 2)])
        fuel zero_memory 0 = .threw (dropout_error 1) final ∧
      final.reads = 0 ∧ final.entry_log = [] ∧ final.batch_log = [] :=
  ⟨rfl, by decide, by decide,
    fun i hi => by simp [sample_call, constant_reader, hi], by simp [sample_call, constant_reader],
    fun _ => ⟨_, rfl, rfl, rfl, rfl⟩⟩

/-- C6 as amended: with profile mode off, at least one replica, a
macro-batch capacity of at least one, a dropout map that passes the check
of lines 74-77 and a call that is in bounds, on a reader whose `read`
succeeds exactly `n` times and then fails, `actual_update` returns (any fuel
above `n` is enough); it has called `read` `n + 1` times, has processed the
entries `0, ..., n - 1` of the stream once each in this order, in
macro-batches of `max_entry_count` entries followed by the shorter rest if
there is one, and every result has `entry_count = n`. For `n = 0` the
results are as constructed: no entries, all cumulative errors zero. -/
theorem c6_stream_processed_once_in_order {ω : Type} (K : Kernels ω)
    (u : network_updater_plain) (c : Call) (n fuel : Nat) (mem : Memory ω) (ecu : Nat)
    (hprofile : u.profile_mode = false) (hrep : 0 < c.updater_entry_count)
    (hcap : 0 < max_entry_count c)
    (hmap : ∀ p, p ∈ c.layer_to_dropout_rate_map → u.testing_layer_count + 1 ≤ p.1)
    (hb : InBounds u c)
    (hsome : ∀ i, i < n → (c.reader i).isSome) (hnone : c.reader n = none)
    (hfuel : n < fuel) :
    ∃ final : State ω,
      actual_update K u c fuel mem ecu = .returned final.res final ∧
      final.reads = n + 1 ∧
      final.entry_log.map (fun r => r.stream_index) = List.range n ∧
      final.batch_log = batch_sizes n (max_entry_count c) ∧
      final.res.length = c.training_speed_count ∧
      (∀ x, x ∈ final.res → x.entry_count = n) ∧
      (n = 0 → ∀ x, x ∈ final.res →
        x.entry_count = 0 ∧ ∀ v, v ∈ x.cumulative_mse_list → v = 0) := by
  obtain ⟨final, h1, h2, h3⟩ := actual_update_finishes K u c n fuel mem ecu hprofile hrep hcap
    hmap hb hsome hnone hfuel
  refine ⟨final, h1, h2.reads, h2.entry_log, h2.batch_log, h2.length,
    fun x hx => (h2.shape x hx).2, ?_⟩
  intro h0 x hx
  rw [h3 h0, List.mem_replicate] at hx
  rw [hx.2]
  exact ⟨rfl, fun v hv => (List.mem_replicate.1 hv).2⟩

/-- Witness for C6 as amended: three entries, capacity two. -/
theorem c6_stream_processed_once_in_order_witness :
    (sample_updater false).profile_mode = false ∧
    0 < (sample_call 3 1 1 2 [(2, 1 / 2)]).updater_entry_count ∧
    0 < max_entry_count (sample_call 3 1 1 2 [(2, 1 / 2)]) ∧
    (∀ p, p ∈ (sample_call 3 1 1 2 [(2, 1 / 2)]).layer_to_dropout_rate_map →
      (sample_updater false).testing_layer_count + 1 ≤ p.1) ∧
    InBounds (sample_updater false) (sample_call 3 1 1 2 [(2, 1 / 2)]) ∧
    (∀ i, i < 3 → ((sample_call 3 1 1 2 [(2, 1 / 2)]).reader i).isSome) ∧
    (sample_call 3 1 1 2 [(2, 1 / 2)]).reader 3 = none ∧
    ∃ final : State Unit,
      actual_update idle_kernels (sample_updater false) (sample_call 3 1 1 2 [(2, 1 / 2)]) 4
        zero_memory 0 = .returned final.res final ∧
      final.reads = 3 + 1 ∧
      final.entry_log.map (fun r => r.stream_index) = List.range 3 ∧
      final.batch_log = batch_sizes 3 (max_entry_count (sample_call 3 1 1 2 [(2, 1 / 2)])) ∧
      final.res.length = (sample_call 3 1 1 2 [(2, 1 / 2)]).training_speed_count ∧
      (∀ x, x ∈ final.res → x.entry_count = 3) ∧
      (3 = 0 → ∀ x, x ∈ final.res →
        x.entry_count = 0 ∧ ∀ v, v ∈ x.cumulative_mse_list → v = 0) :=
  ⟨rfl, by decide, by decide, by simp [sample_call]; decide,
    sample_in_bounds false 3 1 1 2 _ (Nat.le_refl _),
    fun i hi => by simp [sample_call, constant_reader, hi], by simp [sample_call, constant_reader],
    c6_stream_processed_once_in_order idle_kernels (sample_updater false)
      (sample_call 3 1 1 2 [(2, 1 / 2)]) 3 4 zero_memory 0 rfl (by decide) (by decide)
      (by simp [sample_call]; decide) (sample_in_bounds false 3 1 1 2 _ (Nat.le_refl _))
      (fun i hi => by simp [sample_call, constant_reader, hi])
      (by simp [sample_call, constant_reader]) (by decide)⟩

/-- C7 fails as stated: on a stream of three entries with profile mode off
and one replica, a dropout map that names layer 0 makes `actual_update`
throw; no result sequence is returned and replica `0` has no result whose
cumulative errors could be the half sums. -/
theorem c7_rejected_dropout_map_leaves_no_result :
    (sample_updater false).profile_mode = false ∧
    0 < (sample_call 3 1 1 2 [(0, 1 / 2)]).updater_entry_count ∧
    (∀ i, i < 3 → ((sample_call 3 1 1 2 [(0, 1 / 2)]).reader i).isSome) ∧
    (sample_call 3 1 1 2 [(0, 1 / 2)]).reader 3 = none ∧
    ∀ fuel,
      (actual_update idle_kernels (sample_updater false) (sample_call 3 1 1 2 [(0, 1 / 2)])
        fuel zero_memory 0).returned_state = none ∧
      ∃ final : State Unit,
        actual_update idle_kernels (sample_updater false) (sample_call 3 1 1 2 [(0, 1 / 2)])
          fuel zero_memory 0 = .threw (dropout_error 0) final ∧
        final.res[0]? = none :=
  ⟨rfl, by decide,
    fun i hi => by simp [sample_call, constant_reader, hi], by simp [sample_call, constant_reader],
    fun _ => ⟨rfl, _, rfl, rfl⟩⟩

/-- C7 as amended: in exact arithmetic, under the conditions of C6 as
amended (a dropout map that passes the check, a call that is in bounds),
`actual_update` on a stream of `n` entries returns, every replica `r` has a
result, and slot `o` of that result holds half the sum, over the `n`
entries, of the squared difference between target `o` of the entry and
element `r * output_neuron_count + o` of the output buffer after the forward
pass for that entry; `temp_mse_buf` is all zero when the call returns, and
it is all zero after any flush of an accumulator of its size. -/
theorem c7_cumulative_mse_is_half_sum_of_squares {ω : Type} (K : Kernels ω)
    (u : network_updater_plain) (c : Call) (n fuel : Nat) (mem : Memory ω) (ecu : Nat)
    (hprofile : u.profile_mode = false) (hrep : 0 < c.updater_entry_count)
    (hcap : 0 < max_entry_count c)
    (hmap : ∀ p, p ∈ c.layer_to_dropout_rate_map → u.testing_layer_count + 1 ≤ p.1)
    (hb : InBounds u c)
    (hsome : ∀ i, i < n → (c.reader i).isSome) (hnone : c.reader n = none)
    (hfuel : n < fuel) :
    (∃ final : State ω,
      actual_update K u c fuel mem ecu = .returned final.res final ∧
      final.entry_log.map (fun r => r.stream_index) = List.range n ∧
      (∀ i, final.temp_mse_buf i = 0) ∧
      ∀ r o, r < c.updater_entry_count → o < c.output_neuron_count →
        ∃ result, final.res[r]? = some result ∧
          result.cumulative_mse_list[o]? =
            some (1 / 2 * (final.entry_log.map (fun e =>
              (target_of c e.stream_index o -
                e.predicted (r * c.output_neuron_count + o)) ^ 2)).sum)) ∧
    ∀ s : State ω,
      (∀ i, c.output_neuron_count * c.updater_entry_count ≤ i → s.temp_mse_buf i = 0) →
      ∀ i, (flush_statistics c s).temp_mse_buf i = 0 := by
  obtain ⟨final, h1, h2, _⟩ := actual_update_finishes K u c n fuel mem ecu hprofile hrep hcap
    hmap hb hsome hnone hfuel
  refine ⟨⟨final, h1, h2.entry_log, h2.temp, ?_⟩, flush_statistics_zeroes c⟩
  intro r o hr ho
  have hlt : r < final.res.length := by
    rw [h2.length]
    exact Nat.lt_of_lt_of_le hr hb.replicas
  exact ⟨final.res[r], List.getElem?_eq_getElem hlt,
    mse_of_inv c n final h2.mse h2.temp h2.shape r o _ hr ho (List.getElem?_eq_getElem hlt)⟩

/-- Witness for C7 as amended: three entries, capacity two. -/
theorem c7_cumulative_mse_is_half_sum_of_squares_witness :
    (sample_updater false).profile_mode = false ∧
    0 < (sample_call 3 1 1 2 [(2, 1 / 2)]).updater_entry_count ∧
    0 < max_entry_count (sample_call 3 1 1 2 [(2, 1 / 2)]) ∧
    (∀ p, p ∈ (sample_call 3 1 1 2 [(2, 1 / 2)]).layer_to_dropout_rate_map →
      (sample_updater false).testing_layer_count + 1 ≤ p.1) ∧
    InBounds (sample_updater false) (sample_call 3 1 1 2 [(2, 1 / 2)]) ∧
    (∀ i, i < 3 → ((sample_call 3 1 1 2 [(2, 1 / 2)]).reader i).isSome) ∧
    (sample_call 3 1 1 2 [(2, 1 / 2)]).reader 3 = none ∧
    ((∃ final : State Unit,
      actual_update idle_kernels (sample_updater false) (sample_call 3 1 1 2 [(2, 1 / 2)]) 4
        zero_memory 0 = .returned final.res final ∧
      final.entry_log.map (fun r => r.stream_index) = List.range 3 ∧
      (∀ i, final.temp_mse_buf i = 0) ∧
      ∀ r o, r < (sample_call 3 1 1 2 [(2, 1 / 2)]).updater_entry_count →
        o < (sample_call 3 1 1 2 [(2, 1 / 2)]).output_neuron_count →
        ∃ result, final.res[r]? = some result ∧
          result.cumulative_mse_list[o]? =
            some (1 / 2 * (final.entry_log.map (fun e =>
              (target_of (sample_call 3 1 1 2 [(2, 1 / 2)]) e.stream_index o -
                e.predicted (r * (sample_call 3 1 1 2 [(2, 1 / 2)]).output_neuron_count + o)) ^ 2)
              ).sum)) ∧
    ∀ s : State Unit,
      (∀ i, (sample_call 3 1 1 2 [(2, 1 / 2)]).output_neuron_count *
        (sample_call 3 1 1 2 [(2, 1 / 2)]).updater_entry_count ≤ i → s.temp_mse_buf i = 0) →
      ∀ i, (flush_statistics (sample_call 3 1 1 2 [(2, 1 / 2)]) s).temp_mse_buf i = 0) :=
  ⟨rfl, by decide, by decide, by simp [sample_call]; decide,
    sample_in_bounds false 3 1 1 2 _ (Nat.le_refl _),
    fun i hi => by simp [sample_call, constant_reader, hi], by simp [sample_call, constant_reader],
    c7_cumulative_mse_is_half_sum_of_squares idle_kernels (sample_updater false)
      (sample_call 3 1 1 2 [(2, 1 / 2)]) 3 4 zero_memory 0 rfl (by decide) (by decide)
      (by simp [sample_call]; decide) (sample_in_bounds false 3 1 1 2 _ (Nat.le_refl _))
      (fun i hi => by simp [sample_call, constant_reader, hi])
      (by simp [sample_call, constant_reader]) (by decide)⟩

/-- The call `short_stream_call` is in bounds for the sample updater. -/
theorem short_stream_in_bounds (profile_mode : Bool) :
    InBounds (sample_updater profile_mode) short_stream_call :=
  { configs := rfl
    data := rfl
    speeds := rfl
    replicas := Nat.le_refl _
    input_shape := rfl
    inputs := Nat.one_pos
    testers := rfl
    split := rfl
    updaters := by simp [sample_updater, network_updater_plain.new, find_start]
    targets := by decide }

/-- C8 as amended: with profile mode on, at least one replica, a capacity of
at least one, a dropout map that passes the check, a call that is in bounds
and a reader whose first `n >= 1` reads succeed (the next one failing unless
`n` reaches the capacity), `actual_update` returns after exactly one
macro-batch, of `min max_entry_count n` entries, and
`entry_count_updated_in_profile_mode` is that number. -/
theorem c8_profile_mode_single_macro_batch {ω : Type} (K : Kernels ω)
    (u : network_updater_plain) (c : Call) (n fuel : Nat) (mem : Memory ω) (ecu : Nat)
    (hprofile : u.profile_mode = true) (hrep : 0 < c.updater_entry_count)
    (hcap : 0 < max_entry_count c)
    (hmap : ∀ p, p ∈ c.layer_to_dropout_rate_map → u.testing_layer_count + 1 ≤ p.1)
    (hb : InBounds u c)
    (hn : 0 < n) (hsome : ∀ i, i < n → (c.reader i).isSome)
    (hnone : n < max_entry_count c → c.reader n = none) (hfuel : 0 < fuel) :
    ∃ final : State ω,
      actual_update K u c fuel mem ecu = .returned final.res final ∧
      final.batch_log = [min (max_entry_count c) n] ∧
      final.entry_count_updated_in_profile_mode = min (max_entry_count c) n ∧
      final.entry_log.map (fun r => r.stream_index) =
        List.range (min (max_entry_count c) n) ∧
      ∀ x, x ∈ final.res → x.entry_count = min (max_entry_count c) n := by
  have hd := (dropout_check_none_iff u.testing_layer_count _).2 hmap
  rw [actual_update_eq_loop K u c fuel mem ecu hd hrep hb]
  have hinv := loop_entry_inv c mem ecu
  have hreads : (State.at_loop_entry c mem ecu).reads = 0 := rfl
  obtain ⟨t, m1, _, m3, m4, m5, _, m7, _, _, _⟩ := macro_batch_spec K u c
    (State.at_loop_entry c mem ecu) (min (max_entry_count c) n) (Nat.min_le_left _ _)
    (fun i hi => by
      rw [hreads, Nat.zero_add]
      exact hsome i (Nat.lt_of_lt_of_le hi (Nat.min_le_right _ _)))
    (fun hlt => by
      have hk : min (max_entry_count c) n = n := by omega
      rw [hreads, Nat.zero_add, hk]
      exact hnone (by omega))
  have hk0 : ¬ min (max_entry_count c) n = 0 := by omega
  simp only [hk0, hprofile, if_false, if_true, ne_eq, not_false_eq_true, and_self] at m1 m3 m5
  obtain ⟨fuel', rfl⟩ : ∃ f, fuel = f + 1 := ⟨fuel - 1, by omega⟩
  refine ⟨t, by simp only [update_loop, m1], ?_, m5, ?_, ?_⟩
  · rw [m3, hinv.batch_log]; rfl
  · rw [m4, hinv.entry_log, hreads]
    simp [List.range_eq_range']
  · intro x hx
    have := (m7 _ hinv.shape x hx).2
    simpa using this

/-- Witness for C8 as amended: a reader that delivers one entry, capacity
two. -/
theorem c8_profile_mode_single_macro_batch_witness :
    (sample_updater true).profile_mode = true ∧
    0 < short_stream_call.updater_entry_count ∧
    0 < max_entry_count short_stream_call ∧
    (∀ p, p ∈ short_stream_call.layer_to_dropout_rate_map →
      (sample_updater true).testing_layer_count + 1 ≤ p.1) ∧
    InBounds (sample_updater true) short_stream_call ∧
    (∀ i, i < 1 → (short_stream_call.reader i).isSome) ∧
    (1 < max_entry_count short_stream_call → short_stream_call.reader 1 = none) ∧
    ∃ final : State Unit,
      actual_update idle_kernels (sample_updater true) short_stream_call 1 zero_memory 0 =
        .returned final.res final ∧
      final.batch_log = [min (max_entry_count short_stream_call) 1] ∧
      final.entry_count_updated_in_profile_mode = min (max_entry_count short_stream_call) 1 ∧
      final.entry_log.map (fun r => r.stream_index) =
        List.range (min (max_entry_count short_stream_call) 1) ∧
      ∀ x, x ∈ final.res → x.entry_count = min (max_entry_count short_stream_call) 1 :=
  ⟨rfl, by decide, by decide, by simp [short_stream_call, sample_call],
    short_stream_in_bounds true,
    fun i hi => by simp [short_stream_call, constant_reader, hi],
    fun _ => by simp [short_stream_call, constant_reader],
    c8_profile_mode_single_macro_batch idle_kernels (sample_updater true) short_stream_call
      1 1 zero_memory 0 rfl (by decide) (by decide)
      (by simp [short_stream_call, sample_call]) (short_stream_in_bounds true) (by decide)
      (fun i hi => by simp [short_stream_call, constant_reader, hi])
      (fun _ => by simp [short_stream_call, constant_reader]) (by decide)⟩

end plain
end nnforge
